import Mathlib

/-!
Verification of `tools/adhoc_mentorlink_autoclose/auto_close_mentors.py`.

The script patches a mentors YAML file: for each selected mentor it removes the
current month from the `availability` field and sets `sort: 100`, by surgical
line-level text edits.  We embed the text-patch engine
(`build_mentor_blocks`, `patch_availability_and_sort_in_block`,
`apply_text_patches`) and the decision engine (the `to_update` loop) as pure
functions over `List Char`.

Modelling scope (documented once here):
* Strings are `List Char`.  Python's `str.splitlines(keepends=True)` is
  modelled for the `\n`, `\r\n` and `\r` terminators (the exotic Unicode
  terminators are out of scope).
* Python's regex classes `\s` and `\d` are modelled at their ASCII meaning,
  `unidecode` as the identity, and `str.lower` per `Char.toLower`.
* The regex patterns of the script are compiled by hand into parse functions
  whose semantics were derived from the Python `re` engine (greedy/lazy
  backtracking and the `$` = end-or-before-final-newline rule), on inputs that
  are single lines as produced by `splitlines` (no interior terminator).
-/

namespace AutoClose

/-- A document line (possibly carrying its terminator), as a list of chars. -/
abbrev Line := List Char

/-- Python regex `\s` at ASCII scope: space, tab, LF, CR, VT, FF. -/
def isSpace (c : Char) : Bool :=
  c == ' ' || c == '\t' || c == '\n' || c == '\r' || c == '\x0b' || c == '\x0c'

/-- Remove trailing whitespace (the right half of Python `str.strip`). -/
def dropTrailingSpace (l : Line) : Line :=
  (l.reverse.dropWhile isSpace).reverse

/-- Python `str.strip()` at ASCII scope. -/
def stripSpace (l : Line) : Line :=
  dropTrailingSpace (l.dropWhile isSpace)

/-- Drop one final `'\n'` if present: the region a regex `$` may leave
unconsumed (Python `$` matches at end or just before a final newline). -/
def dropFinalLF (l : Line) : Line :=
  if l.getLast? == some '\n' then l.dropLast else l

/-- `line_ending` of the script: `\r\n`, `\r`, else `\n` (by `endswith`). -/
def line_ending (s : Line) : Line :=
  if ['\r', '\n'].isSuffixOf s then ['\r', '\n']
  else if ['\r'].isSuffixOf s then ['\r']
  else ['\n']

/-- Accumulator step of `splitlines(keepends=True)`. -/
def splitlinesGo (acc : Line) : Line → List Line
  | [] => if acc.isEmpty then [] else [acc.reverse]
  | '\r' :: '\n' :: rest => (acc.reverse ++ ['\r', '\n']) :: splitlinesGo [] rest
  | '\r' :: rest => (acc.reverse ++ ['\r']) :: splitlinesGo [] rest
  | '\n' :: rest => (acc.reverse ++ ['\n']) :: splitlinesGo [] rest
  | c :: rest => splitlinesGo (c :: acc) rest
termination_by structural l => l

/-- Python `text.splitlines(True)` (for `\n` / `\r\n` / `\r` terminators). -/
def splitlines (text : Line) : List Line :=
  splitlinesGo [] text

/-- Python `"".join(lines)`. -/
def joinLines (ls : List Line) : Line :=
  ls.foldr (fun a b => a ++ b) []

/-- Value of a run of decimal digit characters (`int` on a digit string). -/
def digitsToNat (l : Line) : Nat :=
  l.foldl (fun a c => 10 * a + (c.toNat - 48)) 0

/-- Decimal digit character of `d < 10`. -/
def digitChar (d : Nat) : Char :=
  Char.ofNat (48 + d)

/-- Fuelled decimal printer. -/
def natDigitsGo : Nat → Nat → Line → Line
  | 0, _, acc => acc
  | f + 1, n, acc => if n = 0 then acc else natDigitsGo f (n / 10) (digitChar (n % 10) :: acc)

/-- Decimal representation of a natural, as Python `str(n)` for `n ≥ 0`. -/
def natDigits (n : Nat) : Line :=
  if n = 0 then ['0'] else natDigitsGo (n + 1) n []

/-- One step (from the right) of the `re.findall(r'\d+', s)` scan: the state is
the digit run currently open on the left, plus the numbers already found. -/
def extractStep (c : Char) (st : Line × List Nat) : Line × List Nat :=
  if c.isDigit then (c :: st.1, st.2)
  else ([], if st.1.isEmpty then st.2 else digitsToNat st.1 :: st.2)

/-- `[int(x) for x in re.findall(r'\d+', s)]`: all maximal digit runs of `s`. -/
def extractNums (l : Line) : List Nat :=
  let st := l.foldr extractStep ([], [])
  if st.1.isEmpty then st.2 else digitsToNat st.1 :: st.2

/-- Interleave a separator between lines. -/
def joinSep (sep : Line) : List Line → Line
  | [] => []
  | [x] => x
  | x :: y :: xs => x ++ sep ++ joinSep sep (y :: xs)

/-- Rendering `"[" + ", ".join(str(n) for n in l) + "]"` (or `"[]"`). -/
def renderNums (l : List Nat) : Line :=
  if l.isEmpty then "[]".toList
  else '[' :: (joinSep ", ".toList (l.map natDigits) ++ [']'])

/-- Python `s.split()` (whitespace words, empties dropped). -/
def splitWords : Line → List Line
  | [] => []
  | c :: rest =>
    if isSpace c then splitWords rest
    else
      match splitWords rest with
      | [] => [[c]]
      | w :: ws =>
        match rest with
        | [] => [[c]]
        | d :: _ => if isSpace d then [c] :: w :: ws else (c :: w) :: ws

/-- `normalize_text` / `normalize_name` of the script:
`" ".join(unidecode(str(s)).strip().lower().split())`, with `unidecode`
modelled as the identity (ASCII scope) and `.strip()` subsumed by `.split()`. -/
def normalize (s : Line) : Line :=
  joinSep [' '] (splitWords (s.map Char.toLower))

/-- Python `int(str(x).strip())` on an already-stripped string: optional sign,
then a nonempty digit run (digit-grouping underscores are not modelled). -/
def parseInt? (s : Line) : Option Int :=
  match s with
  | '-' :: ds => if ds ≠ [] ∧ ds.all Char.isDigit then some (-(digitsToNat ds : Int)) else none
  | '+' :: ds => if ds ≠ [] ∧ ds.all Char.isDigit then some ((digitsToNat ds : Int)) else none
  | ds => if ds ≠ [] ∧ ds.all Char.isDigit then some ((digitsToNat ds : Int)) else none

/-- A scalar YAML value as the decision engine sees it after `yaml.load`. -/
inductive YVal where
  | vnone : YVal
  | vint : Int → YVal
  | vstr : Line → YVal
  | vlist : List YVal → YVal

/-- `ensure_int(x) = int(str(x).strip())`-or-`None` of the script:
an int passes through; a string is stripped and parsed; `None` and lists fail
(`int("None")` / `int("[...]")` raise). -/
def ensure_int : YVal → Option Int
  | .vint n => some n
  | .vstr s => parseInt? (stripSpace s)
  | .vnone => none
  | .vlist _ => none

/-- Split on `','` as Python `value.split(",")` (keeps empty parts). -/
def splitCommaGo : Line → Line → List Line
  | [], acc => [acc.reverse]
  | ',' :: rest, acc => acc.reverse :: splitCommaGo rest []
  | c :: rest, acc => splitCommaGo rest (c :: acc)

/-- Python `value.split(",")`. -/
def splitComma (l : Line) : List Line :=
  splitCommaGo l []

/-- `as_int_list` of the script: `None ↦ []`; a list keeps its int-convertible
elements; a string is split on commas, each part stripped and parsed; any
other scalar becomes a singleton when int-convertible. -/
def as_int_list : YVal → List Int
  | .vnone => []
  | .vlist xs => xs.filterMap ensure_int
  | .vstr s => (splitComma s).filterMap (fun p => parseInt? (stripSpace p))
  | .vint n => [n]

/-- Mentor record as the read-only YAML pass exposes it to the decision
engine.  `name` stands for `mentor_display_name(item)` (the first non-empty
key among name/full_name/mentor/title, else first+last name, else `""`);
that key-fallback chain is collapsed into a single display-name field. -/
structure MentorItem where
  name : Line
  hours : YVal
  availability : YVal

/-- Last-wins association lookup (a Python dict built by repeated assignment,
queried by `get`). -/
def lookupLast (ps : List (Line × Line)) (k : Line) : Option Line :=
  ps.foldl (fun acc p => if p.1 = k then some p.2 else acc) none

/-- The `display_by_norm` map of the script: normalized name to display name
as it appears in the file; empty normalized names are skipped. -/
def displayByNorm (mentors : List MentorItem) : List (Line × Line) :=
  mentors.filterMap fun m =>
    let nm := normalize m.name
    if nm = [] then none else some (nm, m.name)

/-- One iteration of the decision loop (lines 382-400 of the script) for the
counts entry `(k, count)`: `None` means the mentor is skipped (with a warning
where the script logs one), `some disp` means `disp` is appended to
`to_update`. -/
def selectEntry (mentors : List MentorItem) (month : Nat) (k : Line) (count : Nat) :
    Option Line :=
  match lookupLast (displayByNorm mentors) k with
  | none => none
  | some disp =>
    if disp = [] then none
    else
      match mentors.find? (fun m => normalize m.name == k) with
      | none => none
      | some mitem =>
        match ensure_int mitem.hours with
        | none => none
        | some hours =>
          if hours ≤ (count : Int) ∧ (month : Int) ∈ as_int_list mitem.availability
          then some disp else none

/-- The decision engine: the `to_update` worklist built from the counts. -/
def to_update (counts : List (Line × Nat)) (mentors : List MentorItem) (month : Nat) :
    List Line :=
  counts.filterMap fun p => selectEntry mentors month p.1 p.2

/-- The record-start pattern `^(\s*)-\s*name:\s*(.+?)\s*$` of
`build_mentor_blocks`, returning (indent, stripped raw name).  Derived
semantics: after `<ws>-<ws>name:` the rest of the line, with a final `'\n'`
set aside for `$`, must be nonempty; the captured name is that rest with
surrounding whitespace stripped (so a whitespace-only rest yields name `""`,
exactly as the lazy group plus `.strip()` does in Python). -/
def parseRecordStart (line : Line) : Option (Line × Line) :=
  let ind := line.takeWhile isSpace
  match line.dropWhile isSpace with
  | '-' :: r =>
    let r1 := r.dropWhile isSpace
    if r1.take 5 = "name:".toList then
      let rest := dropFinalLF (r1.drop 5)
      if rest = [] then none else some (ind, stripSpace rest)
    else none
  | _ => none

/-- Whether a line starts a mentor record. -/
def isRecordStart (line : Line) : Bool :=
  (parseRecordStart line).isSome

/-- Trailing part `\s*(#.*)?$` shared by the `sort:` and list-item patterns:
after setting aside a final `'\n'`, what remains must be whitespace,
optionally followed by a `#` comment running to the end. -/
def tailOk (r : Line) : Bool :=
  match (dropFinalLF r).dropWhile isSpace with
  | [] => true
  | '#' :: _ => true
  | _ => false

/-- Split the body of an availability header at its comment, as the groups
`(.*?)(\s*(#.*))?$` do: the comment group starts at the whitespace run that
immediately precedes the first `'#'`; before it, the (stripped) value text. -/
def splitAtComment (t : Line) : Line × Line :=
  let pre := t.takeWhile (fun c => c != '#')
  let post := t.dropWhile (fun c => c != '#')
  if post.isEmpty then (dropTrailingSpace pre, [])
  else (dropTrailingSpace pre, (pre.reverse.takeWhile isSpace).reverse ++ post)

/-- The availability-header pattern
`^(\s*)availability:\s*(.*?)(\s*(#.*))?$` (IGNORECASE), returning
(indent, `avail_rest` = stripped group 2, `avail_comment` = group 3 or `""`).
Derived semantics: the line after `<ws>availability:` splits, once a final
`'\n'` is set aside for `$`, into a stripped value part and the
whitespace-plus-`#`-comment suffix starting at the first `'#'`. -/
def parseAvailHdr (line : Line) : Option (Line × Line × Line) :=
  let ind := line.takeWhile isSpace
  let r1 := line.dropWhile isSpace
  if (r1.take 13).map Char.toLower = "availability:".toList then
    let body := (dropFinalLF (r1.drop 13)).dropWhile isSpace
    some (ind, splitAtComment body)
  else none

/-- The `sort:` pattern `^(\s*)sort:\s*(\d+)\s*(#.*)?$` (case sensitive),
returning (indent, integer value). -/
def parseSort (line : Line) : Option (Line × Nat) :=
  let ind := line.takeWhile isSpace
  let r := line.dropWhile isSpace
  if r.take 5 = "sort:".toList then
    let r1 := (r.drop 5).dropWhile isSpace
    let ds := r1.takeWhile Char.isDigit
    if ds ≠ [] ∧ tailOk (r1.dropWhile Char.isDigit) then some (ind, digitsToNat ds)
    else none
  else none

/-- The block-list item pattern `^(<item_indent>)-\s*(\d+)\s*([#].*)?$`:
the exact item indent, a dash, optional spaces, the integer, then `tailOk`. -/
def parseItem (ind : Line) (line : Line) : Option Nat :=
  if line.take ind.length = ind then
    match line.drop ind.length with
    | '-' :: r =>
      let r1 := r.dropWhile isSpace
      let ds := r1.takeWhile Char.isDigit
      if ds ≠ [] ∧ tailOk (r1.dropWhile Char.isDigit) then some (digitsToNat ds)
      else none
    | _ => none
  else none

/-- The sort-insertion skip test: `re.match(r'^\s*-\s*\d+\s*$', line.strip())`.
On a stripped line this demands a dash, optional spaces, then digits only. -/
def stripItemTest (line : Line) : Bool :=
  match stripSpace line with
  | '-' :: t =>
    let u := t.dropWhile isSpace
    !u.isEmpty && u.all Char.isDigit
  | _ => false

/-- Fuelled scan for the first availability header in `lines[i:e]`
(fuel `e - i`), returning (index, indent, `avail_rest`, `avail_comment`). -/
def findAvailGo (lines : List Line) (i : Nat) : Nat → Option (Nat × Line × Line × Line)
  | 0 => none
  | f + 1 =>
    match parseAvailHdr (lines.getD i []) with
    | some (ind, rest, com) => some (i, ind, rest, com)
    | none => findAvailGo lines (i + 1) f

/-- First availability header in `lines[s:e]` (the loop at lines 236-244). -/
def findAvailFrom (lines : List Line) (s e : Nat) : Option (Nat × Line × Line × Line) :=
  findAvailGo lines s (e - s)

/-- Fuelled scan for the first `sort:` line in `lines[i:e]` (fuel `e - i`),
returning (index, indent, value). -/
def findSortGo (lines : List Line) (i : Nat) : Nat → Option (Nat × Line × Nat)
  | 0 => none
  | f + 1 =>
    match parseSort (lines.getD i []) with
    | some (ind, v) => some (i, ind, v)
    | none => findSortGo lines (i + 1) f

/-- First `sort:` line in `lines[s:e]` (the loop at lines 304-314). -/
def findSortFrom (lines : List Line) (s e : Nat) : Option (Nat × Line × Nat) :=
  findSortGo lines s (e - s)

/-- The block-list item scan (lines 261-276): from `j` while `j < e` and the
line matches the item pattern, collecting the integers, their count, and the
line ending of the last item line (default `"\n"`).  Fuel is `e - j`. -/
def scanItemsGo (lines : List Line) (ind : Line) (j : Nat) : Nat → List Nat × Nat × Line
  | 0 => ([], 0, ['\n'])
  | f + 1 =>
    match parseItem ind (lines.getD j []) with
    | none => ([], 0, ['\n'])
    | some n =>
      let r := scanItemsGo lines ind (j + 1) f
      (n :: r.1, r.2.1 + 1, if r.2.1 = 0 then line_ending (lines.getD j []) else r.2.2)

/-- Item scan over `lines[j:e]`. -/
def scanItems (lines : List Line) (ind : Line) (j e : Nat) : List Nat × Nat × Line :=
  scanItemsGo lines ind j (e - j)

/-- The `while insert_at < len(lines) and <strip-item test>` loop (lines
323-325): fuelled by `len - i`, stops at the first failing index. -/
def skipItemsGo (lines : List Line) (i : Nat) : Nat → Nat
  | 0 => i
  | f + 1 => if stripItemTest (lines.getD i []) then skipItemsGo lines (i + 1) f else i

/-- First index `≥ i` (bounded by `lines.length`) failing the skip test. -/
def skipItemsFrom (lines : List Line) (i : Nat) : Nat :=
  skipItemsGo lines i (lines.length - i)

/-- The availability half of `patch_availability_and_sort_in_block` (lines
228-297).  Returns (lines, end, changed, header info) where the header info
`(idx, indent, nl)` feeds the sort half, and `end` carries the script's
decrements (`end -= 1` per deleted item line — note the script does not add
the reinserted item lines back to `end`).  The reversed `del` loop over the
consecutive item indices and the insertion loop are written as the equivalent
slice operations on the line list. -/
def availPhase (lines : List Line) (s e month : Nat) :
    List Line × Nat × Bool × Option (Nat × Line × Line) :=
  match findAvailFrom lines s e with
  | none => (lines, e, false, none)
  | some (h, ind, rest, com) =>
    let nl := line_ending (lines.getD h [])
    let hdr := some (h, ind, nl)
    if rest.contains '[' && rest.contains ']' then
      -- case A: inline flow style
      let nums := extractNums rest
      let new_nums := nums.filter (fun n => n != month)
      let new_line := ind ++ "availability: ".toList ++ renderNums new_nums ++ com ++ nl
      if lines.getD h [] = new_line then (lines, e, false, hdr)
      else (lines.set h new_line, e, true, hdr)
    else
      -- case B: block style list after header
      let iind := ind ++ "  ".toList
      let sc := scanItems lines iind (h + 1) e
      let nums := sc.1
      let k := sc.2.1
      let inl := sc.2.2
      if k = 0 then (lines, e, false, hdr)
      else
        let new_nums := nums.filter (fun n => n != month)
        if new_nums.length = nums.length then (lines, e, false, hdr)
        else if new_nums.isEmpty then
          -- collapse to inline empty list, then delete the item lines
          let l1 := lines.set h (ind ++ "availability: []".toList ++ com ++ nl)
          (l1.take (h + 1) ++ l1.drop (h + 1 + k), e - k, true, hdr)
        else
          -- delete the old item lines, then insert the new ones after the header
          let items := new_nums.map (fun n => iind ++ "- ".toList ++ natDigits n ++ inl)
          (lines.take (h + 1) ++ items ++ lines.drop (h + 1 + k), e - k, true, hdr)

/-- The sort half of `patch_availability_and_sort_in_block` (lines 299-327):
rewrite the first `sort:` line of `lines[s:e]` to 100 if its value differs,
else insert a `sort: 100` line after the availability header (skipping item
lines) or at the end of the block. -/
def sortPhase (lines : List Line) (s e : Nat) (hdr : Option (Nat × Line × Line)) :
    List Line × Bool :=
  match findSortFrom lines s e with
  | some (i, sind, v) =>
    if v = 100 then (lines, false)
    else (lines.set i (sind ++ "sort: 100".toList ++ line_ending (lines.getD i [])), true)
  | none =>
    let tnl := match hdr with | some (_, _, nl) => nl | none => ['\n']
    let iind := match hdr with | some (_, ind, _) => ind | none => "  ".toList
    let p := match hdr with | some (h, _, _) => skipItemsFrom lines (h + 1) | none => e
    (lines.insertIdx p (iind ++ "sort: 100".toList ++ tnl), true)

/-- `patch_availability_and_sort_in_block(lines, start, end, month)`:
availability phase then sort phase; `changed` if either changed. -/
def patchBlock (lines : List Line) (s e month : Nat) : List Line × Bool :=
  let a := availPhase lines s e month
  let r := sortPhase a.1 s a.2.1 a.2.2.2
  (r.1, a.2.2.1 || r.2)

/-- Indexed record-start scan underlying `build_mentor_blocks`. -/
def recordStartsFrom : List Line → Nat → List (Nat × Line × Line)
  | [], _ => []
  | l :: rest, i =>
    (match parseRecordStart l with
     | some (ind, nm) => [(i, ind, nm)]
     | none => []) ++ recordStartsFrom rest (i + 1)

/-- All record starts `(index, indent, raw name)` of a document. -/
def recordStarts (lines : List Line) : List (Nat × Line × Line) :=
  recordStartsFrom lines 0

/-- Index of the next record start in a starts list, or the document end. -/
def headEnd (st : List (Nat × Line × Line)) (len : Nat) : Nat :=
  match st with
  | [] => len
  | a :: _ => a.1

/-- Pair each record start with its block end (next start, or document end),
keyed by normalized name — the entries assigned into the `blocks` dict. -/
def blockEntriesGo (len : Nat) : List (Nat × Line × Line) → List (Line × Nat × Nat × Line × Line)
  | [] => []
  | a :: rest => (normalize a.2.2, a.1, headEnd rest len, a.2.1, a.2.2) :: blockEntriesGo len rest

/-- `build_mentor_blocks(lines)` as an insertion-ordered association list
(the dict semantics — silent last-write-wins on key collisions — live in
`lookupBlock`). -/
def buildBlocks (lines : List Line) : List (Line × Nat × Nat × Line × Line) :=
  blockEntriesGo lines.length (recordStarts lines)

/-- Dict lookup on the block entries: the last binding of the key wins,
exactly as repeated `blocks[key] = ...` assignments do. -/
def lookupBlock (bs : List (Line × Nat × Nat × Line × Line)) (k : Line) :
    Option (Nat × Nat × Line × Line) :=
  bs.foldl (fun acc b => if b.1 = k then some b.2 else acc) none

/-- `apply_text_patches(path, names, month)` with the file I/O abstracted:
split the text, build the (never refreshed) block map, patch each requested
mentor's block in order, and return (joined text, changed display names,
not-found warnings).  The write-back guard lives in `main_run`. -/
def apply_text_patches (text : Line) (names : List Line) (month : Nat) :
    Line × List Line × List Line :=
  let lines0 := splitlines text
  let blocks := buildBlocks lines0
  let st := names.foldl
    (fun (st : List Line × List Line × List Line) nm =>
      match lookupBlock blocks (normalize nm) with
      | none => (st.1, st.2.1, st.2.2 ++ [nm])
      | some (s, e, _, orig) =>
        let r := patchBlock st.1 s e month
        (r.1, if r.2 then st.2.1 ++ [orig] else st.2.1, st.2.2))
    (lines0, [], [])
  (joinLines st.1, st.2.1, st.2.2)

/-- The main flow after the counts are built (lines 382-414): compute
`to_update`; if empty, exit; if `DRY_RUN`, log the worklist and exit without
touching the file; otherwise run the text patcher and write back only when
something changed.  Returns (file text afterwards, reported mentor list). -/
def main_run (text : Line) (counts : List (Line × Nat)) (mentors : List MentorItem)
    (month : Nat) (dry : Bool) : Line × List Line :=
  let upd := to_update counts mentors month
  if upd = [] then (text, [])
  else if dry then (text, upd)
  else
    let r := apply_text_patches text upd month
    (if r.2.1 ≠ [] then r.1 else text, r.2.1)

/-- A proper LF-terminated line: content free of terminator chars, then `\n`. -/
def properLFb (l : Line) : Bool :=
  l.getLast? == some '\n' && l.dropLast.all (fun c => c != '\n' && c != '\r')

/-- Structure of a captured availability comment: empty, or a whitespace run
followed by `#` and arbitrary text. -/
def ComShape (com : Line) : Prop :=
  com = [] ∨ ∃ cws ct, com = cws ++ '#' :: ct ∧ ∀ x ∈ cws, isSpace x = true

end AutoClose

namespace AutoClose

/-! ### Generic list lemmas: splicing edits into a middle segment -/

theorem set_append_right (A B : List Line) (i : Nat) (x : Line) :
    (A ++ B).set (A.length + i) x = A ++ B.set i x := by
  induction A with
  | nil => simp
  | cons a A ih => simpa [Nat.succ_add] using ih

theorem getD_append_right (A B : List Line) (i : Nat) :
    (A ++ B).getD (A.length + i) [] = B.getD i [] := by
  induction A with
  | nil => simp
  | cons a A ih => simpa [Nat.succ_add] using ih

theorem insertIdx_append_right (A B : List Line) (i : Nat) (x : Line) :
    (A ++ B).insertIdx (A.length + i) x = A ++ B.insertIdx i x := by
  induction A with
  | nil => simp
  | cons a A ih => simpa [Nat.succ_add, List.insertIdx_succ_cons] using ih

theorem joinLines_append (a b : List Line) :
    joinLines (a ++ b) = joinLines a ++ joinLines b := by
  induction a with
  | nil => simp [joinLines]
  | cons x a ih => simp only [joinLines, List.foldr] at ih ⊢; simp [ih]

theorem joinLines_cons (x : Line) (a : List Line) :
    joinLines (x :: a) = x ++ joinLines a := rfl

/-! ### splitlines and join -/

theorem splitlinesGo_join (acc : Line) (t : Line) :
    joinLines (splitlinesGo acc t) = acc.reverse ++ t := by
  induction acc, t using splitlinesGo.induct with
  | case1 acc h =>
    simp_all [splitlinesGo, joinLines, List.isEmpty_iff]
  | case2 acc h =>
    simp_all [splitlinesGo, joinLines, List.isEmpty_iff]
  | case3 acc rest ih => rw [splitlinesGo.eq_2]; simp [joinLines_cons, ih]
  | case4 acc rest h ih => rw [splitlinesGo.eq_3 _ _ h]; simp [joinLines_cons, ih]
  | case5 acc rest ih => rw [splitlinesGo.eq_4]; simp [joinLines_cons, ih]
  | case6 acc c rest h1 h2 h3 ih => rw [splitlinesGo.eq_5 _ _ _ h1 h2 h3]; simp [ih]

/-- Joining the split lines reproduces the document byte for byte. -/
theorem joinLines_splitlines (t : Line) : joinLines (splitlines t) = t := by
  simpa using splitlinesGo_join [] t

theorem splitlinesGo_proper (b : Line) (hb : ∀ c ∈ b, c ≠ '\n' ∧ c ≠ '\r')
    (acc rest : Line) :
    splitlinesGo acc (b ++ '\n' :: rest) =
      (acc.reverse ++ b ++ ['\n']) :: splitlinesGo [] rest := by
  induction b generalizing acc with
  | nil => simp [splitlinesGo.eq_4]
  | cons c b ih =>
    have hc := hb c (by simp)
    have hb2 : ∀ x ∈ b, x ≠ '\n' ∧ x ≠ '\r' := fun x hx => hb x (by simp [hx])
    rw [List.cons_append,
      splitlinesGo.eq_5 _ _ _ (fun r h1 _ => hc.2 h1) (fun h1 => hc.2 h1) (fun h1 => hc.1 h1),
      ih hb2]
    simp

/-- Splitting a join of proper LF lines recovers exactly those lines. -/
theorem splitlines_joinLines_proper (ls : List Line)
    (h : ∀ l ∈ ls, properLFb l = true) : splitlines (joinLines ls) = ls := by
  induction ls with
  | nil => simp [joinLines, splitlines, splitlinesGo]
  | cons l ls ih =>
    have hl := h l (by simp)
    have hls : ∀ x ∈ ls, properLFb x = true := fun x hx => h x (by simp [hx])
    unfold properLFb at hl
    rw [Bool.and_eq_true] at hl
    obtain ⟨h1, h2⟩ := hl
    have hne : l ≠ [] := by
      intro he; rw [he] at h1; simp at h1
    have hdec : l = l.dropLast ++ ['\n'] := by
      have := List.dropLast_append_getLast hne
      have hlast : l.getLast hne = '\n' := by
        have := List.getLast?_eq_getLast l hne
        rw [this] at h1; simpa using h1
      rw [hlast] at this; exact this.symm
    have hfree : ∀ c ∈ l.dropLast, c ≠ '\n' ∧ c ≠ '\r' := by
      intro c hc
      have := List.all_eq_true.mp h2 c hc
      constructor <;> intro he <;> subst he <;> simp at this
    rw [joinLines_cons, splitlines]
    conv in l ++ joinLines ls => rw [hdec]
    rw [List.append_assoc, List.singleton_append, splitlinesGo_proper _ hfree]
    rw [← splitlines, ih hls]
    simp [← hdec]

end AutoClose

namespace AutoClose

/-! ### Scanner characterizations -/

theorem findAvailGo_eq_some (lines : List Line) (i f h : Nat) (ind rest com : Line) :
    findAvailGo lines i f = some (h, ind, rest, com) ↔
      (i ≤ h ∧ h < i + f ∧ parseAvailHdr (lines.getD h []) = some (ind, rest, com) ∧
        ∀ j, i ≤ j → j < h → parseAvailHdr (lines.getD j []) = none) := by
  induction f generalizing i with
  | zero => simp [findAvailGo]; omega
  | succ f ih =>
    rw [findAvailGo]
    cases hp : parseAvailHdr (lines.getD i []) with
    | some v =>
      obtain ⟨vi, vr, vc⟩ := v
      simp only [Option.some.injEq, Prod.mk.injEq]
      constructor
      · rintro ⟨rfl, rfl, rfl, rfl⟩
        exact ⟨le_refl _, by omega, hp, fun j h1 h2 => by omega⟩
      · rintro ⟨h1, h2, h3, h4⟩
        rcases Nat.lt_or_ge i h with hlt | hge
        · have hn := h4 i (le_refl _) hlt
          rw [hp] at hn
          exact Option.noConfusion hn
        · have : h = i := by omega
          subst this
          rw [hp] at h3
          simp at h3
          exact ⟨rfl, h3.1, h3.2.1, h3.2.2⟩
    | none =>
      rw [ih (i + 1)]
      constructor
      · rintro ⟨h1, h2, h3, h4⟩
        refine ⟨by omega, by omega, h3, fun j hj1 hj2 => ?_⟩
        rcases Nat.lt_or_ge j (i + 1) with hlt | hge
        · have : j = i := by omega
          subst this; exact hp
        · exact h4 j hge hj2
      · rintro ⟨h1, h2, h3, h4⟩
        have hne : h ≠ i := by
          intro he; subst he; rw [hp] at h3; exact Option.noConfusion h3
        exact ⟨by omega, by omega, h3, fun j hj1 hj2 => h4 j (by omega) hj2⟩

theorem findAvailGo_eq_none (lines : List Line) (i f : Nat) :
    findAvailGo lines i f = none ↔
      ∀ j, i ≤ j → j < i + f → parseAvailHdr (lines.getD j []) = none := by
  induction f generalizing i with
  | zero => simp [findAvailGo]; omega
  | succ f ih =>
    rw [findAvailGo]
    cases hp : parseAvailHdr (lines.getD i []) with
    | some v =>
      constructor
      · intro hc; exact Option.noConfusion hc
      · intro hh
        have hn := hh i (le_refl _) (by omega)
        rw [hp] at hn
        exact Option.noConfusion hn
    | none =>
      rw [ih (i + 1)]
      constructor
      · intro hh j hj1 hj2
        rcases Nat.lt_or_ge j (i + 1) with hlt | hge
        · have : j = i := by omega
          subst this; exact hp
        · exact hh j hge (by omega)
      · intro hh j hj1 hj2
        exact hh j (by omega) (by omega)

theorem findSortGo_eq_some (lines : List Line) (i f h : Nat) (ind : Line) (v : Nat) :
    findSortGo lines i f = some (h, ind, v) ↔
      (i ≤ h ∧ h < i + f ∧ parseSort (lines.getD h []) = some (ind, v) ∧
        ∀ j, i ≤ j → j < h → parseSort (lines.getD j []) = none) := by
  induction f generalizing i with
  | zero => simp [findSortGo]; omega
  | succ f ih =>
    rw [findSortGo]
    cases hp : parseSort (lines.getD i []) with
    | some w =>
      obtain ⟨wi, wv⟩ := w
      simp only [Option.some.injEq, Prod.mk.injEq]
      constructor
      · rintro ⟨rfl, rfl, rfl⟩
        exact ⟨le_refl _, by omega, hp, fun j h1 h2 => by omega⟩
      · rintro ⟨h1, h2, h3, h4⟩
        rcases Nat.lt_or_ge i h with hlt | hge
        · have hn := h4 i (le_refl _) hlt
          rw [hp] at hn
          exact Option.noConfusion hn
        · have : h = i := by omega
          subst this
          rw [hp] at h3
          simp at h3
          exact ⟨rfl, h3.1, h3.2⟩
    | none =>
      rw [ih (i + 1)]
      constructor
      · rintro ⟨h1, h2, h3, h4⟩
        refine ⟨by omega, by omega, h3, fun j hj1 hj2 => ?_⟩
        rcases Nat.lt_or_ge j (i + 1) with hlt | hge
        · have : j = i := by omega
          subst this; exact hp
        · exact h4 j hge hj2
      · rintro ⟨h1, h2, h3, h4⟩
        have hne : h ≠ i := by
          intro he; subst he; rw [hp] at h3; exact Option.noConfusion h3
        exact ⟨by omega, by omega, h3, fun j hj1 hj2 => h4 j (by omega) hj2⟩

theorem findSortGo_eq_none (lines : List Line) (i f : Nat) :
    findSortGo lines i f = none ↔
      ∀ j, i ≤ j → j < i + f → parseSort (lines.getD j []) = none := by
  induction f generalizing i with
  | zero => simp [findSortGo]; omega
  | succ f ih =>
    rw [findSortGo]
    cases hp : parseSort (lines.getD i []) with
    | some v =>
      constructor
      · intro hc; exact Option.noConfusion hc
      · intro hh
        have hn := hh i (le_refl _) (by omega)
        rw [hp] at hn
        exact Option.noConfusion hn
    | none =>
      rw [ih (i + 1)]
      constructor
      · intro hh j hj1 hj2
        rcases Nat.lt_or_ge j (i + 1) with hlt | hge
        · have : j = i := by omega
          subst this; exact hp
        · exact hh j hge (by omega)
      · intro hh j hj1 hj2
        exact hh j (by omega) (by omega)

theorem skipItemsGo_spec (lines : List Line) (i q f : Nat)
    (hq1 : i ≤ q) (hq2 : q ≤ lines.length) (hf : i + f = lines.length)
    (htrue : ∀ j, i ≤ j → j < q → stripItemTest (lines.getD j []) = true)
    (hstop : q = lines.length ∨ stripItemTest (lines.getD q []) = false) :
    skipItemsGo lines i f = q := by
  induction f generalizing i with
  | zero =>
    have : i = q := by omega
    simp [skipItemsGo, this]
  | succ f ih =>
    rw [skipItemsGo]
    rcases Nat.lt_or_ge i q with hlt | hge
    · rw [htrue i (le_refl _) hlt, if_pos rfl]
      exact ih (i + 1) (by omega) (by omega) (fun j h1 h2 => htrue j (by omega) h2)
    · have : i = q := by omega
      subst this
      rcases hstop with h | h
      · omega
      · rw [h, if_neg (by simp)]

/-- The `skipItemsFrom` entry point, via `skipItemsGo_spec`. -/
theorem skipItemsFrom_spec (lines : List Line) (i q : Nat)
    (hq1 : i ≤ q) (hq2 : q ≤ lines.length)
    (htrue : ∀ j, i ≤ j → j < q → stripItemTest (lines.getD j []) = true)
    (hstop : q = lines.length ∨ stripItemTest (lines.getD q []) = false) :
    skipItemsFrom lines i = q := by
  have hi : i ≤ lines.length := le_trans hq1 hq2
  exact skipItemsGo_spec lines i q (lines.length - i) hq1 hq2 (by omega) htrue hstop

theorem scanItemsGo_of_stop (lines : List Line) (ind : Line) (j f : Nat)
    (h : parseItem ind (lines.getD j []) = none) :
    scanItemsGo lines ind j f = ([], 0, ['\n']) := by
  cases f with
  | zero => rfl
  | succ f => rw [scanItemsGo]; rw [h]

theorem scanItems_spec (lines : List Line) (ind : Line) (j e : Nat) (vs : List Nat)
    (hle : j + vs.length ≤ e)
    (hvals : ∀ d, d < vs.length → parseItem ind (lines.getD (j + d) []) = some (vs.getD d 0))
    (hstop : j + vs.length = e ∨ parseItem ind (lines.getD (j + vs.length) []) = none) :
    scanItems lines ind j e =
      (vs, vs.length,
        if vs.length = 0 then ['\n'] else line_ending (lines.getD (j + vs.length - 1) [])) := by
  unfold scanItems
  induction vs generalizing j with
  | nil =>
    simp only [List.length_nil, Nat.add_zero] at hstop hle ⊢
    rcases hstop with h | h
    · subst h; simp [scanItemsGo]
    · simp [scanItemsGo_of_stop lines ind j _ h]
  | cons v vs ih =>
    have hf : e - j = (e - (j + 1)) + 1 := by simp at hle; omega
    rw [hf, scanItemsGo]
    have h0 := hvals 0 (by simp)
    simp only [Nat.add_zero, List.getD_cons_zero] at h0
    rw [h0]
    have hrec := ih (j + 1) (by simp at hle ⊢; omega)
      (fun d hd => by
        have := hvals (d + 1) (by simp; omega)
        simpa [Nat.add_comm, Nat.add_assoc, Nat.add_left_comm] using this)
      (by
        rcases hstop with h | h
        · left; simp at h ⊢; omega
        · right; simpa [Nat.add_comm, Nat.add_assoc, Nat.add_left_comm] using h)
    unfold scanItems at hrec
    rw [hrec]
    simp only [List.length_cons]
    cases vs with
    | nil => simp
    | cons w ws =>
      have harg : j + 1 + (ws.length + 1) - 1 = j + (ws.length + 1 + 1) - 1 := by omega
      simp [harg]

end AutoClose

namespace AutoClose

/-! ### Character-class and strip/trim toolkit -/

theorem not_isSpace_of_isDigit {c : Char} (h : c.isDigit = true) : isSpace c = false := by
  unfold Char.isDigit at h
  unfold isSpace
  simp only [Bool.and_eq_true, decide_eq_true_eq] at h
  simp only [Bool.or_eq_false_iff, beq_eq_false_iff_ne, ne_eq]
  refine ⟨⟨⟨⟨⟨?_, ?_⟩, ?_⟩, ?_⟩, ?_⟩, ?_⟩ <;>
    · intro he; subst he; revert h; decide

theorem isDigit_eq_false_of_isSpace {c : Char} (h : isSpace c = true) : c.isDigit = false := by
  cases hd : c.isDigit with
  | false => rfl
  | true => rw [not_isSpace_of_isDigit hd] at h; exact Bool.noConfusion h

theorem ne_hash_of_isDigit {c : Char} (h : c.isDigit = true) : c ≠ '#' := by
  intro he; subst he; revert h; decide

theorem dropWhile_append_of_ne_nil {p : Char → Bool} {a : Line} (b : Line)
    (h : a.dropWhile p ≠ []) : (a ++ b).dropWhile p = a.dropWhile p ++ b := by
  induction a with
  | nil => simp at h
  | cons c a ih =>
    by_cases hc : p c
    · rw [List.dropWhile_cons_of_pos hc] at h
      simp only [List.cons_append, List.dropWhile_cons_of_pos hc]
      exact ih h
    · simp [List.dropWhile_cons_of_neg hc]

theorem dropTrailingSpace_append_of_ne_nil (a : Line) {b : Line}
    (h : dropTrailingSpace b ≠ []) :
    dropTrailingSpace (a ++ b) = a ++ dropTrailingSpace b := by
  unfold dropTrailingSpace at *
  rw [List.reverse_append, dropWhile_append_of_ne_nil a.reverse (by
    intro he; rw [he] at h; simp at h)]
  simp

theorem dropTrailingSpace_cons_of_not_space {c : Char} (r : Line)
    (h : isSpace c = false) : dropTrailingSpace (c :: r) = c :: dropTrailingSpace r := by
  show dropTrailingSpace ([c] ++ r) = c :: dropTrailingSpace r
  by_cases hr : dropTrailingSpace r = []
  · unfold dropTrailingSpace at *
    have hall : ∀ x ∈ r.reverse, isSpace x = true := by
      rw [List.reverse_eq_nil_iff, List.dropWhile_eq_nil_iff] at hr
      intro x hx
      exact hr x hx
    have hc : ¬ isSpace c = true := by simp [h]
    rw [List.reverse_append, List.dropWhile_append_of_pos hall, hr]
    simp [List.dropWhile_cons_of_neg hc]
  · rw [dropTrailingSpace_append_of_ne_nil [c] hr]
    rfl

end AutoClose

namespace AutoClose

theorem takeWhile_indent (ind : Line) {c : Char} (r : Line)
    (hind : ∀ x ∈ ind, isSpace x = true) (hc : isSpace c = false) :
    (ind ++ c :: r).takeWhile isSpace = ind := by
  rw [List.takeWhile_append_of_pos hind, List.takeWhile_cons_of_neg (by simp [hc])]
  simp

theorem dropWhile_indent (ind : Line) {c : Char} (r : Line)
    (hind : ∀ x ∈ ind, isSpace x = true) (hc : isSpace c = false) :
    (ind ++ c :: r).dropWhile isSpace = c :: r := by
  rw [List.dropWhile_append_of_pos hind, List.dropWhile_cons_of_neg (by simp [hc])]

theorem head_dropWhile_of_dropTrailing {l : Line} {c : Char} {rest : Line}
    (hd : l.dropWhile isSpace = c :: rest) (hc : isSpace c = false) :
    (dropTrailingSpace l).dropWhile isSpace = c :: dropTrailingSpace rest := by
  have hdec : l = l.takeWhile isSpace ++ (c :: rest) := by
    rw [← hd, List.takeWhile_append_dropWhile]
  rw [hdec, dropTrailingSpace_append_of_ne_nil _ (by
      rw [dropTrailingSpace_cons_of_not_space rest hc]; simp),
    dropTrailingSpace_cons_of_not_space rest hc,
    dropWhile_indent _ _ (fun x hx => List.mem_takeWhile_imp hx) hc]

theorem stripSpace_of_decomp (ind : Line) {c : Char} (r : Line)
    (hind : ∀ x ∈ ind, isSpace x = true) (hc : isSpace c = false) :
    stripSpace (ind ++ c :: r) = c :: dropTrailingSpace r := by
  unfold stripSpace
  rw [dropWhile_indent ind r hind hc, dropTrailingSpace_cons_of_not_space r hc]

/-! ### Decimal digits: printing, parsing, extraction -/

theorem digitsToNat_append_single (a : Line) (c : Char) :
    digitsToNat (a ++ [c]) = 10 * digitsToNat a + (c.toNat - 48) := by
  simp [digitsToNat, List.foldl_append]

theorem digitChar_isDigit {d : Nat} (h : d < 10) : (digitChar d).isDigit = true := by
  interval_cases d <;> decide

theorem digitChar_toNat {d : Nat} (h : d < 10) : (digitChar d).toNat - 48 = d := by
  interval_cases d <;> decide

theorem natDigitsGo_append (f n : Nat) (acc : Line) :
    natDigitsGo f n acc = natDigitsGo f n [] ++ acc := by
  induction f generalizing n acc with
  | zero => simp [natDigitsGo]
  | succ f ih =>
    by_cases hn : n = 0
    · simp [natDigitsGo, hn]
    · rw [natDigitsGo, natDigitsGo, if_neg hn, if_neg hn, ih (n / 10), 
        ih (n / 10) [digitChar (n % 10)]]
      simp

theorem natDigitsGo_zero (f : Nat) : natDigitsGo f 0 [] = [] := by
  cases f <;> simp [natDigitsGo]

theorem natDigitsGo_correct (f : Nat) :
    ∀ n, 0 < n → n < 10 ^ f →
      digitsToNat (natDigitsGo f n []) = n ∧
      (∀ c ∈ natDigitsGo f n [], c.isDigit = true) ∧ natDigitsGo f n [] ≠ [] := by
  induction f with
  | zero => intro n h1 h2; simp at h2; omega
  | succ f ih =>
    intro n h1 h2
    rw [natDigitsGo, if_neg (by omega), natDigitsGo_append]
    by_cases hq : n / 10 = 0
    · rw [hq, natDigitsGo_zero]
      have hlt : n % 10 = n := by omega
      have h10 : n % 10 < 10 := Nat.mod_lt _ (by norm_num)
      refine ⟨?_, ?_, by simp⟩
      · simp only [List.nil_append]
        have : digitsToNat [digitChar (n % 10)] = (digitChar (n % 10)).toNat - 48 := by
          simp [digitsToNat]
        rw [this, digitChar_toNat h10, hlt]
      · intro c hc
        simp at hc
        rw [hc]
        exact digitChar_isDigit h10
    · have hq1 : 0 < n / 10 := Nat.pos_of_ne_zero hq
      have hq2 : n / 10 < 10 ^ f := by
        apply Nat.div_lt_of_lt_mul
        rw [Nat.pow_succ] at h2
        omega
      obtain ⟨ha, hb, hc⟩ := ih (n / 10) hq1 hq2
      have h10 : n % 10 < 10 := Nat.mod_lt _ (by norm_num)
      refine ⟨?_, ?_, by simp [hc]⟩
      · rw [digitsToNat_append_single, ha, digitChar_toNat h10]
        omega
      · intro c hcm
        rcases List.mem_append.mp hcm with hm | hm
        · exact hb c hm
        · simp at hm; rw [hm]; exact digitChar_isDigit h10

theorem natDigits_spec (n : Nat) :
    digitsToNat (natDigits n) = n ∧ (∀ c ∈ natDigits n, c.isDigit = true) ∧
      natDigits n ≠ [] := by
  unfold natDigits
  by_cases hn : n = 0
  · subst hn; refine ⟨by decide, by decide, by decide⟩
  · rw [if_neg hn]
    refine natDigitsGo_correct (n + 1) n (Nat.pos_of_ne_zero hn) ?_
    calc n < 2 ^ n := Nat.lt_two_pow n
    _ ≤ 10 ^ n := Nat.pow_le_pow_left (by norm_num) n
    _ < 10 ^ (n + 1) := Nat.pow_lt_pow_right (by norm_num) (by omega)

theorem digitsToNat_natDigits (n : Nat) : digitsToNat (natDigits n) = n :=
  (natDigits_spec n).1

theorem natDigits_all_digit (n : Nat) : ∀ c ∈ natDigits n, c.isDigit = true :=
  (natDigits_spec n).2.1

theorem natDigits_ne_nil (n : Nat) : natDigits n ≠ [] :=
  (natDigits_spec n).2.2

end AutoClose

namespace AutoClose

/-! ### extractNums over rendered lists -/

theorem foldr_extractStep_digits (a : Line) (st : Line × List Nat)
    (h : ∀ c ∈ a, c.isDigit = true) :
    a.foldr extractStep st = (a ++ st.1, st.2) := by
  induction a with
  | nil => simp
  | cons c a ih =>
    have hc := h c (by simp)
    rw [List.foldr_cons, ih (fun x hx => h x (by simp [hx])), extractStep, if_pos hc]
    simp

theorem extractNums_cons_nondigit {c : Char} (r : Line) (h : c.isDigit = false) :
    extractNums (c :: r) = extractNums r := by
  unfold extractNums
  rw [List.foldr_cons]
  rcases hst : r.foldr extractStep ([], []) with ⟨run, nums⟩
  unfold extractStep
  simp [h]

theorem extractNums_digits_append (ds b : Line) (hall : ∀ c ∈ ds, c.isDigit = true)
    (hne : ds ≠ [])
    (hb : (b.foldr extractStep ([], [])).1 = []) :
    extractNums (ds ++ b) = digitsToNat ds :: extractNums b := by
  unfold extractNums
  rw [List.foldr_append, foldr_extractStep_digits ds _ hall]
  rcases hsb : b.foldr extractStep ([], []) with ⟨run, nums⟩
  rw [hsb] at hb
  simp only at hb
  subst hb
  simp [hne]

theorem foldr_extractStep_closed (b : Line)
    (h : b = [] ∨ ∃ c r, b = c :: r ∧ c.isDigit = false) :
    (b.foldr extractStep ([], [])).1 = [] := by
  rcases h with rfl | ⟨c, r, rfl, hc⟩
  · simp
  · rw [List.foldr_cons, extractStep, if_neg (by simp [hc])]

theorem extractNums_core (x : Nat) (xs : List Nat) :
    extractNums (joinSep ", ".toList ((x :: xs).map natDigits) ++ [']']) = x :: xs := by
  induction xs generalizing x with
  | nil =>
    simp only [List.map_cons, List.map_nil, joinSep]
    rw [extractNums_digits_append _ _ (natDigits_all_digit x) (natDigits_ne_nil x)
      (foldr_extractStep_closed _ (Or.inr ⟨']', [], rfl, by decide⟩)),
      digitsToNat_natDigits]
    rfl
  | cons y ys ih =>
    have hstep : joinSep ", ".toList ((x :: y :: ys).map natDigits) ++ [']'] =
        natDigits x ++ (',' :: ' ' :: (joinSep ", ".toList ((y :: ys).map natDigits) ++ [']'])) := by
      simp [joinSep]
    rw [hstep,
      extractNums_digits_append _ _ (natDigits_all_digit x) (natDigits_ne_nil x)
        (foldr_extractStep_closed _ (Or.inr ⟨',', _, rfl, by decide⟩)),
      digitsToNat_natDigits,
      extractNums_cons_nondigit _ (by decide),
      extractNums_cons_nondigit _ (by decide),
      ih y]

/-- Rendering then re-extracting the numbers is the identity: the patched
header parses back to the same list. -/
theorem extractNums_renderNums (l : List Nat) : extractNums (renderNums l) = l := by
  cases l with
  | nil => decide
  | cons x xs =>
    unfold renderNums
    rw [if_neg (by simp)]
    show extractNums ('[' :: (joinSep ", ".toList ((x :: xs).map natDigits) ++ [']'])) = x :: xs
    rw [extractNums_cons_nondigit _ (by decide), extractNums_core]

/-- Character inventory of the rendered list body. -/
theorem joinSep_render_chars (l : List Nat) :
    ∀ c ∈ joinSep ", ".toList (l.map natDigits), c.isDigit = true ∨ c = ',' ∨ c = ' ' := by
  induction l with
  | nil => simp [joinSep]
  | cons x xs ih =>
    cases xs with
    | nil =>
      simp only [List.map_cons, List.map_nil, joinSep]
      intro c hc
      exact Or.inl (natDigits_all_digit x c hc)
    | cons y ys =>
      intro c hc
      have : joinSep ", ".toList ((x :: y :: ys).map natDigits) =
          natDigits x ++ ", ".toList ++ joinSep ", ".toList ((y :: ys).map natDigits) := by
        simp [joinSep]
      rw [this] at hc
      rcases List.mem_append.mp hc with hm | hm
      · rcases List.mem_append.mp hm with hm2 | hm2
        · exact Or.inl (natDigits_all_digit x c hm2)
        · have h2 : c = ',' ∨ c = ' ' := by simpa using hm2
          rcases h2 with h | h
          · exact Or.inr (Or.inl h)
          · exact Or.inr (Or.inr h)
      · exact ih c hm

theorem renderNums_chars (l : List Nat) :
    ∀ c ∈ renderNums l, c.isDigit = true ∨ c = ',' ∨ c = ' ' ∨ c = '[' ∨ c = ']' := by
  intro c hc
  unfold renderNums at hc
  by_cases hl : l.isEmpty
  · rw [if_pos hl] at hc
    have h2 : c = '[' ∨ c = ']' := by simpa using hc
    rcases h2 with h | h
    · exact Or.inr (Or.inr (Or.inr (Or.inl h)))
    · exact Or.inr (Or.inr (Or.inr (Or.inr h)))
  · rw [if_neg hl] at hc
    rcases List.mem_cons.mp hc with h | h
    · exact Or.inr (Or.inr (Or.inr (Or.inl h)))
    · rcases List.mem_append.mp h with hm | hm
      · rcases joinSep_render_chars l c hm with h1 | h1 | h1
        · exact Or.inl h1
        · exact Or.inr (Or.inl h1)
        · exact Or.inr (Or.inr (Or.inl h1))
      · have h2 : c = ']' := by simpa using hm
        exact Or.inr (Or.inr (Or.inr (Or.inr h2)))

theorem renderNums_ne_nil (l : List Nat) : renderNums l ≠ [] := by
  unfold renderNums
  by_cases hl : l.isEmpty
  · rw [if_pos hl]; decide
  · rw [if_neg hl]; simp

theorem renderNums_head (l : List Nat) : ∃ r, renderNums l = '[' :: r := by
  unfold renderNums
  by_cases hl : l.isEmpty
  · rw [if_pos hl]; exact ⟨[']'], rfl⟩
  · rw [if_neg hl]; exact ⟨_, rfl⟩

theorem renderNums_last (l : List Nat) :
    ∃ r, renderNums l = r ++ [']'] := by
  unfold renderNums
  by_cases hl : l.isEmpty
  · rw [if_pos hl]; exact ⟨['['], rfl⟩
  · rw [if_neg hl]; exact ⟨'[' :: joinSep ", ".toList (l.map natDigits), by simp⟩

theorem not_mem_renderNums {c : Char} (l : List Nat) (h1 : c.isDigit = false)
    (h2 : c ≠ ',') (h3 : c ≠ ' ') (h4 : c ≠ '[') (h5 : c ≠ ']') :
    c ∉ renderNums l := by
  intro hc
  rcases renderNums_chars l c hc with h | h | h | h | h
  · rw [h1] at h; exact Bool.noConfusion h
  · exact h2 h
  · exact h3 h
  · exact h4 h
  · exact h5 h

end AutoClose

namespace AutoClose

/-! ### Head-character facts of the four line patterns, and mutual exclusion -/

theorem parseAvailHdr_head {l : Line} {v : Line × Line × Line}
    (h : parseAvailHdr l = some v) :
    ∃ c r, l.dropWhile isSpace = c :: r ∧ Char.toLower c = 'a' := by
  unfold parseAvailHdr at h
  by_cases hc : ((l.dropWhile isSpace).take 13).map Char.toLower = "availability:".toList
  · cases hr : l.dropWhile isSpace with
    | nil => rw [hr] at hc; exact absurd hc (by decide)
    | cons c r =>
      refine ⟨c, r, rfl, ?_⟩
      rw [hr, List.take_succ_cons, List.map_cons] at hc
      have hx : "availability:".toList = 'a' :: "vailability:".toList := rfl
      rw [hx] at hc
      exact (List.cons_eq_cons.mp hc).1
  · rw [if_neg hc] at h
    exact Option.noConfusion h

theorem parseSort_head {l : Line} {v : Line × Nat} (h : parseSort l = some v) :
    ∃ r, l.dropWhile isSpace = 's' :: r := by
  unfold parseSort at h
  by_cases hc : (l.dropWhile isSpace).take 5 = "sort:".toList
  · cases hr : l.dropWhile isSpace with
    | nil => rw [hr] at hc; exact absurd hc (by decide)
    | cons c r =>
      rw [hr, List.take_succ_cons] at hc
      have hx : "sort:".toList = 's' :: "ort:".toList := rfl
      rw [hx] at hc
      rw [(List.cons_eq_cons.mp hc).1]
      exact ⟨r, rfl⟩
  · rw [if_neg hc] at h
    exact Option.noConfusion h

theorem parseRecordStart_cons_dash {l : Line} (r : Line)
    (hr : l.dropWhile isSpace = '-' :: r) :
    parseRecordStart l =
      (if (r.dropWhile isSpace).take 5 = "name:".toList then
        (if dropFinalLF ((r.dropWhile isSpace).drop 5) = [] then none
          else some (l.takeWhile isSpace,
            stripSpace (dropFinalLF ((r.dropWhile isSpace).drop 5))))
        else none) := by
  unfold parseRecordStart
  rw [hr]
  split
  next r2 heq =>
    obtain ⟨h1, h2⟩ := List.cons_eq_cons.mp heq
    subst h2
    rfl
  next hne => exact absurd rfl (hne r)

theorem parseRecordStart_none_of_head {l : Line} {c : Char} (r : Line)
    (hr : l.dropWhile isSpace = c :: r) (hc : c ≠ '-') :
    parseRecordStart l = none := by
  unfold parseRecordStart
  rw [hr]
  split
  next heq => exact absurd (List.cons_eq_cons.mp heq).1 hc
  next => rfl

theorem parseRecordStart_parts {l : Line} {v : Line × Line}
    (h : parseRecordStart l = some v) :
    ∃ r, l.dropWhile isSpace = '-' :: r ∧
      (r.dropWhile isSpace).take 5 = "name:".toList := by
  cases hr : l.dropWhile isSpace with
  | nil =>
    exfalso
    unfold parseRecordStart at h
    rw [hr] at h
    exact Option.noConfusion h
  | cons c r =>
    by_cases hd : c = '-'
    · subst hd
      refine ⟨r, rfl, ?_⟩
      rw [parseRecordStart_cons_dash r hr] at h
      by_contra hn
      rw [if_neg hn] at h
      exact Option.noConfusion h
    · rw [parseRecordStart_none_of_head r hr hd] at h
      exact Option.noConfusion h

theorem stripSpace_cons_form {l : Line} {c : Char} {t : Line}
    (h : stripSpace l = c :: t) :
    ∃ r, l.dropWhile isSpace = c :: r ∧ t = dropTrailingSpace r := by
  unfold stripSpace at h
  cases hr : l.dropWhile isSpace with
  | nil => rw [hr] at h; exact absurd h (by simp [dropTrailingSpace])
  | cons d r =>
    rw [hr] at h
    have hd : isSpace d = false := by
      have hh := List.head?_dropWhile_not isSpace l
      rw [hr] at hh
      simpa using hh
    rw [dropTrailingSpace_cons_of_not_space r hd] at h
    obtain ⟨h1, h2⟩ := List.cons_eq_cons.mp h
    subst h1
    exact ⟨r, rfl, h2.symm⟩

theorem stripItemTest_parts {l : Line} (h : stripItemTest l = true) :
    ∃ r c2 r2, l.dropWhile isSpace = '-' :: r ∧
      r.dropWhile isSpace = c2 :: r2 ∧ c2.isDigit = true := by
  unfold stripItemTest at h
  cases hs : stripSpace l with
  | nil => rw [hs] at h; exact Bool.noConfusion h
  | cons c t =>
    rw [hs] at h
    have hc : c = '-' := by
      revert h
      split
      next t2 heq => intro h; exact (List.cons_eq_cons.mp heq).1
      next a hne => intro h; exact Bool.noConfusion h
    subst hc
    have h2 : (t.dropWhile isSpace).isEmpty = false ∧
        (t.dropWhile isSpace).all Char.isDigit = true := by
      revert h
      split
      next t2 heq =>
        intro h
        rw [← (List.cons_eq_cons.mp heq).2] at h
        simpa [Bool.not_eq_true'] using h
      next a hne => exact absurd rfl (hne t)
    obtain ⟨r, hr, ht⟩ := stripSpace_cons_form hs
    cases hv : r.dropWhile isSpace with
    | nil =>
      exfalso
      have hall : ∀ x ∈ r, isSpace x = true := List.dropWhile_eq_nil_iff.mp hv
      have htnil : t = [] := by
        rw [ht]
        unfold dropTrailingSpace
        rw [List.dropWhile_eq_nil_iff.mpr (fun x hx => hall x (by simpa using hx))]
        rfl
      rw [htnil] at h2
      simp [List.dropWhile] at h2
    | cons d r3 =>
      have hd : isSpace d = false := by
        have hh := List.head?_dropWhile_not isSpace r
        rw [hv] at hh
        simpa using hh
      have hkey : t.dropWhile isSpace = d :: dropTrailingSpace r3 := by
        rw [ht]
        exact head_dropWhile_of_dropTrailing hv hd
      refine ⟨r, d, r3, hr, hv, ?_⟩
      have h3 := h2.2
      rw [hkey, List.all_cons, Bool.and_eq_true] at h3
      exact h3.1

end AutoClose

namespace AutoClose

theorem parseSort_eq_none_of_head {l : Line} {c : Char} (r : Line)
    (hr : l.dropWhile isSpace = c :: r) (hc : c ≠ 's') : parseSort l = none := by
  unfold parseSort
  simp only [hr]
  rw [if_neg]
  intro heq
  rw [List.take_succ_cons] at heq
  exact hc (List.cons_eq_cons.mp heq).1

theorem parseAvailHdr_eq_none_of_head {l : Line} {c : Char} (r : Line)
    (hr : l.dropWhile isSpace = c :: r) (hc : Char.toLower c ≠ 'a') :
    parseAvailHdr l = none := by
  unfold parseAvailHdr
  simp only [hr]
  rw [if_neg]
  intro heq
  rw [List.take_succ_cons, List.map_cons] at heq
  exact hc (List.cons_eq_cons.mp heq).1

theorem parseSort_of_availHdr {l : Line} {v : Line × Line × Line}
    (h : parseAvailHdr l = some v) : parseSort l = none := by
  obtain ⟨c, r, hr, hc⟩ := parseAvailHdr_head h
  refine parseSort_eq_none_of_head r hr ?_
  intro he; subst he; revert hc; decide

theorem parseRecordStart_of_availHdr {l : Line} {v : Line × Line × Line}
    (h : parseAvailHdr l = some v) : parseRecordStart l = none := by
  obtain ⟨c, r, hr, hc⟩ := parseAvailHdr_head h
  refine parseRecordStart_none_of_head r hr ?_
  intro he; subst he; revert hc; decide

theorem parseAvailHdr_of_sort {l : Line} {w : Line × Nat}
    (h : parseSort l = some w) : parseAvailHdr l = none := by
  obtain ⟨r, hr⟩ := parseSort_head h
  exact parseAvailHdr_eq_none_of_head r hr (by decide)

theorem parseRecordStart_of_sort {l : Line} {w : Line × Nat}
    (h : parseSort l = some w) : parseRecordStart l = none := by
  obtain ⟨r, hr⟩ := parseSort_head h
  exact parseRecordStart_none_of_head r hr (by decide)

theorem parseAvailHdr_of_recordStart {l : Line} {v : Line × Line}
    (h : parseRecordStart l = some v) : parseAvailHdr l = none := by
  obtain ⟨r, hr, hn⟩ := parseRecordStart_parts h
  exact parseAvailHdr_eq_none_of_head r hr (by decide)

theorem parseSort_of_recordStart {l : Line} {v : Line × Line}
    (h : parseRecordStart l = some v) : parseSort l = none := by
  obtain ⟨r, hr, hn⟩ := parseRecordStart_parts h
  exact parseSort_eq_none_of_head r hr (by decide)

theorem stripItemTest_of_recordStart {l : Line} {v : Line × Line}
    (h : parseRecordStart l = some v) : stripItemTest l = false := by
  cases hb : stripItemTest l with
  | false => rfl
  | true =>
    exfalso
    obtain ⟨r, hr, hn⟩ := parseRecordStart_parts h
    obtain ⟨r2, c2, r3, hr2, hv, hdg⟩ := stripItemTest_parts hb
    rw [hr] at hr2
    obtain ⟨-, hrr⟩ := List.cons_eq_cons.mp hr2
    subst hrr
    rw [hv, List.take_succ_cons] at hn
    have hc2 : c2 = 'n' := (List.cons_eq_cons.mp hn).1
    subst hc2
    revert hdg
    decide

theorem parseSort_of_stripItem {l : Line} (h : stripItemTest l = true) :
    parseSort l = none := by
  obtain ⟨r, c2, r2, hr, hv, hdg⟩ := stripItemTest_parts h
  exact parseSort_eq_none_of_head r hr (by decide)

theorem parseAvailHdr_of_stripItem {l : Line} (h : stripItemTest l = true) :
    parseAvailHdr l = none := by
  obtain ⟨r, c2, r2, hr, hv, hdg⟩ := stripItemTest_parts h
  exact parseAvailHdr_eq_none_of_head r hr (by decide)

theorem parseRecordStart_of_stripItem {l : Line} (h : stripItemTest l = true) :
    parseRecordStart l = none := by
  obtain ⟨r, c2, r2, hr, hv, hdg⟩ := stripItemTest_parts h
  rw [parseRecordStart_cons_dash r hr, if_neg]
  intro heq
  rw [hv, List.take_succ_cons] at heq
  have hc2 : c2 = 'n' := (List.cons_eq_cons.mp heq).1
  subst hc2
  revert hdg
  decide

end AutoClose

namespace AutoClose

/-! ### Parsing the lines the patcher writes back -/

theorem dropFinalLF_concat_lf (y : Line) : dropFinalLF (y ++ ['\n']) = y := by
  unfold dropFinalLF
  rw [List.getLast?_concat]
  simp [List.dropLast_concat]

theorem dropTrailingSpace_of_last {c : Char} (r : Line) (hc : isSpace c = false) :
    dropTrailingSpace (r ++ [c]) = r ++ [c] := by
  unfold dropTrailingSpace
  rw [List.reverse_append]
  simp only [List.reverse_cons, List.reverse_nil, List.nil_append, List.singleton_append]
  rw [List.dropWhile_cons_of_neg (by simp [hc])]
  simp

theorem dropTrailingSpace_append_allws (a : Line) {b : Line}
    (hb : ∀ x ∈ b, isSpace x = true) :
    dropTrailingSpace (a ++ b) = dropTrailingSpace a := by
  unfold dropTrailingSpace
  rw [List.reverse_append, List.dropWhile_append_of_pos (by
    intro x hx; exact hb x (by simpa using hx))]

theorem ne_hash_of_isSpace {c : Char} (h : isSpace c = true) : (c != '#') = true := by
  unfold isSpace at h
  simp only [Bool.or_eq_true, beq_iff_eq] at h
  rcases h with ((((h | h) | h) | h) | h) | h <;> subst h <;> decide

theorem isDigit_bne_hash {c : Char} (h : c.isDigit = true) : (c != '#') = true := by
  simpa using ne_hash_of_isDigit h

theorem takeWhile_isDigit_nil_of_allws {nl : Line} (h : ∀ x ∈ nl, isSpace x = true) :
    nl.takeWhile Char.isDigit = [] := by
  cases nl with
  | nil => rfl
  | cons c r =>
    rw [List.takeWhile_cons_of_neg]
    simp [isDigit_eq_false_of_isSpace (h c (by simp))]

theorem tailOk_of_allws {nl : Line} (h : ∀ x ∈ nl, isSpace x = true) :
    tailOk nl = true := by
  unfold tailOk
  have hsub : ∀ x ∈ dropFinalLF nl, isSpace x = true := by
    intro x hx
    unfold dropFinalLF at hx
    by_cases hc : nl.getLast? == some '\n'
    · rw [if_pos hc] at hx
      exact h x (List.dropLast_subset nl hx)
    · rw [if_neg hc] at hx
      exact h x hx
  rw [List.dropWhile_eq_nil_iff.mpr hsub]

theorem sortLine_parseSort (ind nl : Line) (hind : ∀ x ∈ ind, isSpace x = true)
    (hnl : ∀ x ∈ nl, isSpace x = true) :
    parseSort (ind ++ "sort: 100".toList ++ nl) = some (ind, 100) := by
  have hline : ind ++ "sort: 100".toList ++ nl =
      ind ++ 's' :: ("ort: 100".toList ++ nl) := by simp
  unfold parseSort
  simp only []
  rw [hline, takeWhile_indent ind _ hind (by decide), dropWhile_indent ind _ hind (by decide)]
  have hsplit : ('s' :: ("ort: 100".toList ++ nl)) =
      "sort:".toList ++ (" 100".toList ++ nl) := by simp
  rw [hsplit, List.take_left' (by decide), if_pos rfl, List.drop_left' (by decide)]
  have h2 : " 100".toList ++ nl = ' ' :: ("100".toList ++ nl) := by simp
  rw [h2, List.dropWhile_cons_of_pos (by decide),
    dropWhile_append_of_ne_nil nl (by decide),
    show List.dropWhile isSpace "100".toList = "100".toList from by decide]
  rw [List.takeWhile_append_of_pos (by decide), takeWhile_isDigit_nil_of_allws hnl]
  rw [List.dropWhile_append_of_pos (by decide)]
  have h3 : nl.dropWhile Char.isDigit = nl := by
    cases nl with
    | nil => rfl
    | cons c r =>
      rw [List.dropWhile_cons_of_neg]
      simp [isDigit_eq_false_of_isSpace (hnl c (by simp))]
  rw [h3, if_pos ⟨by simp, tailOk_of_allws hnl⟩]
  simp
  decide

end AutoClose

namespace AutoClose

theorem itemLine_parseItem (iind : Line) (n : Nat) (nl : Line)
    (hnl : ∀ x ∈ nl, isSpace x = true) :
    parseItem iind (iind ++ "- ".toList ++ natDigits n ++ nl) = some n := by
  have hline : iind ++ "- ".toList ++ natDigits n ++ nl =
      iind ++ ('-' :: (' ' :: (natDigits n ++ nl))) := by simp
  unfold parseItem
  rw [hline, List.take_left' rfl, if_pos rfl, List.drop_left' rfl]
  simp only []
  rw [List.dropWhile_cons_of_pos (by decide)]
  obtain ⟨d, ds, hd⟩ : ∃ d ds, natDigits n = d :: ds := by
    cases hnd : natDigits n with
    | nil => exact absurd hnd (natDigits_ne_nil n)
    | cons d ds => exact ⟨d, ds, rfl⟩
  have hddig : d.isDigit = true := natDigits_all_digit n d (by rw [hd]; simp)
  have hdw : List.dropWhile isSpace (natDigits n ++ nl) = natDigits n ++ nl := by
    rw [dropWhile_append_of_ne_nil nl (by
        rw [hd, List.dropWhile_cons_of_neg (by simp [not_isSpace_of_isDigit hddig])]
        simp), hd,
      List.dropWhile_cons_of_neg (by simp [not_isSpace_of_isDigit hddig]), ← hd]
  rw [hdw, List.takeWhile_append_of_pos (natDigits_all_digit n),
    takeWhile_isDigit_nil_of_allws hnl, List.dropWhile_append_of_pos (natDigits_all_digit n)]
  have h3 : nl.dropWhile Char.isDigit = nl := by
    cases nl with
    | nil => rfl
    | cons c r =>
      rw [List.dropWhile_cons_of_neg]
      simp [isDigit_eq_false_of_isSpace (hnl c (by simp))]
  rw [h3, if_pos ⟨by simp [natDigits_ne_nil n], tailOk_of_allws hnl⟩]
  simp [digitsToNat_natDigits n]

theorem itemLine_stripItemTest (iind : Line) (n : Nat) (nl : Line)
    (hiind : ∀ x ∈ iind, isSpace x = true) (hnl : ∀ x ∈ nl, isSpace x = true) :
    stripItemTest (iind ++ "- ".toList ++ natDigits n ++ nl) = true := by
  obtain ⟨ds, d, hd, hddig⟩ : ∃ ds d, natDigits n = ds ++ [d] ∧ d.isDigit = true := by
    cases hnd : (natDigits n).reverse with
    | nil =>
      exfalso
      have := natDigits_ne_nil n
      rw [← List.reverse_reverse (natDigits n), hnd] at this
      exact this rfl
    | cons d ds =>
      refine ⟨ds.reverse, d, ?_, ?_⟩
      · rw [← List.reverse_reverse (natDigits n), hnd]
        simp
      · refine natDigits_all_digit n d ?_
        rw [← List.reverse_reverse (natDigits n), hnd]
        simp
  have hline : iind ++ "- ".toList ++ natDigits n ++ nl =
      iind ++ ('-' :: ((' ' :: natDigits n) ++ nl)) := by simp
  unfold stripItemTest
  rw [hline]
  unfold stripSpace
  rw [dropWhile_indent iind _ hiind (by decide),
    dropTrailingSpace_cons_of_not_space _ (by decide),
    dropTrailingSpace_append_allws _ hnl]
  have h2 : (' ' :: natDigits n) = (' ' :: ds) ++ [d] := by rw [hd]; rfl
  rw [h2, dropTrailingSpace_of_last _ (not_isSpace_of_isDigit hddig), ← h2]
  simp only []
  rw [List.dropWhile_cons_of_pos (by decide)]
  have hdw : List.dropWhile isSpace (natDigits n) = natDigits n := by
    cases hnd : natDigits n with
    | nil => rfl
    | cons e es =>
      rw [List.dropWhile_cons_of_neg]
      have : e.isDigit = true := natDigits_all_digit n e (by rw [hnd]; simp)
      simp [not_isSpace_of_isDigit this]
  rw [hdw]
  simp [natDigits_ne_nil n, List.all_eq_true]
  intro x hx
  exact natDigits_all_digit n x hx

end AutoClose

namespace AutoClose

theorem availLine_parseAvailHdr (ind R com : Line)
    (hind : ∀ x ∈ ind, isSpace x = true)
    (hRhd : ∃ c rR, R = c :: rR ∧ isSpace c = false)
    (hRlast : ∃ rR c, R = rR ++ [c] ∧ isSpace c = false)
    (hRhash : ∀ x ∈ R, (x != '#') = true)
    (hcom : ComShape com) :
    parseAvailHdr (ind ++ "availability: ".toList ++ R ++ com ++ ['\n']) =
      some (ind, R, com) := by
  obtain ⟨c0, rR0, hR0, hc0⟩ := hRhd
  obtain ⟨rR1, c1, hR1, hc1⟩ := hRlast
  have hline : ind ++ "availability: ".toList ++ R ++ com ++ ['\n'] =
      ind ++ ('a' :: ("vailability: ".toList ++ (R ++ (com ++ ['\n'])))) := by simp
  unfold parseAvailHdr
  simp only []
  rw [hline, takeWhile_indent ind _ hind (by decide), dropWhile_indent ind _ hind (by decide)]
  have hsplit : ('a' :: ("vailability: ".toList ++ (R ++ (com ++ ['\n'])))) =
      "availability:".toList ++ (' ' :: (R ++ (com ++ ['\n']))) := by simp
  rw [hsplit, List.take_left' (by decide)]
  rw [if_pos (by decide), List.drop_left' (by decide)]
  have hconc : (' ' :: (R ++ (com ++ ['\n']))) = (' ' :: (R ++ com)) ++ ['\n'] := by simp
  rw [hconc, dropFinalLF_concat_lf]
  rw [List.dropWhile_cons_of_pos (by decide)]
  have hRdw : List.dropWhile isSpace R = R := by
    rw [hR0, List.dropWhile_cons_of_neg (by simp [hc0])]
  have hdw : List.dropWhile isSpace (R ++ com) = R ++ com := by
    rw [dropWhile_append_of_ne_nil com (by rw [hRdw]; rw [hR0]; simp), hRdw]
  rw [hdw]
  rcases hcom with hcom | ⟨cws, ct, hcome, hcws⟩
  · subst hcom
    unfold splitAtComment
    simp only []
    rw [List.append_nil, List.takeWhile_eq_self_iff.mpr hRhash,
      List.dropWhile_eq_nil_iff.mpr hRhash]
    simp only [List.isEmpty_nil, if_true]
    rw [hR1, dropTrailingSpace_of_last _ hc1]
  · subst hcome
    unfold splitAtComment
    simp only []
    have hpre : List.takeWhile (fun c => c != '#') (R ++ (cws ++ '#' :: ct)) = R ++ cws := by
      rw [List.takeWhile_append_of_pos hRhash,
        List.takeWhile_append_of_pos (fun x hx => ne_hash_of_isSpace (hcws x hx)),
        List.takeWhile_cons_of_neg (by simp)]
      simp
    have hpost : List.dropWhile (fun c => c != '#') (R ++ (cws ++ '#' :: ct)) = '#' :: ct := by
      rw [List.dropWhile_append_of_pos hRhash,
        List.dropWhile_append_of_pos (fun x hx => ne_hash_of_isSpace (hcws x hx)),
        List.dropWhile_cons_of_neg (by simp)]
    rw [hpre, hpost]
    rw [if_neg (by simp)]
    have hdt : dropTrailingSpace (R ++ cws) = R := by
      rw [dropTrailingSpace_append_allws R hcws, hR1, dropTrailingSpace_of_last _ hc1, ← hR1]
    have hts : ((R ++ cws).reverse.takeWhile isSpace).reverse = cws := by
      rw [List.reverse_append, List.takeWhile_append_of_pos (by
          intro x hx; exact hcws x (by simpa using hx))]
      have hrev : R.reverse.takeWhile isSpace = [] := by
        rw [hR1, List.reverse_append, List.reverse_singleton, List.singleton_append,
          List.takeWhile_cons_of_neg (by simp [hc1])]
      rw [hrev]
      simp
    rw [hdt, hts]

end AutoClose

namespace AutoClose

/-! ### Correctness of the block map -/

theorem recordStartsFrom_mem {L : List Line} {i : Nat} {j : Nat} {ind nm : Line}
    (h : (j, ind, nm) ∈ recordStartsFrom L i) :
    ∃ d, j = i + d ∧ d < L.length ∧ parseRecordStart (L.getD d []) = some (ind, nm) := by
  induction L generalizing i with
  | nil => simp [recordStartsFrom] at h
  | cons l rest ih =>
    rw [recordStartsFrom] at h
    rcases List.mem_append.mp h with hm | hm
    · cases hp : parseRecordStart l with
      | none => rw [hp] at hm; simp at hm
      | some v =>
        rw [hp] at hm
        obtain ⟨v1, v2⟩ := v
        simp at hm
        obtain ⟨h1, h2, h3⟩ := hm
        exact ⟨0, by omega, by simp, by simp [List.getD_cons_zero, hp, h2, h3]⟩
    · obtain ⟨d, hd1, hd2, hd3⟩ := ih hm
      exact ⟨d + 1, by omega, by simpa using Nat.succ_lt_succ hd2, by
        rw [show (l :: rest).getD (d + 1) [] = rest.getD d [] from rfl]; exact hd3⟩

theorem recordStartsFrom_complete {L : List Line} (d : Nat) (ind nm : Line) (i : Nat)
    (hd : d < L.length) (hp : parseRecordStart (L.getD d []) = some (ind, nm)) :
    (i + d, ind, nm) ∈ recordStartsFrom L i := by
  induction L generalizing i d with
  | nil => simp at hd
  | cons l rest ih =>
    rw [recordStartsFrom]
    cases d with
    | zero =>
      rw [List.getD_cons_zero] at hp
      rw [hp]
      simp
    | succ d2 =>
      refine List.mem_append.mpr (Or.inr ?_)
      have hd2 : d2 < rest.length := by simpa using hd
      have hp2 : parseRecordStart (rest.getD d2 []) = some (ind, nm) := by
        rw [show (l :: rest).getD (d2 + 1) [] = rest.getD d2 [] from rfl] at hp
        exact hp
      have := ih d2 (i + 1) hd2 hp2
      simpa [Nat.add_comm, Nat.add_assoc, Nat.add_left_comm] using this

theorem recordStartsFrom_lb {L : List Line} {i : Nat} :
    ∀ x ∈ recordStartsFrom L i, i ≤ x.1 := by
  induction L generalizing i with
  | nil => intro x hx; simp [recordStartsFrom] at hx
  | cons l rest ih =>
    intro x hx
    rw [recordStartsFrom] at hx
    rcases List.mem_append.mp hx with hm | hm
    · cases hp : parseRecordStart l with
      | none => rw [hp] at hm; simp at hm
      | some v =>
        rw [hp] at hm
        simp at hm
        subst hm
        simp
    · exact le_trans (Nat.le_succ i) (ih x hm)

theorem recordStartsFrom_sorted (L : List Line) (i : Nat) :
    (recordStartsFrom L i).Pairwise (fun a b => a.1 < b.1) := by
  induction L generalizing i with
  | nil => simp [recordStartsFrom]
  | cons l rest ih =>
    rw [recordStartsFrom]
    cases hp : parseRecordStart l with
    | none =>
      simp only [List.nil_append]
      exact ih (i + 1)
    | some v =>
      simp only [List.singleton_append]
      refine List.pairwise_cons.mpr ⟨?_, ih (i + 1)⟩
      intro x hx
      have := recordStartsFrom_lb x hx
      simp only
      omega

theorem lookupBlock_foldl_acc (k : Line) (bs : List (Line × Nat × Nat × Line × Line)) :
    ∀ (a : Option (Nat × Nat × Line × Line)),
    bs.foldl (fun acc b => if b.1 = k then some b.2 else acc) a =
      match bs.foldl (fun acc b => if b.1 = k then some b.2 else acc) none with
      | some v => some v
      | none => a := by
  induction bs with
  | nil => intro a; rfl
  | cons b bs ih =>
    intro a
    rw [List.foldl_cons, List.foldl_cons, ih, ih (if b.1 = k then some b.2 else none)]
    cases hl : bs.foldl (fun acc b => if b.1 = k then some b.2 else acc) none with
    | some v => rfl
    | none =>
      by_cases hb : b.1 = k
      · simp [hb]
      · simp [hb]

theorem lookupBlock_cons (b : Line × Nat × Nat × Line × Line)
    (bs : List (Line × Nat × Nat × Line × Line)) (k : Line) :
    lookupBlock (b :: bs) k =
      match lookupBlock bs k with
      | some v => some v
      | none => if b.1 = k then some b.2 else none := by
  unfold lookupBlock
  rw [List.foldl_cons, lookupBlock_foldl_acc]

theorem lookupBlock_eq_none_iff (bs : List (Line × Nat × Nat × Line × Line)) (k : Line) :
    lookupBlock bs k = none ↔ ∀ b ∈ bs, b.1 ≠ k := by
  induction bs with
  | nil => simp [lookupBlock]
  | cons b bs ih =>
    rw [lookupBlock_cons]
    cases hl : lookupBlock bs k with
    | some v =>
      simp only []
      constructor
      · intro hc; exact Option.noConfusion hc
      · intro hall
        rw [ih.mpr (fun x hx => hall x (by simp [hx]))] at hl
        exact Option.noConfusion hl
    | none =>
      rw [ih] at hl
      constructor
      · intro hc
        by_cases hb : b.1 = k
        · rw [if_pos hb] at hc; exact Option.noConfusion hc
        · intro x hx
          rcases List.mem_cons.mp hx with rfl | hx2
          · exact hb
          · exact hl x hx2
      · intro hall
        rw [if_neg (hall b (by simp))]

theorem blockEntriesGo_mem_key {len : Nat} {st : List (Nat × Line × Line)}
    {b : Line × Nat × Nat × Line × Line} (h : b ∈ blockEntriesGo len st) :
    ∃ x ∈ st, b.1 = normalize x.2.2 := by
  induction st with
  | nil => simp [blockEntriesGo] at h
  | cons a rest ih =>
    rw [blockEntriesGo] at h
    rcases List.mem_cons.mp h with rfl | h2
    · exact ⟨a, by simp, rfl⟩
    · obtain ⟨x, hx1, hx2⟩ := ih h2
      exact ⟨x, by simp [hx1], hx2⟩

theorem lookupBlock_blockEntries_spec {len : Nat} {key : Line}
    {v : Nat × Nat × Line × Line} :
    ∀ {st : List (Nat × Line × Line)},
    lookupBlock (blockEntriesGo len st) key = some v →
    ∃ st1 st2 ind nm, st = st1 ++ (v.1, ind, nm) :: st2 ∧
      normalize nm = key ∧ v.2.1 = headEnd st2 len ∧ v.2.2.1 = ind ∧ v.2.2.2 = nm ∧
      ∀ x ∈ st2, normalize x.2.2 ≠ key := by
  intro st
  induction st with
  | nil => intro h; simp [blockEntriesGo, lookupBlock] at h
  | cons a rest ih =>
    intro h
    rw [blockEntriesGo, lookupBlock_cons] at h
    cases hl : lookupBlock (blockEntriesGo len rest) key with
    | some w =>
      rw [hl] at h
      simp only [Option.some.injEq] at h
      subst h
      obtain ⟨st1, st2, ind, nm, h1, h2, h3, h4, h5, h6⟩ := ih hl
      exact ⟨a :: st1, st2, ind, nm, by rw [h1]; rfl, h2, h3, h4, h5, h6⟩
    | none =>
      rw [hl] at h
      by_cases hk : normalize a.2.2 = key
      · rw [if_pos hk] at h
        simp only [Option.some.injEq] at h
        subst h
        refine ⟨[], rest, a.2.1, a.2.2, by simp, hk, rfl, rfl, rfl, ?_⟩
        intro x hx hkey
        have hmem : ∃ b ∈ blockEntriesGo len rest, b.1 = key := by
          clear hl ih
          induction rest with
          | nil => simp at hx
          | cons a2 r2 ih2 =>
            rcases List.mem_cons.mp hx with rfl | hx2
            · exact ⟨_, by rw [blockEntriesGo]; exact List.mem_cons_self _ _, hkey⟩
            · obtain ⟨b, hb1, hb2⟩ := ih2 hx2
              exact ⟨b, by rw [blockEntriesGo]; exact List.mem_cons_of_mem _ hb1, hb2⟩
        obtain ⟨b, hb1, hb2⟩ := hmem
        exact (lookupBlock_eq_none_iff _ _).mp hl b hb1 hb2
      · rw [if_neg hk] at h
        exact Option.noConfusion h

end AutoClose

namespace AutoClose

theorem pairwise_decomp {α : Type} {R : α → α → Prop} {l1 l2 : List α} {x : α}
    (h : (l1 ++ x :: l2).Pairwise R) :
    (∀ y ∈ l1, R y x) ∧ (∀ y ∈ l2, R x y) ∧ l2.Pairwise R := by
  rw [List.pairwise_append] at h
  obtain ⟨h1, h2, h3⟩ := h
  rw [List.pairwise_cons] at h2
  exact ⟨fun y hy => h3 y hy x (by simp), h2.1, h2.2⟩

/-- What a successful lookup in `build_mentor_blocks` guarantees: the block
starts at a record-start line whose normalized name is the key, runs to the
next record start or the end of the document, has no record start strictly
inside, and is the LAST record with that key (dict overwrite semantics). -/
theorem lookupBlock_spec {lines : List Line} {key : Line} {s e : Nat} {ind nm : Line}
    (h : lookupBlock (buildBlocks lines) key = some (s, e, ind, nm)) :
    parseRecordStart (lines.getD s []) = some (ind, nm) ∧ normalize nm = key ∧
    s < e ∧ e ≤ lines.length ∧
    (∀ j, s < j → j < e → parseRecordStart (lines.getD j []) = none) ∧
    (e = lines.length ∨ isRecordStart (lines.getD e []) = true) ∧
    (∀ j v1 v2, parseRecordStart (lines.getD j []) = some (v1, v2) → j < lines.length →
      normalize v2 = key → j ≤ s) := by
  unfold buildBlocks at h
  obtain ⟨st1, st2, ind2, nm2, hdec, hkey, he, hind, hnm, hno⟩ :=
    lookupBlock_blockEntries_spec h
  simp only at hdec he hind hnm
  subst hind
  subst hnm
  have hsorted := recordStartsFrom_sorted lines 0
  rw [show recordStarts lines = recordStartsFrom lines 0 from rfl] at hdec
  rw [hdec] at hsorted
  obtain ⟨hst1, hst2, hst2p⟩ := pairwise_decomp hsorted
  have hmem : (s, ind, nm) ∈ recordStartsFrom lines 0 := by
    rw [hdec]
    exact List.mem_append.mpr (Or.inr (List.mem_cons_self _ _))
  obtain ⟨d, hd0, hdlen, hdparse⟩ := recordStartsFrom_mem hmem
  obtain rfl : s = d := by omega
  have hcomplete : ∀ j v1 v2, parseRecordStart (lines.getD j []) = some (v1, v2) →
      j < lines.length → (j, v1, v2) ∈ recordStartsFrom lines 0 := by
    intro j v1 v2 hj hjl
    have := recordStartsFrom_complete j v1 v2 0 hjl hj
    simpa using this
  have hmemcase : ∀ j v1 v2, (j, v1, v2) ∈ recordStartsFrom lines 0 →
      (j, v1, v2) ∈ st1 ∨ (j = s ∧ v1 = ind ∧ v2 = nm) ∨ (j, v1, v2) ∈ st2 := by
    intro j v1 v2 hj
    rw [hdec] at hj
    rcases List.mem_append.mp hj with hm | hm
    · exact Or.inl hm
    · rcases List.mem_cons.mp hm with heq | hm2
      · exact Or.inr (Or.inl ⟨congrArg Prod.fst heq,
          congrArg (fun p => p.2.1) heq, congrArg (fun p => p.2.2) heq⟩)
      · exact Or.inr (Or.inr hm2)
  have hby : ∀ b, b ∈ st2 → b.1 < lines.length ∧
      parseRecordStart (lines.getD b.1 []) = some (b.2.1, b.2.2) := by
    intro b hb
    have hbmem : b ∈ recordStartsFrom lines 0 := by
      rw [hdec]
      exact List.mem_append.mpr (Or.inr (List.mem_cons_of_mem _ hb))
    obtain ⟨b1, b2, b3⟩ := b
    obtain ⟨d2, hd2, hd2l, hd2p⟩ := recordStartsFrom_mem hbmem
    simp only at hd2 ⊢
    constructor
    · omega
    · rw [show b1 = d2 from by omega]
      exact hd2p
  refine ⟨hdparse, hkey, ?_, ?_, ?_, ?_, ?_⟩
  · cases hst2c : st2 with
    | nil =>
      rw [hst2c] at he
      simp only [headEnd] at he
      omega
    | cons b st2t =>
      rw [hst2c] at he
      simp only [headEnd] at he
      have := hst2 b (by rw [hst2c]; simp)
      simp only at this
      omega
  · cases hst2c : st2 with
    | nil =>
      rw [hst2c] at he
      simp only [headEnd] at he
      omega
    | cons b st2t =>
      rw [hst2c] at he
      simp only [headEnd] at he
      have := (hby b (by rw [hst2c]; simp)).1
      omega
  · intro j hj1 hj2
    cases hp : parseRecordStart (lines.getD j []) with
    | none => rfl
    | some v =>
      exfalso
      obtain ⟨v1, v2⟩ := v
      have hjl : j < lines.length := by
        cases hst2c : st2 with
        | nil =>
          rw [hst2c] at he
          simp only [headEnd] at he
          omega
        | cons b st2t =>
          rw [hst2c] at he
          simp only [headEnd] at he
          have := (hby b (by rw [hst2c]; simp)).1
          omega
      rcases hmemcase j v1 v2 (hcomplete j v1 v2 hp hjl) with hm | hm | hm
      · have := hst1 _ hm
        simp only at this
        omega
      · omega
      · cases hst2c : st2 with
        | nil => rw [hst2c] at hm; simp at hm
        | cons b st2t =>
          rw [hst2c] at he
          simp only [headEnd] at he
          rw [hst2c] at hm
          rcases List.mem_cons.mp hm with heq | hm2
          · have : j = b.1 := congrArg Prod.fst heq
            omega
          · rw [hst2c] at hst2p
            rw [List.pairwise_cons] at hst2p
            have := hst2p.1 _ hm2
            simp only at this
            omega
  · cases hst2c : st2 with
    | nil =>
      rw [hst2c] at he
      simp only [headEnd] at he
      exact Or.inl he
    | cons b st2t =>
      rw [hst2c] at he
      simp only [headEnd] at he
      refine Or.inr ?_
      have hb := (hby b (by rw [hst2c]; simp)).2
      unfold isRecordStart
      rw [he, hb]
      rfl
  · intro j v1 v2 hp hjl hkey2
    rcases hmemcase j v1 v2 (hcomplete j v1 v2 hp hjl) with hm | hm | hm
    · have := hst1 _ hm
      simp only at this
      omega
    · omega
    · exact absurd hkey2 (hno _ hm)

end AutoClose

namespace AutoClose

/-! ### Concrete counterexample and code-bug evaluations -/

/-- C1 counterexample: on an inline availability list `[9, 9]` that contains
the target month 9 twice, the patcher removes BOTH occurrences (the header
collapses to `availability: []`), not exactly one — one-occurrence removal
would leave a single `9`. -/
theorem spec_c1_counterexample :
    ((apply_text_patches
        "- name: A\n  availability: [9, 9]\n  sort: 100\n".toList ["A".toList] 9).1 =
      "- name: A\n  availability: []\n  sort: 100\n".toList) ∧
    ¬((extractNums "[]".toList).count 9 + 1 = (extractNums "[9, 9]".toList).count 9) := by
  decide

/-- C3 counterexample: patching the same two-mentor worklist twice is not a
no-op.  The first patch inserts a `sort: 100` line into mentor A's block, which
shifts mentor B's block down while the block map still holds B's old line
range; B's own `sort: 50` line escapes the stale window, so the second run
still reports B as changed. -/
theorem spec_c3_counterexample :
    (apply_text_patches
      (apply_text_patches
        "- name: A\n  availability: [9]\n- name: B\n  availability: [9]\n  sort: 50\n".toList
        ["A".toList, "B".toList] 9).1
      ["A".toList, "B".toList] 9).2.1 = ["B".toList] ∧
    ["B".toList] ≠ ([] : List Line) := by
  decide

/-- C5 counterexample: collapsing a one-item block list whose only item is the
target month deletes that item line but, because the block has no `sort:` line,
the patcher inserts a new `sort: 100` line, so the block's line count does not
decrease by the number of item lines (3 lines before, 3 after). -/
theorem spec_c5_counterexample :
    (scanItems (splitlines "- name: A\n  availability:\n    - 9\n".toList) "    ".toList 2 3 =
      ([9], 1, ['\n'])) ∧
    (splitlines "- name: A\n  availability:\n    - 9\n".toList).length = 3 ∧
    (splitlines (apply_text_patches "- name: A\n  availability:\n    - 9\n".toList
      ["A".toList] 9).1).length = 3 ∧
    ¬((3 : Nat) = 3 - 1) := by
  decide

/-- C6 failing input: a block-style availability list followed by a `sort: 50`
line.  Removing month 9 leaves one item; the script decrements the block-end
index for the two deleted item lines but does not add the reinserted line
back, so the `sort:` scan window ends one line short, misses `sort: 50`, and
a duplicate `sort: 100` line is inserted instead of rewriting it. -/
theorem spec_c6_code_bug :
    apply_text_patches
      "- name: A\n  availability:\n    - 9\n    - 10\n  sort: 50\n".toList
      ["A".toList] 9 =
    ("- name: A\n  availability:\n    - 10\n  sort: 100\n  sort: 50\n".toList,
      ["A".toList], []) := by
  decide

/-- C7 counterexample: in dry-run mode the program reports the decision
worklist (mentor "Ada" is over capacity), but the text patcher — never invoked
in dry-run — would change nothing for that worklist, because the quoted
`- name: "Ada"` line normalizes (quotes kept) to a different key.  So the
reported set is not "the set of mentors whose Blocks would textually differ". -/
theorem spec_c7_counterexample :
    main_run "- name: \"Ada\"\n  availability: [9]\n".toList
        [("ada".toList, 1)] [⟨"Ada".toList, .vint 1, .vlist [.vint 9]⟩] 9 true =
      ("- name: \"Ada\"\n  availability: [9]\n".toList, ["Ada".toList]) ∧
    (apply_text_patches "- name: \"Ada\"\n  availability: [9]\n".toList
        ["Ada".toList] 9).2.1 = [] ∧
    ["Ada".toList] ≠ ([] : List Line) := by
  decide

/-- C8 counterexample: two records whose raw names differ only by case map to
the same normalized key.  The block map silently resolves the collision with
last-write-wins (the key maps to the SECOND record's block, lines 2-4), and no
warning is produced anywhere in the patch pipeline. -/
theorem spec_c8_counterexample :
    normalize "Ada".toList = normalize "ADA".toList ∧
    "Ada".toList ≠ "ADA".toList ∧
    lookupBlock (buildBlocks
        (splitlines "- name: Ada\n  sort: 100\n- name: ADA\n  sort: 100\n".toList))
        ("ada".toList) = some (2, 4, [], "ADA".toList) ∧
    (apply_text_patches "- name: Ada\n  sort: 100\n- name: ADA\n  sort: 100\n".toList
        ["Ada".toList] 9).2.2 = [] := by
  decide

end AutoClose

namespace AutoClose

/-! ### Decision engine: characterizing selection -/

theorem lookupLast_foldl_acc (k : Line) (ps : List (Line × Line)) :
    ∀ (a : Option Line),
    ps.foldl (fun acc p => if p.1 = k then some p.2 else acc) a =
      match ps.foldl (fun acc p => if p.1 = k then some p.2 else acc) none with
      | some v => some v
      | none => a := by
  induction ps with
  | nil => intro a; rfl
  | cons p ps ih =>
    intro a
    rw [List.foldl_cons, List.foldl_cons, ih, ih (if p.1 = k then some p.2 else none)]
    cases hl : ps.foldl (fun acc p => if p.1 = k then some p.2 else acc) none with
    | some v => rfl
    | none =>
      by_cases hb : p.1 = k
      · simp [hb]
      · simp [hb]

theorem lookupLast_cons (p : Line × Line) (ps : List (Line × Line)) (k : Line) :
    lookupLast (p :: ps) k =
      match lookupLast ps k with
      | some v => some v
      | none => if p.1 = k then some p.2 else none := by
  unfold lookupLast
  rw [List.foldl_cons, lookupLast_foldl_acc]

theorem lookupLast_eq_none_iff (ps : List (Line × Line)) (k : Line) :
    lookupLast ps k = none ↔ ∀ p ∈ ps, p.1 ≠ k := by
  induction ps with
  | nil => simp [lookupLast]
  | cons p ps ih =>
    rw [lookupLast_cons]
    cases hl : lookupLast ps k with
    | some v =>
      simp only []
      constructor
      · intro hc; exact Option.noConfusion hc
      · intro hall
        rw [ih.mpr (fun x hx => hall x (by simp [hx]))] at hl
        exact Option.noConfusion hl
    | none =>
      rw [ih] at hl
      constructor
      · intro hc
        by_cases hb : p.1 = k
        · rw [if_pos hb] at hc; exact Option.noConfusion hc
        · intro x hx
          rcases List.mem_cons.mp hx with rfl | hx2
          · exact hb
          · exact hl x hx2
      · intro hall
        rw [if_neg (hall p (by simp))]

theorem lookupLast_mem {ps : List (Line × Line)} {k d : Line}
    (h : lookupLast ps k = some d) : (k, d) ∈ ps := by
  induction ps with
  | nil => simp [lookupLast] at h
  | cons p ps ih =>
    rw [lookupLast_cons] at h
    cases hl : lookupLast ps k with
    | some v =>
      rw [hl] at h
      simp only [Option.some.injEq] at h
      subst h
      exact List.mem_cons_of_mem _ (ih hl)
    | none =>
      rw [hl] at h
      by_cases hb : p.1 = k
      · rw [if_pos hb] at h
        simp only [Option.some.injEq] at h
        subst h
        subst hb
        exact List.mem_cons_self _ _
      · rw [if_neg hb] at h
        exact Option.noConfusion h

theorem normalize_nil : normalize [] = [] := rfl

theorem displayByNorm_mem {mentors : List MentorItem} {p : Line × Line}
    (h : p ∈ displayByNorm mentors) :
    ∃ m ∈ mentors, normalize m.name = p.1 ∧ m.name = p.2 ∧ p.1 ≠ [] := by
  unfold displayByNorm at h
  obtain ⟨m, hm, hmp⟩ := List.mem_filterMap.mp h
  by_cases hn : normalize m.name = []
  · rw [if_pos hn] at hmp
    exact Option.noConfusion hmp
  · rw [if_neg hn] at hmp
    simp only [Option.some.injEq] at hmp
    subst hmp
    exact ⟨m, hm, rfl, rfl, hn⟩

theorem displayByNorm_mem_of {mentors : List MentorItem} {m : MentorItem}
    (hm : m ∈ mentors) (hn : normalize m.name ≠ []) :
    (normalize m.name, m.name) ∈ displayByNorm mentors := by
  unfold displayByNorm
  refine List.mem_filterMap.mpr ⟨m, hm, ?_⟩
  rw [if_neg hn]

/-- C4: an entry of the counts map is selected for update exactly when the
mentor's record is found (by normalized display name), its `hours` field parses
as an integer, the count reaches it, and the target month is in the parsed
availability list; and a failed entry contributes nothing to `to_update`
regardless of the other entries. -/
theorem spec_c4 (mentors : List MentorItem) (month : Nat) (k : Line) (c : Nat)
    (hk : k ≠ []) :
    ((∃ d, selectEntry mentors month k c = some d) ↔
      (∃ r, mentors.find? (fun m => normalize m.name == k) = some r ∧
        ∃ h, ensure_int r.hours = some h ∧ h ≤ (c : Int) ∧
          (month : Int) ∈ as_int_list r.availability)) ∧
    (selectEntry mentors month k c = none →
      ∀ pre post, to_update (pre ++ (k, c) :: post) mentors month =
        to_update pre mentors month ++ to_update post mentors month) := by
  constructor
  · constructor
    · rintro ⟨d, hd⟩
      unfold selectEntry at hd
      cases hl : lookupLast (displayByNorm mentors) k with
      | none => rw [hl] at hd; exact Option.noConfusion hd
      | some disp =>
        rw [hl] at hd
        simp only [] at hd
        by_cases hdisp : disp = []
        · rw [if_pos hdisp] at hd; exact Option.noConfusion hd
        · rw [if_neg hdisp] at hd
          cases hf : mentors.find? (fun m => normalize m.name == k) with
          | none => rw [hf] at hd; exact Option.noConfusion hd
          | some r =>
            rw [hf] at hd
            simp only [] at hd
            cases hh : ensure_int r.hours with
            | none => rw [hh] at hd; exact Option.noConfusion hd
            | some hrs =>
              rw [hh] at hd
              simp only [] at hd
              by_cases hcond : hrs ≤ (c : Int) ∧ (month : Int) ∈ as_int_list r.availability
              · exact ⟨r, rfl, hrs, hh, hcond.1, hcond.2⟩
              · rw [if_neg hcond] at hd; exact Option.noConfusion hd
    · rintro ⟨r, hf, hrs, hh, hc1, hc2⟩
      have hrm : r ∈ mentors := List.mem_of_find?_eq_some hf
      have hrk : normalize r.name = k := by
        have := List.find?_some hf
        simpa using this
      have hl : ∃ disp, lookupLast (displayByNorm mentors) k = some disp := by
        cases hl2 : lookupLast (displayByNorm mentors) k with
        | some disp => exact ⟨disp, rfl⟩
        | none =>
          exfalso
          have := (lookupLast_eq_none_iff _ _).mp hl2
            (normalize r.name, r.name) (displayByNorm_mem_of hrm (by rw [hrk]; exact hk))
          exact this hrk
      obtain ⟨disp, hl⟩ := hl
      have hdispne : disp ≠ [] := by
        obtain ⟨m, hm, hm1, hm2, hm3⟩ := displayByNorm_mem (lookupLast_mem hl)
        simp only at hm1 hm2 hm3
        intro he
        rw [he] at hm2
        rw [hm2, normalize_nil] at hm1
        exact hk hm1.symm
      refine ⟨disp, ?_⟩
      unfold selectEntry
      rw [hl]
      simp only []
      rw [if_neg hdispne, hf]
      simp only []
      rw [hh]
      simp only []
      rw [if_pos ⟨hc1, hc2⟩]
  · intro hnone pre post
    unfold to_update
    rw [List.filterMap_append, List.filterMap_cons]
    rw [hnone]

end AutoClose

namespace AutoClose

theorem spec_c4_witness :
    ∃ d, selectEntry [⟨"Ada".toList, .vint 2, .vlist [.vint 9]⟩] 9 "ada".toList 2 = some d :=
  (spec_c4 [⟨"Ada".toList, .vint 2, .vlist [.vint 9]⟩] 9 "ada".toList 2 (by decide)).1.mpr
    ⟨⟨"Ada".toList, .vint 2, .vlist [.vint 9]⟩, rfl, 2, rfl, by decide, by decide⟩

/-! ### The patcher changes nothing when it reports no change -/

theorem availPhase_not_changed {lines : List Line} {s e m : Nat}
    {out : List Line × Nat × Bool × Option (Nat × Line × Line)}
    (heq : availPhase lines s e m = out) (h : out.2.2.1 = false) :
    out.1 = lines ∧ out.2.1 = e := by
  unfold availPhase at heq
  split at heq
  · constructor <;> rw [← heq]
  · simp only [] at heq
    split at heq
    · split at heq
      · constructor <;> rw [← heq]
      · rw [← heq] at h; simp at h
    · split at heq
      · constructor <;> rw [← heq]
      · split at heq
        · constructor <;> rw [← heq]
        · split at heq
          · rw [← heq] at h; simp at h
          · rw [← heq] at h; simp at h

theorem sortPhase_not_changed {lines : List Line} {s e : Nat}
    {hdr : Option (Nat × Line × Line)} {out : List Line × Bool}
    (heq : sortPhase lines s e hdr = out) (h : out.2 = false) :
    out.1 = lines := by
  unfold sortPhase at heq
  split at heq
  · split at heq
    · rw [← heq]
    · rw [← heq] at h; simp at h
  · rw [← heq] at h; simp at h

theorem patchBlock_not_changed {lines : List Line} {s e m : Nat}
    (h : (patchBlock lines s e m).2 = false) :
    (patchBlock lines s e m).1 = lines := by
  unfold patchBlock at h ⊢
  rcases ha : availPhase lines s e m with ⟨ls1, e1, ch1, hdr⟩
  rw [ha] at h
  simp only [] at h ⊢
  rw [Bool.or_eq_false_iff] at h
  obtain ⟨h1, h2⟩ := h
  have ea := availPhase_not_changed ha h1
  have es := sortPhase_not_changed rfl h2
  rw [es]
  exact ea.1

end AutoClose

namespace AutoClose

theorem lookupBlock_mem {bs : List (Line × Nat × Nat × Line × Line)} {k : Line}
    {v : Nat × Nat × Line × Line} (h : lookupBlock bs k = some v) : (k, v) ∈ bs := by
  induction bs with
  | nil => simp [lookupBlock] at h
  | cons b bs ih =>
    rw [lookupBlock_cons] at h
    cases hl : lookupBlock bs k with
    | some w =>
      rw [hl] at h
      simp only [Option.some.injEq] at h
      subst h
      exact List.mem_cons_of_mem _ (ih hl)
    | none =>
      rw [hl] at h
      by_cases hb : b.1 = k
      · rw [if_pos hb] at h
        simp only [Option.some.injEq] at h
        subst h
        rw [← hb]
        exact List.mem_cons_self _ _
      · rw [if_neg hb] at h
        exact Option.noConfusion h

theorem apply_fold_unchanged (lines0 : List Line) (month : Nat)
    (hall : ∀ b ∈ buildBlocks lines0,
      (patchBlock lines0 b.2.1 b.2.2.1 month).2 = false) :
    ∀ (names : List Line) (ch ws : List Line),
    names.foldl
      (fun (st : List Line × List Line × List Line) nm =>
        match lookupBlock (buildBlocks lines0) (normalize nm) with
        | none => (st.1, st.2.1, st.2.2 ++ [nm])
        | some (s, e, _, orig) =>
          let r := patchBlock st.1 s e month
          (r.1, if r.2 then st.2.1 ++ [orig] else st.2.1, st.2.2))
      (lines0, ch, ws) =
    (lines0, ch, ws ++ names.filter
      (fun nm => (lookupBlock (buildBlocks lines0) (normalize nm)).isNone)) := by
  intro names
  induction names with
  | nil => intro ch ws; simp
  | cons nm names ih =>
    intro ch ws
    rw [List.foldl_cons]
    cases hl : lookupBlock (buildBlocks lines0) (normalize nm) with
    | none =>
      simp only []
      rw [ih ch (ws ++ [nm])]
      simp [List.filter_cons, hl]
    | some v =>
      obtain ⟨s, e, ind, orig⟩ := v
      simp only []
      have hb := lookupBlock_mem hl
      have hch := hall _ hb
      simp only at hch
      have hlines := patchBlock_not_changed hch
      rw [hch, hlines, if_neg (by simp)]
      rw [ih ch ws]
      simp [List.filter_cons, hl]

/-- C2: when no Block of the document requires a change, the patcher reports
`changed = []` and returns the document text byte for byte. -/
theorem spec_c2 (text : Line) (names : List Line) (month : Nat)
    (hall : ∀ b ∈ buildBlocks (splitlines text),
      (patchBlock (splitlines text) b.2.1 b.2.2.1 month).2 = false) :
    (apply_text_patches text names month).1 = text ∧
    (apply_text_patches text names month).2.1 = [] := by
  unfold apply_text_patches
  simp only []
  rw [apply_fold_unchanged (splitlines text) month hall names [] []]
  simp only []
  refine ⟨joinLines_splitlines text, ?_⟩
  trivial

/-- Witness for C2 at a concrete already-canonical document. -/
theorem spec_c2_witness :
    (apply_text_patches "- name: A\n  availability: []\n  sort: 100\n".toList
      ["A".toList, "Zed".toList] 9).1 =
      "- name: A\n  availability: []\n  sort: 100\n".toList ∧
    (apply_text_patches "- name: A\n  availability: []\n  sort: 100\n".toList
      ["A".toList, "Zed".toList] 9).2.1 = [] :=
  spec_c2 "- name: A\n  availability: []\n  sort: 100\n".toList
    ["A".toList, "Zed".toList] 9 (by decide)

end AutoClose

namespace AutoClose

/-- C7 amended: with the dry-run flag set the program leaves the document text
unchanged and reports the decision worklist `to_update` — the set the decision
engine selected — rather than the set of mentors whose Blocks would textually
differ (the patcher is never invoked in dry-run mode). -/
theorem spec_c7_amended (text : Line) (counts : List (Line × Nat))
    (mentors : List MentorItem) (month : Nat) :
    main_run text counts mentors month true = (text, to_update counts mentors month) := by
  by_cases h : to_update counts mentors month = []
  · simp [main_run, h]
  · simp [main_run, h]

/-- C8 amended: a normalized-name collision is resolved silently by
last-write-wins — the Block returned for a key starts at the LAST record whose
normalized raw name equals the key — and each normalized identifier maps to at
most one Block (the map is a function of the key). -/
theorem spec_c8_amended (text : Line) (key : Line) (s e : Nat) (ind nm : Line)
    (h : lookupBlock (buildBlocks (splitlines text)) key = some (s, e, ind, nm)) :
    parseRecordStart ((splitlines text).getD s []) = some (ind, nm) ∧
    normalize nm = key ∧
    (∀ j v1 v2, parseRecordStart ((splitlines text).getD j []) = some (v1, v2) →
      j < (splitlines text).length → normalize v2 = key → j ≤ s) ∧
    (∀ v2, lookupBlock (buildBlocks (splitlines text)) key = some v2 →
      v2 = (s, e, ind, nm)) := by
  obtain ⟨h1, h2, h3, h4, h5, h6, h7⟩ := lookupBlock_spec h
  refine ⟨h1, h2, h7, ?_⟩
  intro v2 h2'
  rw [h] at h2'
  exact (Option.some.inj h2').symm

/-- Witness for C8 at the concrete collision document: the later record
(`ADA`, starting at line 2) wins the key, and no record with that key starts
after it. -/
theorem spec_c8_witness :
    parseRecordStart ((splitlines
        "- name: Ada\n  sort: 100\n- name: ADA\n  sort: 100\n".toList).getD 2 []) =
      some ([], "ADA".toList) ∧
    (∀ j v1 v2, parseRecordStart ((splitlines
        "- name: Ada\n  sort: 100\n- name: ADA\n  sort: 100\n".toList).getD j []) =
        some (v1, v2) →
      j < (splitlines "- name: Ada\n  sort: 100\n- name: ADA\n  sort: 100\n".toList).length →
      normalize v2 = "ada".toList → j ≤ 2) :=
  ⟨(spec_c8_amended "- name: Ada\n  sort: 100\n- name: ADA\n  sort: 100\n".toList
      "ada".toList 2 4 [] "ADA".toList (by decide)).1,
    (spec_c8_amended "- name: Ada\n  sort: 100\n- name: ADA\n  sort: 100\n".toList
      "ada".toList 2 4 [] "ADA".toList (by decide)).2.2.1⟩

end AutoClose

namespace AutoClose

/-! ### Execution lemmas: one per path of the patch phases -/

theorem availPhase_none {lines : List Line} {s e m : Nat}
    (hf : findAvailFrom lines s e = none) :
    availPhase lines s e m = (lines, e, false, none) := by
  unfold availPhase
  rw [hf]

theorem availPhase_inline {lines : List Line} {s e m h : Nat} {ind rest com : Line}
    (hf : findAvailFrom lines s e = some (h, ind, rest, com))
    (hin : (rest.contains '[' && rest.contains ']') = true) :
    availPhase lines s e m =
      (if lines.getD h [] = ind ++ "availability: ".toList ++
          renderNums ((extractNums rest).filter (fun n => n != m)) ++ com ++
          line_ending (lines.getD h [])
        then (lines, e, false, some (h, ind, line_ending (lines.getD h [])))
        else (lines.set h (ind ++ "availability: ".toList ++
          renderNums ((extractNums rest).filter (fun n => n != m)) ++ com ++
          line_ending (lines.getD h [])), e, true,
          some (h, ind, line_ending (lines.getD h [])))) := by
  unfold availPhase
  rw [hf]
  simp only []
  rw [hin]
  rfl

theorem availPhase_block {lines : List Line} {s e m h : Nat} {ind rest com : Line}
    {nums : List Nat} {k : Nat} {inl : Line}
    (hf : findAvailFrom lines s e = some (h, ind, rest, com))
    (hin : (rest.contains '[' && rest.contains ']') = false)
    (hscan : scanItems lines (ind ++ "  ".toList) (h + 1) e = (nums, k, inl)) :
    availPhase lines s e m =
      (if k = 0 then (lines, e, false, some (h, ind, line_ending (lines.getD h [])))
       else if (nums.filter (fun n => n != m)).length = nums.length then
         (lines, e, false, some (h, ind, line_ending (lines.getD h [])))
       else if (nums.filter (fun n => n != m)).isEmpty then
         ((lines.set h (ind ++ "availability: []".toList ++ com ++
             line_ending (lines.getD h []))).take (h + 1) ++
           (lines.set h (ind ++ "availability: []".toList ++ com ++
             line_ending (lines.getD h []))).drop (h + 1 + k),
           e - k, true, some (h, ind, line_ending (lines.getD h [])))
       else
         (lines.take (h + 1) ++
           ((nums.filter (fun n => n != m)).map
             (fun n => (ind ++ "  ".toList) ++ "- ".toList ++ natDigits n ++ inl)) ++
           lines.drop (h + 1 + k),
           e - k, true, some (h, ind, line_ending (lines.getD h [])))) := by
  unfold availPhase
  rw [hf]
  simp only []
  rw [hin]
  simp only [Bool.false_eq_true, if_false, hscan]

theorem sortPhase_found {lines : List Line} {s e : Nat}
    {hdr : Option (Nat × Line × Line)} {i : Nat} {sind : Line} {v : Nat}
    (hf : findSortFrom lines s e = some (i, sind, v)) :
    sortPhase lines s e hdr =
      (if v = 100 then (lines, false)
       else (lines.set i (sind ++ "sort: 100".toList ++ line_ending (lines.getD i [])),
         true)) := by
  unfold sortPhase
  rw [hf]

theorem sortPhase_insert_hdr {lines : List Line} {s e h : Nat} {ind nl : Line}
    (hf : findSortFrom lines s e = none) :
    sortPhase lines s e (some (h, ind, nl)) =
      (lines.insertIdx (skipItemsFrom lines (h + 1)) (ind ++ "sort: 100".toList ++ nl),
        true) := by
  unfold sortPhase
  rw [hf]

theorem sortPhase_insert_nohdr {lines : List Line} {s e : Nat}
    (hf : findSortFrom lines s e = none) :
    sortPhase lines s e none =
      (lines.insertIdx e ("  ".toList ++ "sort: 100".toList ++ ['\n']), true) := by
  unfold sortPhase
  rw [hf]

theorem patchBlock_glue (lines : List Line) (s e m : Nat) :
    patchBlock lines s e m =
      ((sortPhase (availPhase lines s e m).1 s (availPhase lines s e m).2.1
          (availPhase lines s e m).2.2.2).1,
        (availPhase lines s e m).2.2.1 ||
          (sortPhase (availPhase lines s e m).1 s (availPhase lines s e m).2.1
            (availPhase lines s e m).2.2.2).2) := rfl

/-! ### Index helpers for the skip loop and list splicing -/

theorem skipItemsGo_ge (lines : List Line) (i : Nat) :
    ∀ f, i ≤ skipItemsGo lines i f := by
  intro f
  induction f generalizing i with
  | zero => simp [skipItemsGo]
  | succ f ih =>
    rw [skipItemsGo]
    by_cases hc : stripItemTest (lines.getD i []) = true
    · rw [hc, if_pos rfl]
      exact le_trans (Nat.le_succ i) (ih (i + 1))
    · rw [Bool.not_eq_true] at hc
      rw [hc, if_neg (by simp)]

theorem skipItemsGo_le (lines : List Line) (i : Nat) :
    ∀ f, skipItemsGo lines i f ≤ i + f := by
  intro f
  induction f generalizing i with
  | zero => simp [skipItemsGo]
  | succ f ih =>
    rw [skipItemsGo]
    by_cases hc : stripItemTest (lines.getD i []) = true
    · rw [hc, if_pos rfl]
      have := ih (i + 1)
      omega
    · rw [Bool.not_eq_true] at hc
      rw [hc, if_neg (by simp)]
      omega

theorem skipItemsGo_le_of_fail (lines : List Line) {q : Nat}
    (hq : stripItemTest (lines.getD q []) = false) :
    ∀ f i, i ≤ q → skipItemsGo lines i f ≤ q := by
  intro f
  induction f with
  | zero => intro i hi; simpa [skipItemsGo] using hi
  | succ f ih =>
    intro i hi
    rw [skipItemsGo]
    by_cases hc : stripItemTest (lines.getD i []) = true
    · rw [hc, if_pos rfl]
      have hne : i ≠ q := by
        intro he; rw [he, hq] at hc; exact Bool.noConfusion hc
      exact ih (i + 1) (by omega)
    · rw [Bool.not_eq_true] at hc
      rw [hc, if_neg (by simp)]
      exact hi

theorem skipItemsFrom_le_len (lines : List Line) (i : Nat) :
    skipItemsFrom lines i ≤ max i lines.length := by
  unfold skipItemsFrom
  have := skipItemsGo_le lines i (lines.length - i)
  omega

theorem set_append_left {B C : List Line} {d : Nat} (x : Line) (hd : d < B.length) :
    (B ++ C).set d x = B.set d x ++ C := by
  induction B generalizing d with
  | nil => simp at hd
  | cons b B ih =>
    cases d with
    | zero => simp
    | succ d2 =>
      simp only [List.cons_append, List.set_cons_succ]
      rw [ih (by simpa using hd)]

theorem insertIdx_append_left {B C : List Line} {p : Nat} (x : Line) (hp : p ≤ B.length) :
    (B ++ C).insertIdx p x = B.insertIdx p x ++ C := by
  induction B generalizing p with
  | nil =>
    have hp0 : p = 0 := by simpa using hp
    subst hp0
    simp
  | cons b B ih =>
    cases p with
    | zero => simp
    | succ p2 =>
      simp only [List.cons_append, List.insertIdx_succ_cons]
      rw [ih (by simpa using hp)]

end AutoClose

namespace AutoClose

theorem getD_append_left {M S : List Line} {d : Nat} (hd : d < M.length) :
    (M ++ S).getD d [] = M.getD d [] := by
  rw [List.getD_eq_getElem?_getD, List.getD_eq_getElem?_getD,
    List.getElem?_append, if_pos hd]

theorem getD_set_ne (l : List Line) {i j : Nat} (x : Line) (h : i ≠ j) :
    (l.set i x).getD j [] = l.getD j [] := by
  rw [List.getD_eq_getElem?_getD, List.getD_eq_getElem?_getD, List.getElem?_set_ne h]

theorem getD_drop (l : List Line) (i j : Nat) :
    (l.drop i).getD j [] = l.getD (i + j) [] := by
  rw [List.getD_eq_getElem?_getD, List.getD_eq_getElem?_getD, List.getElem?_drop]

theorem getD_insertIdx_of_lt {M : List Line} {q d : Nat} (x : Line)
    (hd : d < q) (hdM : d < M.length) :
    (M.insertIdx q x).getD d [] = M.getD d [] := by
  by_cases hq : q ≤ M.length
  · have h1 : d < (M.insertIdx q x).length := by
      rw [List.length_insertIdx q M hq]; omega
    rw [List.getD_eq_getElem?_getD, List.getD_eq_getElem?_getD,
      List.getElem?_eq_getElem h1, List.getElem?_eq_getElem hdM,
      List.getElem_insertIdx_of_lt M x q d hd hdM]
  · rw [List.insertIdx_of_length_lt M x q (by omega)]

theorem scanItemsGo_count_le (lines : List Line) (ind : Line) (j : Nat) :
    ∀ f, (scanItemsGo lines ind j f).2.1 ≤ f := by
  intro f
  induction f generalizing j with
  | zero => simp [scanItemsGo]
  | succ f ih =>
    rw [scanItemsGo]
    cases hp : parseItem ind (lines.getD j []) with
    | none => simp
    | some n =>
      simp only []
      have := ih (j + 1)
      omega

theorem lines_decomp (lines : List Line) {s e : Nat} (hse : s ≤ e) (hel : e ≤ lines.length) :
    lines = lines.take s ++ (lines.take e).drop s ++ lines.drop e := by
  have h1 : lines.take e ++ lines.drop e = lines := List.take_append_drop e lines
  have h2 : (lines.take e).take s ++ (lines.take e).drop s = lines.take e :=
    List.take_append_drop s _
  have h3 : (lines.take e).take s = lines.take s := by
    rw [List.take_take s e lines]
    congr 1
    omega
  calc lines = lines.take e ++ lines.drop e := h1.symm
    _ = (lines.take e).take s ++ (lines.take e).drop s ++ lines.drop e := by rw [h2]
    _ = lines.take s ++ (lines.take e).drop s ++ lines.drop e := by rw [h3]

theorem mid_length (lines : List Line) {s e : Nat} (hel : e ≤ lines.length) :
    ((lines.take e).drop s).length = e - s := by
  rw [List.length_drop, List.length_take]
  omega

theorem take_append_at (A B : List Line) (n i : Nat) (h : n = A.length + i) :
    (A ++ B).take n = A ++ B.take i := by
  subst h; exact List.take_append i

theorem drop_append_at (A B : List Line) (n i : Nat) (h : n = A.length + i) :
    (A ++ B).drop n = B.drop i := by
  subst h; exact List.drop_append i

theorem set_append_at (A B : List Line) (n i : Nat) (x : Line) (h : n = A.length + i) :
    (A ++ B).set n x = A ++ B.set i x := by
  subst h; exact set_append_right A B i x

theorem insertIdx_append_at (A B : List Line) (n i : Nat) (x : Line)
    (h : n = A.length + i) :
    (A ++ B).insertIdx n x = A ++ B.insertIdx i x := by
  subst h; exact insertIdx_append_right A B i x

theorem getD_append_at (A B : List Line) (n i : Nat) (h : n = A.length + i) :
    (A ++ B).getD n [] = B.getD i [] := by
  subst h; exact getD_append_right A B i

/-- The availability phase only rewrites lines inside the block `[s, e)`:
its output splices a replacement segment between `take s` and `drop e`, the
returned end index stays within the replaced segment, and so does the header
index it reports. -/
theorem availPhase_decomp (lines : List Line) (s e m : Nat)
    (hse : s ≤ e) (hel : e ≤ lines.length) :
    ∃ M2 : List Line,
      (availPhase lines s e m).1 = lines.take s ++ M2 ++ lines.drop e ∧
      (s ≤ (availPhase lines s e m).2.1 ∧ (availPhase lines s e m).2.1 ≤ s + M2.length) ∧
      (∀ h ind nl, (availPhase lines s e m).2.2.2 = some (h, ind, nl) →
        s ≤ h ∧ h < s + M2.length) := by
  have hA : (lines.take s).length = s := by
    rw [List.length_take]; omega
  have hmidlen : ((lines.take e).drop s).length = e - s := mid_length lines hel
  cases hfa : findAvailFrom lines s e with
  | none =>
    rw [availPhase_none hfa]
    refine ⟨(lines.take e).drop s, (lines_decomp lines hse hel), ?_, ?_⟩
    · simp only []; rw [hmidlen]; omega
    · intro h ind nl hx; exact Option.noConfusion hx
  | some v =>
    obtain ⟨h, ind, rest, com⟩ := v
    have hspec := (findAvailGo_eq_some lines s (e - s) h ind rest com).mp hfa
    have hhs : s ≤ h := hspec.1
    have hhe : h < e := by have := hspec.2.1; omega
    cases hin : rest.contains '[' && rest.contains ']' with
    | true =>
      rw [availPhase_inline hfa hin]
      by_cases heq : lines.getD h [] = ind ++ "availability: ".toList ++
          renderNums ((extractNums rest).filter (fun n => n != m)) ++ com ++
          line_ending (lines.getD h [])
      · rw [if_pos heq]
        refine ⟨(lines.take e).drop s, (lines_decomp lines hse hel), ?_, ?_⟩
        · simp only []; rw [hmidlen]; omega
        · intro h2 ind2 nl2 hx
          simp only [Option.some.injEq, Prod.mk.injEq] at hx
          obtain ⟨rfl, -, -⟩ := hx
          rw [hmidlen]
          exact ⟨hhs, by omega⟩
      · rw [if_neg heq]
        set x := ind ++ "availability: ".toList ++
          renderNums ((extractNums rest).filter (fun n => n != m)) ++ com ++
          line_ending (lines.getD h []) with hxdef
        have hdec1 : lines.set h x = lines.take s ++
            ((lines.take e).drop s).set (h - s) x ++ lines.drop e := by
          conv_lhs => rw [lines_decomp lines hse hel]
          rw [List.append_assoc,
            set_append_at _ _ h (h - s) x (by rw [List.length_take]; omega),
            set_append_left _ (by rw [hmidlen]; omega),
            List.append_assoc]
        refine ⟨((lines.take e).drop s).set (h - s) x, ?_, ?_, ?_⟩
        · simp only []
          exact hdec1
        · simp only []; rw [List.length_set, hmidlen]; omega
        · intro h2 ind2 nl2 hx
          simp only [Option.some.injEq, Prod.mk.injEq] at hx
          obtain ⟨rfl, -, -⟩ := hx
          rw [List.length_set, hmidlen]
          exact ⟨hhs, by omega⟩
    | false =>
      have hscan : scanItems lines (ind ++ "  ".toList) (h + 1) e =
          ((scanItems lines (ind ++ "  ".toList) (h + 1) e).1,
           (scanItems lines (ind ++ "  ".toList) (h + 1) e).2.1,
           (scanItems lines (ind ++ "  ".toList) (h + 1) e).2.2) := rfl
      rw [availPhase_block hfa hin hscan]
      have hkle : (scanItems lines (ind ++ "  ".toList) (h + 1) e).2.1 ≤ e - (h + 1) :=
        scanItemsGo_count_le lines _ (h + 1) (e - (h + 1))
      set nums := (scanItems lines (ind ++ "  ".toList) (h + 1) e).1 with hnums
      set k := (scanItems lines (ind ++ "  ".toList) (h + 1) e).2.1 with hk
      set inl := (scanItems lines (ind ++ "  ".toList) (h + 1) e).2.2 with hinl
      by_cases hk0 : k = 0
      · rw [if_pos hk0]
        refine ⟨(lines.take e).drop s, (lines_decomp lines hse hel), ?_, ?_⟩
        · simp only []; rw [hmidlen]; omega
        · intro h2 ind2 nl2 hx
          simp only [Option.some.injEq, Prod.mk.injEq] at hx
          obtain ⟨rfl, -, -⟩ := hx
          rw [hmidlen]
          exact ⟨hhs, by omega⟩
      rw [if_neg hk0]
      by_cases hlen : (nums.filter (fun n => n != m)).length = nums.length
      · rw [if_pos hlen]
        refine ⟨(lines.take e).drop s, (lines_decomp lines hse hel), ?_, ?_⟩
        · simp only []; rw [hmidlen]; omega
        · intro h2 ind2 nl2 hx
          simp only [Option.some.injEq, Prod.mk.injEq] at hx
          obtain ⟨rfl, -, -⟩ := hx
          rw [hmidlen]
          exact ⟨hhs, by omega⟩
      rw [if_neg hlen]
      by_cases hemp : (nums.filter (fun n => n != m)).isEmpty
      · rw [if_pos hemp]
        set x := ind ++ "availability: []".toList ++ com ++ line_ending (lines.getD h [])
          with hx
        have hdec1 : lines.set h x = lines.take s ++
            ((lines.take e).drop s).set (h - s) x ++ lines.drop e := by
          conv_lhs => rw [lines_decomp lines hse hel]
          rw [List.append_assoc,
            set_append_at _ _ h (h - s) x (by rw [List.length_take]; omega),
            set_append_left _ (by rw [hmidlen]; omega),
            List.append_assoc]
        set M1 := ((lines.take e).drop s).set (h - s) x with hM1
        have hM1len : M1.length = e - s := by rw [hM1, List.length_set, hmidlen]
        have ht : (lines.set h x).take (h + 1) =
            lines.take s ++ M1.take (h + 1 - s) := by
          conv_lhs => rw [hdec1, List.append_assoc]
          rw [take_append_at _ _ (h + 1) (h + 1 - s) (by rw [List.length_take]; omega),
            List.take_append_of_le_length (by rw [hM1len]; omega)]
        have hd2 : (lines.set h x).drop (h + 1 + k) =
            M1.drop (h + 1 + k - s) ++ lines.drop e := by
          conv_lhs => rw [hdec1, List.append_assoc]
          rw [drop_append_at _ _ (h + 1 + k) (h + 1 + k - s)
              (by rw [List.length_take]; omega),
            List.drop_append_of_le_length (by rw [hM1len]; omega)]
        refine ⟨M1.take (h + 1 - s) ++ M1.drop (h + 1 + k - s), ?_, ?_, ?_⟩
        · simp only []
          rw [ht, hd2]
          simp [List.append_assoc]
        · simp only [List.length_append, List.length_take, List.length_drop, hM1len]
          omega
        · intro h2 ind2 nl2 hx2
          simp only [Option.some.injEq, Prod.mk.injEq] at hx2
          obtain ⟨rfl, -, -⟩ := hx2
          simp only [List.length_append, List.length_take, List.length_drop, hM1len]
          refine ⟨hhs, ?_⟩
          omega
      · rw [if_neg hemp]
        set items := (nums.filter (fun n => n != m)).map
          (fun n => (ind ++ "  ".toList) ++ "- ".toList ++ natDigits n ++ inl) with hitems
        have ht : lines.take (h + 1) =
            lines.take s ++ ((lines.take e).drop s).take (h + 1 - s) := by
          conv_lhs => rw [lines_decomp lines hse hel, List.append_assoc]
          rw [take_append_at _ _ (h + 1) (h + 1 - s) (by rw [List.length_take]; omega),
            List.take_append_of_le_length (by rw [hmidlen]; omega)]
        have hd2 : lines.drop (h + 1 + k) =
            ((lines.take e).drop s).drop (h + 1 + k - s) ++ lines.drop e := by
          conv_lhs => rw [lines_decomp lines hse hel, List.append_assoc]
          rw [drop_append_at _ _ (h + 1 + k) (h + 1 + k - s)
              (by rw [List.length_take]; omega),
            List.drop_append_of_le_length (by rw [hmidlen]; omega)]
        refine ⟨((lines.take e).drop s).take (h + 1 - s) ++ items ++
          ((lines.take e).drop s).drop (h + 1 + k - s), ?_, ?_, ?_⟩
        · simp only []
          rw [ht, hd2]
          simp [List.append_assoc]
        · simp only [List.length_append, List.length_take, List.length_drop]
          omega
        · intro h2 ind2 nl2 hx2
          simp only [Option.some.injEq, Prod.mk.injEq] at hx2
          obtain ⟨rfl, -, -⟩ := hx2
          simp only [List.length_append, List.length_take, List.length_drop]
          refine ⟨hhs, ?_⟩
          omega

end AutoClose

namespace AutoClose

/-- The sort phase only rewrites (or inserts) a line inside the middle
segment `M` of a decomposed line list, and never touches an index carrying
the availability header (a line that is not a `sort:` line). -/
theorem sortPhase_decomp (A M S : List Line) (s e1 : Nat)
    (hdr : Option (Nat × Line × Line))
    (hA : A.length = s)
    (hse1 : s ≤ e1)
    (he1 : e1 ≤ s + M.length)
    (hS : S = [] ∨ stripItemTest (S.getD 0 []) = false)
    (hhdr : ∀ h ind nl, hdr = some (h, ind, nl) → s ≤ h ∧ h < s + M.length) :
    ∃ M3, (sortPhase (A ++ M ++ S) s e1 hdr).1 = A ++ M3 ++ S ∧
      (∀ h ind nl, hdr = some (h, ind, nl) →
        parseSort ((A ++ M ++ S).getD h []) = none →
        (sortPhase (A ++ M ++ S) s e1 hdr).1.getD h [] = (A ++ M ++ S).getD h []) := by
  have hlen : s + M.length ≤ (A ++ M ++ S).length := by
    simp only [List.length_append]
    omega
  cases hfs : findSortFrom (A ++ M ++ S) s e1 with
  | some v =>
    obtain ⟨i, sind, w⟩ := v
    have hspec := (findSortGo_eq_some (A ++ M ++ S) s (e1 - s) i sind w).mp hfs
    have his : s ≤ i := hspec.1
    have hie : i < e1 := by have := hspec.2.1; omega
    rw [sortPhase_found hfs]
    by_cases hw : w = 100
    · rw [if_pos hw]
      exact ⟨M, rfl, fun h ind nl hx hps => rfl⟩
    · rw [if_neg hw]
      refine ⟨M.set (i - s) (sind ++ "sort: 100".toList ++
        line_ending ((A ++ M ++ S).getD i [])), ?_, ?_⟩
      · simp only []
        rw [List.append_assoc A M S,
          set_append_at A (M ++ S) i (i - s) _ (by omega),
          set_append_left _ (by omega)]
        exact (List.append_assoc A _ S).symm
      · intro h ind nl hx hps
        simp only []
        have hih : i ≠ h := by
          intro he
          rw [he, hps] at hspec
          exact Option.noConfusion hspec.2.2.1
        exact getD_set_ne _ _ hih
  | none =>
    cases hdr with
    | none =>
      rw [sortPhase_insert_nohdr hfs]
      refine ⟨M.insertIdx (e1 - s) ("  ".toList ++ "sort: 100".toList ++ ['\n']), ?_, ?_⟩
      · simp only []
        rw [List.append_assoc A M S,
          insertIdx_append_at A (M ++ S) e1 (e1 - s) _ (by omega),
          insertIdx_append_left _ (by omega)]
        exact (List.append_assoc A _ S).symm
      · intro h ind nl hx
        exact Option.noConfusion hx
    | some v =>
      obtain ⟨h, ind, nl⟩ := v
      obtain ⟨hhs, hhM⟩ := hhdr h ind nl rfl
      rw [sortPhase_insert_hdr hfs]
      have hp1 : h + 1 ≤ skipItemsFrom (A ++ M ++ S) (h + 1) :=
        skipItemsGo_ge _ (h + 1) _
      have hp2 : skipItemsFrom (A ++ M ++ S) (h + 1) ≤ s + M.length := by
        rcases hS with hS | hS
        · subst hS
          have := skipItemsFrom_le_len (A ++ M ++ ([] : List Line)) (h + 1)
          simp only [List.length_append, List.length_nil] at this
          omega
        · have hq : stripItemTest ((A ++ M ++ S).getD (s + M.length) []) = false := by
            rw [List.append_assoc,
              getD_append_at A (M ++ S) (s + M.length) M.length (by omega),
              getD_append_at M S M.length 0 (by omega)]
            exact hS
          exact skipItemsGo_le_of_fail _ hq _ (h + 1) (by omega)
      set p := skipItemsFrom (A ++ M ++ S) (h + 1) with hpdef
      refine ⟨M.insertIdx (p - s) (ind ++ "sort: 100".toList ++ nl), ?_, ?_⟩
      · simp only []
        rw [List.append_assoc A M S,
          insertIdx_append_at A (M ++ S) p (p - s) _ (by omega),
          insertIdx_append_left _ (by omega)]
        exact (List.append_assoc A _ S).symm
      · intro h2 ind2 nl2 hx hps
        simp only [Option.some.injEq, Prod.mk.injEq] at hx
        rcases hx with ⟨rfl, -, -⟩
        simp only []
        have hhlt : h < (A ++ M ++ S).length := by omega
        exact getD_insertIdx_of_lt _ (by omega) hhlt

end AutoClose

namespace AutoClose

/-- The whole block patch is a splice: everything before the block start and
from the block end on is preserved byte-for-byte. -/
theorem patchBlock_frame (lines : List Line) (s e m : Nat)
    (hse : s ≤ e) (hel : e ≤ lines.length)
    (hbd : e = lines.length ∨ isRecordStart (lines.getD e []) = true) :
    ∃ M3, (patchBlock lines s e m).1 = lines.take s ++ M3 ++ lines.drop e := by
  obtain ⟨M2, hM2, ⟨hge, hle⟩, hhdr⟩ := availPhase_decomp lines s e m hse hel
  have hA : (lines.take s).length = s := by rw [List.length_take]; omega
  have hS : lines.drop e = [] ∨ stripItemTest ((lines.drop e).getD 0 []) = false := by
    rcases hbd with hbd | hbd
    · left; rw [hbd, List.drop_length]
    · right
      rw [getD_drop, Nat.add_zero]
      unfold isRecordStart at hbd
      cases hp : parseRecordStart (lines.getD e []) with
      | none => rw [hp] at hbd; simp at hbd
      | some v => exact stripItemTest_of_recordStart hp
  rw [patchBlock_glue, hM2]
  obtain ⟨M3, hM3, -⟩ := sortPhase_decomp (lines.take s) M2 (lines.drop e) s
    ((availPhase lines s e m).2.1) ((availPhase lines s e m).2.2.2) hA hge hle hS hhdr
  exact ⟨M3, by simp only []; exact hM3⟩

/-- Unfolding of `apply_text_patches` for a single-mentor worklist whose
lookup succeeds. -/
theorem apply_single (text w : Line) (month : Nat) (s e : Nat) (ind nm : Line)
    (hlk : lookupBlock (buildBlocks (splitlines text)) (normalize w) = some (s, e, ind, nm)) :
    apply_text_patches text [w] month =
      (joinLines (patchBlock (splitlines text) s e month).1,
       if (patchBlock (splitlines text) s e month).2 then [nm] else [], []) := by
  unfold apply_text_patches
  simp only [List.foldl_cons, List.foldl_nil, hlk]
  cases hch : (patchBlock (splitlines text) s e month).2 with
  | true => simp [hch]
  | false => simp [hch]

/-- C9: for a single-identifier worklist whose lookup matches a block
`[s, e)`, every edit of the patcher stays inside that block: the output text
is the join of the untouched prefix `take s`, some replacement segment, and
the untouched suffix `drop e`. -/
theorem spec_c9 (text w : Line) (month : Nat) (s e : Nat) (ind nm : Line)
    (hlk : lookupBlock (buildBlocks (splitlines text)) (normalize w) = some (s, e, ind, nm)) :
    ∃ M3, (apply_text_patches text [w] month).1 =
      joinLines ((splitlines text).take s ++ M3 ++ (splitlines text).drop e) := by
  obtain ⟨-, -, hslt, hle, -, hbnd, -⟩ := lookupBlock_spec hlk
  obtain ⟨M3, hM3⟩ := patchBlock_frame (splitlines text) s e month (le_of_lt hslt) hle hbnd
  rw [apply_single text w month s e ind nm hlk]
  exact ⟨M3, by simp only []; rw [hM3]⟩

/-- Witness for C9 at a two-record document. -/
theorem spec_c9_witness :
    ∃ M3, (apply_text_patches
        ("- name: A\n  availability: [9, 10]\n- name: B\n  hours: 2\n".toList)
        ["A".toList] 9).1 =
      joinLines ((splitlines
          ("- name: A\n  availability: [9, 10]\n- name: B\n  hours: 2\n".toList)).take 0 ++
        M3 ++
        (splitlines
          ("- name: A\n  availability: [9, 10]\n- name: B\n  hours: 2\n".toList)).drop 2) :=
  spec_c9 ("- name: A\n  availability: [9, 10]\n- name: B\n  hours: 2\n".toList)
    ("A".toList) 9 0 2 [] ("A".toList) (by decide)

end AutoClose

namespace AutoClose

theorem getD_set_self (l : List Line) {i : Nat} (x : Line) (h : i < l.length) :
    (l.set i x).getD i [] = x := by
  rw [List.getD_eq_getElem?_getD, List.getElem?_set_self h]
  simp

theorem parseAvailHdr_ind_spaces {l : Line} {ind rest com : Line}
    (h : parseAvailHdr l = some (ind, rest, com)) :
    ∀ x ∈ ind, isSpace x = true := by
  unfold parseAvailHdr at h
  simp only [] at h
  split at h
  · obtain ⟨h1, -⟩ := Prod.mk.injEq .. ▸ Option.some.injEq .. ▸ h
    intro x hx
    rw [← h1] at hx
    exact List.mem_takeWhile_imp hx
  · exact Option.noConfusion h

/-- A canonical availability header line is not a `sort:` line. -/
theorem parseSort_availCanon (ind tail : Line)
    (hind : ∀ x ∈ ind, isSpace x = true) :
    parseSort (ind ++ 'a' :: tail) = none :=
  parseSort_eq_none_of_head tail (dropWhile_indent ind tail hind (by decide)) (by decide)

/-- The sort phase never rewrites a line that is not a `sort:` line and lies
at or before the availability header (or before the block end when no header
exists). -/
theorem sortPhase_getD_preserved (lines1 : List Line) (s e1 : Nat)
    (hdr : Option (Nat × Line × Line)) (h : Nat)
    (hps : parseSort (lines1.getD h []) = none)
    (hh : match hdr with | some (h2, _, _) => h ≤ h2 | none => h < e1)
    (hlen : h < lines1.length) :
    (sortPhase lines1 s e1 hdr).1.getD h [] = lines1.getD h [] := by
  cases hfs : findSortFrom lines1 s e1 with
  | some v =>
    obtain ⟨i, sind, w⟩ := v
    have hspec := (findSortGo_eq_some lines1 s (e1 - s) i sind w).mp hfs
    rw [sortPhase_found hfs]
    by_cases hw : w = 100
    · rw [if_pos hw]
    · rw [if_neg hw]
      simp only []
      refine getD_set_ne _ _ ?_
      intro he
      rw [he, hps] at hspec
      exact Option.noConfusion hspec.2.2.1
  | none =>
    cases hdr with
    | none =>
      rw [sortPhase_insert_nohdr hfs]
      simp only [] at hh ⊢
      exact getD_insertIdx_of_lt _ hh hlen
    | some v =>
      obtain ⟨h2, ind, nl⟩ := v
      simp only [] at hh
      rw [sortPhase_insert_hdr hfs]
      simp only []
      have hp1 : h2 + 1 ≤ skipItemsFrom lines1 (h2 + 1) := skipItemsGo_ge _ (h2 + 1) _
      exact getD_insertIdx_of_lt _ (by omega) hlen

end AutoClose

namespace AutoClose

theorem filter_ne_length_count (month : Nat) :
    ∀ l : List Nat, (l.filter (fun n => n != month)).length + l.count month = l.length := by
  intro l
  induction l with
  | nil => simp
  | cons a l ih =>
    by_cases ha : a = month
    · subst ha
      simp only [List.filter_cons, List.count_cons]
      rw [if_neg (by simp), if_pos (by simp)]
      simp only [List.length_cons]
      omega
    · simp only [List.filter_cons, List.count_cons]
      rw [if_pos (by simp [ha]), if_neg (by simp [ha])]
      simp only [List.length_cons]
      omega

theorem filter_ne_of_not_mem {month : Nat} {l : List Nat} (h : month ∉ l) :
    l.filter (fun n => n != month) = l := by
  refine List.filter_eq_self.mpr ?_
  intro a ha
  simp only [bne_iff_ne, ne_eq]
  intro he
  exact h (he ▸ ha)

end AutoClose

namespace AutoClose

/-- After an inline-style availability patch, line `h` of the block carries
the canonical rendering of the filtered list (whether or not it changed). -/
theorem patchBlock_inline_getD (lines : List Line) (s e month : Nat) (h : Nat)
    (ind rest com : Line)
    (hf : findAvailFrom lines s e = some (h, ind, rest, com))
    (hin : (rest.contains '[' && rest.contains ']') = true)
    (hel : e ≤ lines.length) :
    (patchBlock lines s e month).1.getD h [] =
      ind ++ "availability: ".toList ++
        renderNums ((extractNums rest).filter (fun n => n != month)) ++ com ++
        line_ending (lines.getD h []) := by
  have hspec := (findAvailGo_eq_some lines s (e - s) h ind rest com).mp hf
  have hparse := hspec.2.2.1
  have hind := parseAvailHdr_ind_spaces hparse
  have hhlt : h < lines.length := by have := hspec.2.1; omega
  by_cases heq : lines.getD h [] = ind ++ "availability: ".toList ++
      renderNums ((extractNums rest).filter (fun n => n != month)) ++ com ++
      line_ending (lines.getD h [])
  · have havail : availPhase lines s e month =
        (lines, e, false, some (h, ind, line_ending (lines.getD h []))) := by
      rw [availPhase_inline hf hin, if_pos heq]
    rw [patchBlock_glue, havail]
    simp only []
    rw [sortPhase_getD_preserved lines s e _ h (parseSort_of_availHdr hparse)
      (le_refl h) hhlt]
    exact heq
  · have havail : availPhase lines s e month =
        (lines.set h (ind ++ "availability: ".toList ++
          renderNums ((extractNums rest).filter (fun n => n != month)) ++ com ++
          line_ending (lines.getD h [])), e, true,
          some (h, ind, line_ending (lines.getD h []))) := by
      rw [availPhase_inline hf hin, if_neg heq]
    rw [patchBlock_glue, havail]
    simp only []
    have hset : (lines.set h (ind ++ "availability: ".toList ++
        renderNums ((extractNums rest).filter (fun n => n != month)) ++ com ++
        line_ending (lines.getD h []))).getD h [] =
        ind ++ "availability: ".toList ++
        renderNums ((extractNums rest).filter (fun n => n != month)) ++ com ++
        line_ending (lines.getD h []) := getD_set_self lines _ hhlt
    have hps : parseSort ((lines.set h (ind ++ "availability: ".toList ++
        renderNums ((extractNums rest).filter (fun n => n != month)) ++ com ++
        line_ending (lines.getD h []))).getD h []) = none := by
      rw [hset,
        show ind ++ "availability: ".toList ++
          renderNums ((extractNums rest).filter (fun n => n != month)) ++ com ++
          line_ending (lines.getD h []) =
          ind ++ 'a' :: ("vailability: ".toList ++
            (renderNums ((extractNums rest).filter (fun n => n != month)) ++
              (com ++ line_ending (lines.getD h [])))) by simp]
      exact parseSort_availCanon ind _ hind
    rw [sortPhase_getD_preserved _ s e _ h hps (le_refl h)
      (by rw [List.length_set]; exact hhlt)]
    exact hset

/-- When the inline header differs from its canonical re-rendering, the
block is flagged as changed. -/
theorem patchBlock_inline_changed (lines : List Line) (s e month : Nat) (h : Nat)
    (ind rest com : Line)
    (hf : findAvailFrom lines s e = some (h, ind, rest, com))
    (hin : (rest.contains '[' && rest.contains ']') = true)
    (hneq : lines.getD h [] ≠ ind ++ "availability: ".toList ++
      renderNums ((extractNums rest).filter (fun n => n != month)) ++ com ++
      line_ending (lines.getD h [])) :
    (patchBlock lines s e month).2 = true := by
  have havail : availPhase lines s e month =
      (lines.set h (ind ++ "availability: ".toList ++
        renderNums ((extractNums rest).filter (fun n => n != month)) ++ com ++
        line_ending (lines.getD h [])), e, true,
        some (h, ind, line_ending (lines.getD h []))) := by
    rw [availPhase_inline hf hin, if_neg hneq]
  rw [patchBlock_glue, havail]
  simp

end AutoClose

namespace AutoClose

/-- C1 (amended): inline availability patch removes every occurrence of the
month (hence exactly one when the month is not duplicated), preserves the
order of the remaining elements together with the header's indentation and
comment, and leaves everything outside the mentor's block byte-identical. -/
theorem spec_c1_amended (text w : Line) (month : Nat) (s e : Nat) (ind0 nm : Line)
    (h : Nat) (ind rest com : Line)
    (hlk : lookupBlock (buildBlocks (splitlines text)) (normalize w) = some (s, e, ind0, nm))
    (hf : findAvailFrom (splitlines text) s e = some (h, ind, rest, com))
    (hin : (rest.contains '[' && rest.contains ']') = true)
    (hm : month ∈ extractNums rest) :
    (∃ M3, (apply_text_patches text [w] month).1 =
        joinLines ((splitlines text).take s ++ M3 ++ (splitlines text).drop e) ∧
      ((splitlines text).take s ++ M3 ++ (splitlines text).drop e).getD h [] =
        ind ++ "availability: ".toList ++
        renderNums ((extractNums rest).filter (fun n => n != month)) ++ com ++
        line_ending ((splitlines text).getD h [])) ∧
    month ∉ (extractNums rest).filter (fun n => n != month) ∧
    ((extractNums rest).filter (fun n => n != month)).Sublist (extractNums rest) ∧
    ((extractNums rest).count month = 1 →
      ((extractNums rest).filter (fun n => n != month)).length + 1 =
        (extractNums rest).length) := by
  obtain ⟨-, -, hslt, hle, -, hbnd, -⟩ := lookupBlock_spec hlk
  obtain ⟨M3, hM3⟩ := patchBlock_frame (splitlines text) s e month (le_of_lt hslt) hle hbnd
  refine ⟨⟨M3, ?_, ?_⟩, ?_, ?_, ?_⟩
  · rw [apply_single text w month s e ind0 nm hlk]
    simp only []
    rw [hM3]
  · rw [← hM3]
    exact patchBlock_inline_getD _ s e month h ind rest com hf hin hle
  · intro hmem
    have h2 := (List.mem_filter.mp hmem).2
    simp at h2
  · exact List.filter_sublist _
  · intro hcount
    have := filter_ne_length_count month (extractNums rest)
    omega

/-- Witness for C1 at `availability: [9, 10]`, month 9. -/
theorem spec_c1_witness :
    (∃ M3, (apply_text_patches ("- name: A\n  availability: [9, 10]\n".toList)
        ["A".toList] 9).1 =
        joinLines ((splitlines ("- name: A\n  availability: [9, 10]\n".toList)).take 0 ++
          M3 ++ (splitlines ("- name: A\n  availability: [9, 10]\n".toList)).drop 2) ∧
      ((splitlines ("- name: A\n  availability: [9, 10]\n".toList)).take 0 ++ M3 ++
        (splitlines ("- name: A\n  availability: [9, 10]\n".toList)).drop 2).getD 1 [] =
        "  ".toList ++ "availability: ".toList ++
        renderNums ((extractNums ("[9, 10]".toList)).filter (fun n => n != 9)) ++ [] ++
        line_ending ((splitlines ("- name: A\n  availability: [9, 10]\n".toList)).getD 1 [])) ∧
    9 ∉ (extractNums ("[9, 10]".toList)).filter (fun n => n != 9) ∧
    ((extractNums ("[9, 10]".toList)).filter (fun n => n != 9)).Sublist
      (extractNums ("[9, 10]".toList)) ∧
    ((extractNums ("[9, 10]".toList)).count 9 = 1 →
      ((extractNums ("[9, 10]".toList)).filter (fun n => n != 9)).length + 1 =
        (extractNums ("[9, 10]".toList)).length) :=
  spec_c1_amended ("- name: A\n  availability: [9, 10]\n".toList) ("A".toList) 9 0 2
    [] ("A".toList) 1 ("  ".toList) ("[9, 10]".toList) []
    (by decide) (by decide) (by decide) (by decide)

/-- C10: an inline availability list not containing the month is still
re-rendered canonically; when the existing text differs from the canonical
rendering, the header line is rewritten to it and the mentor is reported as
changed. -/
theorem spec_c10 (text w : Line) (month : Nat) (s e : Nat) (ind0 nm : Line)
    (h : Nat) (ind rest com : Line)
    (hlk : lookupBlock (buildBlocks (splitlines text)) (normalize w) = some (s, e, ind0, nm))
    (hf : findAvailFrom (splitlines text) s e = some (h, ind, rest, com))
    (hin : (rest.contains '[' && rest.contains ']') = true)
    (hm : month ∉ extractNums rest)
    (hneq : (splitlines text).getD h [] ≠ ind ++ "availability: ".toList ++
      renderNums (extractNums rest) ++ com ++
      line_ending ((splitlines text).getD h [])) :
    (apply_text_patches text [w] month).2.1 = [nm] ∧
    ∃ M3, (apply_text_patches text [w] month).1 =
        joinLines ((splitlines text).take s ++ M3 ++ (splitlines text).drop e) ∧
      ((splitlines text).take s ++ M3 ++ (splitlines text).drop e).getD h [] =
        ind ++ "availability: ".toList ++ renderNums (extractNums rest) ++ com ++
        line_ending ((splitlines text).getD h []) := by
  have hfil : (extractNums rest).filter (fun n => n != month) = extractNums rest :=
    filter_ne_of_not_mem hm
  obtain ⟨-, -, hslt, hle, -, hbnd, -⟩ := lookupBlock_spec hlk
  obtain ⟨M3, hM3⟩ := patchBlock_frame (splitlines text) s e month (le_of_lt hslt) hle hbnd
  have hch : (patchBlock (splitlines text) s e month).2 = true := by
    refine patchBlock_inline_changed _ s e month h ind rest com hf hin ?_
    rw [hfil]
    exact hneq
  refine ⟨?_, M3, ?_, ?_⟩
  · rw [apply_single text w month s e ind0 nm hlk]
    simp only [hch]
    rfl
  · rw [apply_single text w month s e ind0 nm hlk]
    simp only []
    rw [hM3]
  · rw [← hM3]
    have hgd := patchBlock_inline_getD (splitlines text) s e month h ind rest com hf hin hle
    rw [hfil] at hgd
    exact hgd

/-- Witness for C10 at `availability: [9,10]`, month 11. -/
theorem spec_c10_witness :
    (apply_text_patches ("- name: A\n  availability: [9,10]\n".toList)
        ["A".toList] 11).2.1 = ["A".toList] ∧
    ∃ M3, (apply_text_patches ("- name: A\n  availability: [9,10]\n".toList)
        ["A".toList] 11).1 =
        joinLines ((splitlines ("- name: A\n  availability: [9,10]\n".toList)).take 0 ++
          M3 ++ (splitlines ("- name: A\n  availability: [9,10]\n".toList)).drop 2) ∧
      ((splitlines ("- name: A\n  availability: [9,10]\n".toList)).take 0 ++ M3 ++
        (splitlines ("- name: A\n  availability: [9,10]\n".toList)).drop 2).getD 1 [] =
        "  ".toList ++ "availability: ".toList ++
        renderNums (extractNums ("[9,10]".toList)) ++ [] ++
        line_ending ((splitlines ("- name: A\n  availability: [9,10]\n".toList)).getD 1 []) :=
  spec_c10 ("- name: A\n  availability: [9,10]\n".toList) ("A".toList) 11 0 2
    [] ("A".toList) 1 ("  ".toList) ("[9,10]".toList) []
    (by decide) (by decide) (by decide) (by decide) (by decide)

end AutoClose

namespace AutoClose

theorem getD_take {l : List Line} {t d : Nat} (hd : d < t) :
    (l.take t).getD d [] = l.getD d [] := by
  rw [List.getD_eq_getElem?_getD, List.getD_eq_getElem?_getD,
    List.getElem?_take, if_pos hd]

theorem scanItemsGo_count_len (lines : List Line) (ind : Line) (j : Nat) :
    ∀ f, (scanItemsGo lines ind j f).2.1 = (scanItemsGo lines ind j f).1.length := by
  intro f
  induction f generalizing j with
  | zero => simp [scanItemsGo]
  | succ f ih =>
    rw [scanItemsGo]
    cases hp : parseItem ind (lines.getD j []) with
    | none => simp
    | some n =>
      simp only [List.length_cons]
      rw [ih (j + 1)]

end AutoClose

namespace AutoClose

/-- C5 (amended): a block-style availability list whose items all equal the
target month is collapsed to `availability: []` on the header line and its
item lines are deleted; when the block already carries a `sort:` line the
block shrinks by exactly the number of item lines, everything outside the
block staying byte-identical. -/
theorem spec_c5_amended (text w : Line) (month : Nat) (s e : Nat) (ind0 nm : Line)
    (h : Nat) (ind rest com : Line) (nums : List Nat) (k : Nat) (inl : Line)
    (i : Nat) (sind : Line) (v : Nat)
    (hlk : lookupBlock (buildBlocks (splitlines text)) (normalize w) = some (s, e, ind0, nm))
    (hf : findAvailFrom (splitlines text) s e = some (h, ind, rest, com))
    (hnin : (rest.contains '[' && rest.contains ']') = false)
    (hscan : scanItems (splitlines text) (ind ++ "  ".toList) (h + 1) e = (nums, k, inl))
    (hk : k ≠ 0)
    (hemp : (nums.filter (fun n => n != month)).isEmpty = true)
    (hsort : findSortFrom
        (((splitlines text).set h (ind ++ "availability: []".toList ++ com ++
            line_ending ((splitlines text).getD h []))).take (h + 1) ++
          ((splitlines text).set h (ind ++ "availability: []".toList ++ com ++
            line_ending ((splitlines text).getD h []))).drop (h + 1 + k))
        s (e - k) = some (i, sind, v)) :
    ∃ M3, (apply_text_patches text [w] month).1 =
        joinLines ((splitlines text).take s ++ M3 ++ (splitlines text).drop e) ∧
      M3.length + k = e - s ∧
      ((splitlines text).take s ++ M3 ++ (splitlines text).drop e).getD h [] =
        ind ++ "availability: []".toList ++ com ++
          line_ending ((splitlines text).getD h []) ∧
      (apply_text_patches text [w] month).2.1 = [nm] := by
  obtain ⟨-, -, hslt, hle, -, -, -⟩ := lookupBlock_spec hlk
  have hse : s ≤ e := le_of_lt hslt
  have hspec := (findAvailGo_eq_some (splitlines text) s (e - s) h ind rest com).mp hf
  have hparse := hspec.2.2.1
  have hind := parseAvailHdr_ind_spaces hparse
  have hhs : s ≤ h := hspec.1
  have hhe : h < e := by have := hspec.2.1; omega
  have hhlt : h < (splitlines text).length := by omega
  have hklen : k = nums.length := by
    have hc := scanItemsGo_count_len (splitlines text) (ind ++ "  ".toList) (h + 1)
      (e - (h + 1))
    unfold scanItems at hscan
    rw [hscan] at hc
    exact hc
  have hkle : k ≤ e - (h + 1) := by
    have hc := scanItemsGo_count_le (splitlines text) (ind ++ "  ".toList) (h + 1)
      (e - (h + 1))
    unfold scanItems at hscan
    rw [hscan] at hc
    exact hc
  have hemp2 : nums.filter (fun n => n != month) = [] := List.isEmpty_iff.mp hemp
  have hlenne : ¬ (nums.filter (fun n => n != month)).length = nums.length := by
    rw [hemp2]
    simp only [List.length_nil]
    omega
  set L := splitlines text with hLdef
  set x := ind ++ "availability: []".toList ++ com ++ line_ending (L.getD h [])
    with hxdef
  have havail : availPhase L s e month =
      ((L.set h x).take (h + 1) ++ (L.set h x).drop (h + 1 + k), e - k, true,
        some (h, ind, line_ending (L.getD h []))) := by
    rw [availPhase_block hf hnin hscan, if_neg hk, if_neg hlenne, if_pos hemp]
  have hA : (L.take s).length = s := by rw [List.length_take]; omega
  have hmidlen : ((L.take e).drop s).length = e - s := mid_length L hle
  have hdec1 : L.set h x = L.take s ++ ((L.take e).drop s).set (h - s) x ++ L.drop e := by
    conv_lhs => rw [lines_decomp L hse hle]
    rw [List.append_assoc,
      set_append_at _ _ h (h - s) x (by rw [List.length_take]; omega),
      set_append_left _ (by rw [hmidlen]; omega),
      List.append_assoc]
  set M1 := ((L.take e).drop s).set (h - s) x with hM1def
  have hM1len : M1.length = e - s := by rw [hM1def, List.length_set, hmidlen]
  have ht : (L.set h x).take (h + 1) = L.take s ++ M1.take (h + 1 - s) := by
    conv_lhs => rw [hdec1, List.append_assoc]
    rw [take_append_at _ _ (h + 1) (h + 1 - s) (by rw [List.length_take]; omega),
      List.take_append_of_le_length (by rw [hM1len]; omega)]
  have hd2 : (L.set h x).drop (h + 1 + k) = M1.drop (h + 1 + k - s) ++ L.drop e := by
    conv_lhs => rw [hdec1, List.append_assoc]
    rw [drop_append_at _ _ (h + 1 + k) (h + 1 + k - s) (by rw [List.length_take]; omega),
      List.drop_append_of_le_length (by rw [hM1len]; omega)]
  set M2 := M1.take (h + 1 - s) ++ M1.drop (h + 1 + k - s) with hM2def
  have hLtake : (L.set h x).take (h + 1) ++ (L.set h x).drop (h + 1 + k) =
      L.take s ++ M2 ++ L.drop e := by
    rw [ht, hd2, hM2def]
    simp [List.append_assoc]
  have hM2len : M2.length + k = e - s := by
    rw [hM2def]
    simp only [List.length_append, List.length_take, List.length_drop, hM1len]
    omega
  have hgdh : ((L.set h x).take (h + 1) ++ (L.set h x).drop (h + 1 + k)).getD h [] = x := by
    rw [getD_append_left (by
        rw [List.length_take, List.length_set]
        omega),
      getD_take (by omega), getD_set_self L x hhlt]
  have hxshape : x = ind ++ 'a' :: ("vailability: []".toList ++
      (com ++ line_ending (L.getD h []))) := by
    rw [hxdef]
    simp
  have hps : parseSort (((L.set h x).take (h + 1) ++
      (L.set h x).drop (h + 1 + k)).getD h []) = none := by
    rw [hgdh, hxshape]
    exact parseSort_availCanon ind _ hind
  have hsspec := (findSortGo_eq_some _ s (e - k - s) i sind v).mp hsort
  have his : s ≤ i := hsspec.1
  have hie : i < e - k := by have := hsspec.2.1; omega
  have hih : i ≠ h := by
    intro heq
    rw [heq, hps] at hsspec
    exact Option.noConfusion hsspec.2.2.1
  by_cases hv : v = 100
  · have hpatch : patchBlock L s e month =
        ((L.set h x).take (h + 1) ++ (L.set h x).drop (h + 1 + k), true) := by
      rw [patchBlock_glue, havail]
      simp only []
      rw [sortPhase_found hsort, if_pos hv]
      simp
    refine ⟨M2, ?_, by omega, ?_, ?_⟩
    · rw [apply_single text w month s e ind0 nm hlk]
      simp only []
      rw [hpatch]
      simp only []
      rw [hLtake]
    · rw [← hLtake]
      exact hgdh
    · rw [apply_single text w month s e ind0 nm hlk]
      simp only []
      rw [hpatch]
      simp
  · have hpatch : patchBlock L s e month =
        (((L.set h x).take (h + 1) ++ (L.set h x).drop (h + 1 + k)).set i
          (sind ++ "sort: 100".toList ++
            line_ending (((L.set h x).take (h + 1) ++
              (L.set h x).drop (h + 1 + k)).getD i [])), true) := by
      rw [patchBlock_glue, havail]
      simp only []
      rw [sortPhase_found hsort, if_neg hv]
      simp
    set sortline := sind ++ "sort: 100".toList ++
      line_ending (((L.set h x).take (h + 1) ++ (L.set h x).drop (h + 1 + k)).getD i [])
      with hsl
    have hset2 : ((L.set h x).take (h + 1) ++ (L.set h x).drop (h + 1 + k)).set i
        sortline = L.take s ++ M2.set (i - s) sortline ++ L.drop e := by
      conv_lhs => rw [hLtake, List.append_assoc]
      rw [set_append_at _ _ i (i - s) _ (by rw [List.length_take]; omega),
        set_append_left _ (by omega)]
      exact (List.append_assoc _ _ _).symm
    refine ⟨M2.set (i - s) sortline, ?_, ?_, ?_, ?_⟩
    · rw [apply_single text w month s e ind0 nm hlk]
      simp only []
      rw [hpatch]
      simp only []
      rw [hset2]
    · rw [List.length_set]
      omega
    · rw [← hset2]
      rw [getD_set_ne _ _ (by omega : i ≠ h)]
      exact hgdh
    · rw [apply_single text w month s e ind0 nm hlk]
      simp only []
      rw [hpatch]
      simp

end AutoClose

namespace AutoClose

/-- Witness for C5: a one-item block list equal to the month, with a
`sort:` line already present. -/
theorem spec_c5_witness :
    ∃ M3, (apply_text_patches
        ("- name: A\n  availability:\n    - 9\n  sort: 50\n".toList)
        ["A".toList] 9).1 =
        joinLines ((splitlines
            ("- name: A\n  availability:\n    - 9\n  sort: 50\n".toList)).take 0 ++
          M3 ++
          (splitlines
            ("- name: A\n  availability:\n    - 9\n  sort: 50\n".toList)).drop 4) ∧
      M3.length + 1 = 4 - 0 ∧
      ((splitlines
          ("- name: A\n  availability:\n    - 9\n  sort: 50\n".toList)).take 0 ++ M3 ++
        (splitlines
          ("- name: A\n  availability:\n    - 9\n  sort: 50\n".toList)).drop 4).getD 1 [] =
        "  ".toList ++ "availability: []".toList ++ [] ++
          line_ending ((splitlines
            ("- name: A\n  availability:\n    - 9\n  sort: 50\n".toList)).getD 1 []) ∧
      (apply_text_patches
        ("- name: A\n  availability:\n    - 9\n  sort: 50\n".toList)
        ["A".toList] 9).2.1 = ["A".toList] :=
  spec_c5_amended ("- name: A\n  availability:\n    - 9\n  sort: 50\n".toList)
    ("A".toList) 9 0 4 [] ("A".toList) 1 ("  ".toList) [] [] [9] 1 ("\n".toList)
    2 ("  ".toList) 50
    (by decide) (by decide) (by decide) (by decide) (by decide) (by decide) (by decide)

end AutoClose

namespace AutoClose

/-! ### Proper-line infrastructure for the idempotence proof -/

theorem properLFb_elim {l : Line} (h : properLFb l = true) :
    ∃ core, l = core ++ ['\n'] ∧ ∀ c ∈ core, c ≠ '\n' ∧ c ≠ '\r' := by
  unfold properLFb at h
  rw [Bool.and_eq_true] at h
  obtain ⟨h1, h2⟩ := h
  have hne : l ≠ [] := by
    intro he; rw [he] at h1; simp at h1
  refine ⟨l.dropLast, ?_, ?_⟩
  · have hd := List.dropLast_append_getLast hne
    have hlast : l.getLast hne = '\n' := by
      have := List.getLast?_eq_getLast l hne
      rw [this] at h1; simpa using h1
    rw [hlast] at hd
    exact hd.symm
  · intro c hc
    have := List.all_eq_true.mp h2 c hc
    constructor <;> intro he <;> subst he <;> simp at this

theorem properLFb_intro {core : Line} (h : ∀ c ∈ core, c ≠ '\n' ∧ c ≠ '\r') :
    properLFb (core ++ ['\n']) = true := by
  unfold properLFb
  rw [Bool.and_eq_true]
  constructor
  · rw [List.getLast?_concat]
    simp
  · rw [List.dropLast_concat]
    rw [List.all_eq_true]
    intro c hc
    obtain ⟨hn, hr⟩ := h c hc
    simp [hn, hr]

theorem line_ending_spaces (l : Line) : ∀ x ∈ line_ending l, isSpace x = true := by
  unfold line_ending
  split
  · intro x hx
    simp at hx
    rcases hx with rfl | rfl <;> decide
  split
  · intro x hx
    simp at hx
    subst hx
    decide
  · intro x hx
    simp at hx
    subst hx
    decide

theorem line_ending_proper {l : Line} (h : properLFb l = true) :
    line_ending l = ['\n'] := by
  obtain ⟨core, rfl, hfree⟩ := properLFb_elim h
  unfold line_ending
  rw [if_neg, if_neg]
  · intro hsuf
    have hs : ['\r'] <:+ core ++ ['\n'] := List.isSuffixOf_iff_suffix.mp hsuf
    obtain ⟨t, ht⟩ := hs
    have ha : some '\r' = some '\n' := by
      rw [← List.getLast?_concat t, ht, List.getLast?_concat]
    exact absurd (Option.some.inj ha) (by decide)
  · intro hsuf
    have hs : ['\r', '\n'] <:+ core ++ ['\n'] := List.isSuffixOf_iff_suffix.mp hsuf
    obtain ⟨t, ht⟩ := hs
    have ht2 : (t ++ ['\r']) ++ ['\n'] = core ++ ['\n'] := by
      rw [← ht]; simp
    have hc : t ++ ['\r'] = core := by
      refine List.append_inj_left' ht2 ?_
      rfl
    have : '\r' ∈ core := by
      rw [← hc]; simp
    exact absurd rfl (hfree '\r' this).2

theorem mem_prefix_core {a b core : Line} (hab : a ++ b = core ++ ['\n'])
    (hb : b ≠ []) : ∀ c ∈ a, c ∈ core := by
  intro c hc
  have hd : (a ++ b).dropLast = a ++ b.dropLast := List.dropLast_append_of_ne_nil a hb
  rw [hab, List.dropLast_concat] at hd
  rw [hd]
  exact List.mem_append.mpr (Or.inl hc)

theorem dropFinalLF_suffix_mem {core x : Line} (hsuf : x <:+ core ++ ['\n']) :
    ∀ c ∈ dropFinalLF x, c ∈ core := by
  obtain ⟨t, ht⟩ := hsuf
  cases hx : x with
  | nil => intro c hc; simp [dropFinalLF] at hc
  | cons y ys =>
    have hxne : x ≠ [] := by rw [hx]; simp
    have hlast : x.getLast? = some '\n' := by
      have h1 : (t ++ x).getLast? = x.getLast? := List.getLast?_append_of_ne_nil t hxne
      rw [ht, List.getLast?_concat] at h1
      exact h1.symm
    have hdf : dropFinalLF x = x.dropLast := by
      unfold dropFinalLF
      rw [if_pos (by rw [hlast]; rfl)]
    have hcore : t ++ x.dropLast = core := by
      have hd : (t ++ x).dropLast = t ++ x.dropLast := List.dropLast_append_of_ne_nil t hxne
      rw [ht, List.dropLast_concat] at hd
      exact hd.symm
    rw [← hx, hdf]
    intro c hc
    rw [← hcore]
    exact List.mem_append.mpr (Or.inr hc)

end AutoClose

namespace AutoClose

theorem parseAvailHdr_parts2 {l ind rest com : Line}
    (hp : parseAvailHdr l = some (ind, rest, com)) :
    ind = l.takeWhile isSpace ∧
    (rest, com) = splitAtComment
      ((dropFinalLF ((l.dropWhile isSpace).drop 13)).dropWhile isSpace) ∧
    l.dropWhile isSpace ≠ [] := by
  unfold parseAvailHdr at hp
  simp only [] at hp
  split at hp
  next hcond =>
    obtain ⟨h1, h2⟩ := Prod.mk.injEq .. ▸ Option.some.injEq .. ▸ hp
    refine ⟨h1.symm, h2.symm, ?_⟩
    intro hnil
    rw [hnil] at hcond
    exact absurd hcond (by decide)
  next => exact Option.noConfusion hp

theorem parseSort_parts2 {l sind : Line} {v : Nat}
    (hp : parseSort l = some (sind, v)) :
    sind = l.takeWhile isSpace ∧ l.dropWhile isSpace ≠ [] := by
  unfold parseSort at hp
  simp only [] at hp
  split at hp
  next hcond =>
    split at hp
    · obtain ⟨h1, -⟩ := Prod.mk.injEq .. ▸ Option.some.injEq .. ▸ hp
      refine ⟨h1.symm, ?_⟩
      intro hnil
      rw [hnil] at hcond
      exact absurd hcond (by decide)
    · exact Option.noConfusion hp
  next => exact Option.noConfusion hp

theorem parseSort_ind_spaces {l sind : Line} {v : Nat}
    (hp : parseSort l = some (sind, v)) : ∀ x ∈ sind, isSpace x = true := by
  obtain ⟨h1, -⟩ := parseSort_parts2 hp
  intro x hx
  rw [h1] at hx
  exact List.mem_takeWhile_imp hx

theorem mem_dropTrailingSpace {l : Line} {c : Char} (h : c ∈ dropTrailingSpace l) :
    c ∈ l := by
  unfold dropTrailingSpace at h
  rw [List.mem_reverse] at h
  have := (List.dropWhile_sublist isSpace).subset h
  rw [List.mem_reverse] at this
  exact this

theorem splitAtComment_mem (t : Line) :
    (∀ c ∈ (splitAtComment t).1, c ∈ t) ∧ (∀ c ∈ (splitAtComment t).2, c ∈ t) := by
  unfold splitAtComment
  simp only []
  split
  · constructor
    · intro c hc
      exact (List.takeWhile_sublist _).subset (mem_dropTrailingSpace hc)
    · intro c hc
      simp at hc
  · constructor
    · intro c hc
      exact (List.takeWhile_sublist _).subset (mem_dropTrailingSpace hc)
    · intro c hc
      rcases List.mem_append.mp hc with hm | hm
      · rw [List.mem_reverse] at hm
        have := (List.takeWhile_sublist isSpace).subset hm
        rw [List.mem_reverse] at this
        exact (List.takeWhile_sublist _).subset this
      · exact (List.dropWhile_sublist _).subset hm

theorem dropWhile_head_false {p : Char → Bool} {l : Line} {c : Char} {r : Line}
    (h : l.dropWhile p = c :: r) : p c = false := by
  induction l with
  | nil => simp at h
  | cons a l ih =>
    rw [List.dropWhile_cons] at h
    split at h
    · exact ih h
    next hpa =>
      obtain ⟨h1, -⟩ := List.cons_eq_cons.mp h
      subst h1
      simpa using hpa

theorem splitAtComment_shape (t : Line) : ComShape (splitAtComment t).2 := by
  unfold splitAtComment
  simp only []
  split
  · exact Or.inl rfl
  next hne =>
    right
    cases hd : t.dropWhile (fun c => c != '#') with
    | nil => rw [hd] at hne; simp at hne
    | cons c r =>
      have hc : c = '#' := by
        have := dropWhile_head_false hd
        simpa using this
      subst hc
      refine ⟨(List.takeWhile isSpace (t.takeWhile (fun c => c != '#')).reverse).reverse,
        r, ?_, ?_⟩
      · rfl
      · intro x hx
        rw [List.mem_reverse] at hx
        exact List.mem_takeWhile_imp hx

theorem parseAvailHdr_mem_core {l ind rest com core : Line}
    (hp : parseAvailHdr l = some (ind, rest, com)) (hl : l = core ++ ['\n']) :
    (∀ c ∈ ind, c ∈ core) ∧ (∀ c ∈ rest, c ∈ core) ∧ (∀ c ∈ com, c ∈ core) := by
  obtain ⟨hind, hsplit, hr1⟩ := parseAvailHdr_parts2 hp
  have hbodymem : ∀ c ∈ (dropFinalLF ((l.dropWhile isSpace).drop 13)).dropWhile isSpace,
      c ∈ core := by
    intro c hc
    have h1 := (List.dropWhile_sublist isSpace).subset hc
    refine dropFinalLF_suffix_mem ?_ c h1
    rw [← hl]
    exact (List.drop_suffix 13 _).trans (List.dropWhile_suffix isSpace)
  have hsc := splitAtComment_mem
    ((dropFinalLF ((l.dropWhile isSpace).drop 13)).dropWhile isSpace)
  have hrest : rest = (splitAtComment
      ((dropFinalLF ((l.dropWhile isSpace).drop 13)).dropWhile isSpace)).1 :=
    congrArg Prod.fst hsplit
  have hcom : com = (splitAtComment
      ((dropFinalLF ((l.dropWhile isSpace).drop 13)).dropWhile isSpace)).2 :=
    congrArg Prod.snd hsplit
  refine ⟨?_, ?_, ?_⟩
  · intro c hc
    rw [hind] at hc
    exact mem_prefix_core
      (by rw [← hl]; exact List.takeWhile_append_dropWhile isSpace l) hr1 c hc
  · intro c hc
    rw [hrest] at hc
    exact hbodymem c (hsc.1 c hc)
  · intro c hc
    rw [hcom] at hc
    exact hbodymem c (hsc.2 c hc)

theorem parseSort_mem_core {l sind core : Line} {v : Nat}
    (hp : parseSort l = some (sind, v)) (hl : l = core ++ ['\n']) :
    ∀ c ∈ sind, c ∈ core := by
  obtain ⟨h1, hr⟩ := parseSort_parts2 hp
  intro c hc
  rw [h1] at hc
  exact mem_prefix_core
    (by rw [← hl]; exact List.takeWhile_append_dropWhile isSpace l) hr c hc

theorem parseRecordStart_mem_core {l core : Line} {ind nm : Line}
    (hp : parseRecordStart l = some (ind, nm)) (hl : l = core ++ ['\n']) :
    ∀ c ∈ ind, c ∈ core := by
  obtain ⟨r, hr, -⟩ := parseRecordStart_parts hp
  have hind : parseRecordStart l = some (l.takeWhile isSpace, nm) → True := fun _ => trivial
  intro c hc
  have hindeq : ind = l.takeWhile isSpace := by
    unfold parseRecordStart at hp
    simp only [] at hp
    split at hp
    · split at hp
      · split at hp
        · exact Option.noConfusion hp
        · obtain ⟨h1, -⟩ := Prod.mk.injEq .. ▸ Option.some.injEq .. ▸ hp
          exact h1.symm
      · exact Option.noConfusion hp
    · exact Option.noConfusion hp
  rw [hindeq] at hc
  refine mem_prefix_core
    (by rw [← hl]; exact List.takeWhile_append_dropWhile isSpace l) ?_ c hc
  rw [hr]
  simp

end AutoClose

namespace AutoClose

theorem noTerm_append {a b : Line}
    (ha : ∀ c ∈ a, c ≠ '\n' ∧ c ≠ '\r') (hb : ∀ c ∈ b, c ≠ '\n' ∧ c ≠ '\r') :
    ∀ c ∈ a ++ b, c ≠ '\n' ∧ c ≠ '\r' := by
  intro c hc
  rcases List.mem_append.mp hc with h | h
  · exact ha c h
  · exact hb c h

theorem noTerm_natDigits (n : Nat) : ∀ c ∈ natDigits n, c ≠ '\n' ∧ c ≠ '\r' := by
  intro c hc
  have hd := natDigits_all_digit n c hc
  constructor <;> rintro rfl <;> exact absurd hd (by decide)

theorem noTerm_renderNums (l : List Nat) : ∀ c ∈ renderNums l, c ≠ '\n' ∧ c ≠ '\r' := by
  intro c hc
  rcases renderNums_chars l c hc with h | h | h | h | h
  · constructor <;> rintro rfl <;> exact absurd h (by decide)
  all_goals subst h
  all_goals exact ⟨by decide, by decide⟩

theorem noTerm_of_spaces_noTerm {a : Line} (ha : ∀ c ∈ a, isSpace c = true)
    (hn : '\n' ∉ a) (hr : '\r' ∉ a) : ∀ c ∈ a, c ≠ '\n' ∧ c ≠ '\r' := by
  intro c hc
  constructor <;> rintro rfl
  · exact hn hc
  · exact hr hc

theorem parseItem_no_dash (iind l : Line) (h : '-' ∉ l) : parseItem iind l = none := by
  unfold parseItem
  by_cases ht : l.take iind.length = iind
  · rw [if_pos ht]
    cases hd : l.drop iind.length with
    | nil => rfl
    | cons c r =>
      split
      next r2 heq =>
        exfalso
        obtain ⟨h1, -⟩ := List.cons_eq_cons.mp heq
        refine h ?_
        rw [← h1]
        refine (List.drop_sublist iind.length l).subset ?_
        rw [hd]
        simp
      next => rfl
  · rw [if_neg ht]

theorem skipItemsGo_passes (lines : List Line) :
    ∀ f i j, i ≤ j → j < skipItemsGo lines i f →
      stripItemTest (lines.getD j []) = true := by
  intro f
  induction f with
  | zero =>
    intro i j hij hlt
    rw [skipItemsGo] at hlt
    omega
  | succ f ih =>
    intro i j hij hlt
    rw [skipItemsGo] at hlt
    by_cases ht : stripItemTest (lines.getD i []) = true
    · rw [ht, if_pos rfl] at hlt
      rcases Nat.eq_or_lt_of_le hij with rfl | hlt2
      · exact ht
      · exact ih (i + 1) j hlt2 hlt
    · rw [Bool.not_eq_true] at ht
      rw [ht, if_neg (by simp)] at hlt
      omega

theorem getD_insertIdx_self {l : List Line} {p : Nat} (x : Line) (hp : p ≤ l.length) :
    (l.insertIdx p x).getD p [] = x := by
  have h1 : p < (l.insertIdx p x).length := by
    rw [List.length_insertIdx p l hp]; omega
  rw [List.getD_eq_getElem?_getD, List.getElem?_eq_getElem h1,
    List.getElem_insertIdx_self l x p hp]
  rfl

theorem getD_insertIdx_of_gt {l : List Line} {p j : Nat} (x : Line)
    (hj : p < j) (hp : p ≤ l.length) :
    (l.insertIdx p x).getD j [] = l.getD (j - 1) [] := by
  obtain ⟨d, rfl⟩ : ∃ d, j = p + d + 1 := ⟨j - p - 1, by omega⟩
  rw [show p + d + 1 - 1 = p + d from by omega]
  by_cases hlen : p + d < l.length
  · have h1 : p + d + 1 < (l.insertIdx p x).length := by
      rw [List.length_insertIdx p l hp]; omega
    rw [List.getD_eq_getElem?_getD, List.getD_eq_getElem?_getD,
      List.getElem?_eq_getElem h1, List.getElem?_eq_getElem hlen]
    simp only [Option.getD_some]
    exact List.getElem_insertIdx_add_succ l x p d hlen h1
  · rw [List.getD_eq_getElem?_getD, List.getD_eq_getElem?_getD,
      List.getElem?_eq_none (by rw [List.length_insertIdx p l hp]; omega),
      List.getElem?_eq_none (by omega)]

theorem filter_idem (p : Nat → Bool) (l : List Nat) :
    (l.filter p).filter p = l.filter p :=
  List.filter_eq_self.mpr (fun a ha => List.of_mem_filter ha)

end AutoClose

namespace AutoClose

theorem lookupBlock_append (xs ys : List (Line × Nat × Nat × Line × Line)) (k : Line) :
    lookupBlock (xs ++ ys) k =
      match lookupBlock ys k with
      | some v => some v
      | none => lookupBlock xs k := by
  unfold lookupBlock
  rw [List.foldl_append, lookupBlock_foldl_acc]

theorem blockEntriesGo_split (len : Nat) (st1 : List (Nat × Line × Line))
    (b : Nat × Line × Line) (st2 : List (Nat × Line × Line)) :
    ∃ E1, blockEntriesGo len (st1 ++ b :: st2) =
        E1 ++ (normalize b.2.2, b.1, headEnd st2 len, b.2.1, b.2.2) ::
          blockEntriesGo len st2 ∧
      ∀ x ∈ E1, ∃ y ∈ st1, x.1 = normalize y.2.2 := by
  induction st1 with
  | nil =>
    refine ⟨[], ?_, by simp⟩
    simp only [List.nil_append]
    rw [blockEntriesGo]
  | cons a st1 ih =>
    obtain ⟨E1, hE1, hkeys⟩ := ih
    refine ⟨(normalize a.2.2, a.1, headEnd (st1 ++ b :: st2) len, a.2.1, a.2.2) :: E1,
      ?_, ?_⟩
    · rw [List.cons_append, blockEntriesGo, hE1]
      rfl
    · intro x hx
      rcases List.mem_cons.mp hx with rfl | hx2
      · exact ⟨a, by simp, rfl⟩
      · obtain ⟨y, hy1, hy2⟩ := hkeys x hx2
        exact ⟨y, by simp [hy1], hy2⟩

/-- Sufficient conditions under which `build_mentor_blocks` maps a key to a
specific block: a record start at `s` with that normalized name, no later
record with the same key, no record start strictly inside `(s, e2)`, and a
record start (or the end of the document) at `e2`. -/
theorem lookupBlock_build_eq (lines : List Line) (key : Line) (s e2 : Nat)
    (ind nm : Line)
    (h1 : parseRecordStart (lines.getD s []) = some (ind, nm))
    (hs : s < lines.length)
    (h2 : normalize nm = key)
    (h3 : ∀ j v1 v2, j < lines.length → parseRecordStart (lines.getD j []) = some (v1, v2) →
      normalize v2 = key → j ≤ s)
    (h6 : ∀ j, s < j → j < e2 → parseRecordStart (lines.getD j []) = none)
    (h5 : e2 ≤ lines.length) (h4 : s < e2)
    (h7 : e2 = lines.length ∨ isRecordStart (lines.getD e2 []) = true) :
    lookupBlock (buildBlocks lines) key = some (s, e2, ind, nm) := by
  have hmem : (s, ind, nm) ∈ recordStartsFrom lines 0 := by
    have := recordStartsFrom_complete s ind nm 0 hs h1
    simpa using this
  obtain ⟨st1, st2, hdec⟩ := List.append_of_mem hmem
  have hsorted := recordStartsFrom_sorted lines 0
  rw [hdec] at hsorted
  obtain ⟨hlt1, hlt2, -⟩ := pairwise_decomp hsorted
  have hst2key : ∀ y ∈ st2, normalize y.2.2 ≠ key := by
    intro y hy hkey
    have hymem : y ∈ recordStartsFrom lines 0 := by
      rw [hdec]
      exact List.mem_append.mpr (Or.inr (List.mem_cons.mpr (Or.inr hy)))
    obtain ⟨d, hd0, hdlen, hdparse⟩ := recordStartsFrom_mem hymem
    have : y.1 ≤ s := by
      refine h3 y.1 y.2.1 y.2.2 (by omega) ?_ hkey
      rw [show y.1 = d from by omega]
      exact hdparse
    have := hlt2 y hy
    omega
  have hend : headEnd st2 lines.length = e2 := by
    cases hst2 : st2 with
    | nil =>
      rw [headEnd]
      rcases h7 with h7 | h7
      · omega
      · exfalso
        unfold isRecordStart at h7
        cases hp : parseRecordStart (lines.getD e2 []) with
        | none => rw [hp] at h7; simp at h7
        | some v =>
          by_cases he2 : e2 = lines.length
          · have hnil : lines.getD e2 [] = [] := by
              rw [List.getD_eq_getElem?_getD, List.getElem?_eq_none (by omega)]
              rfl
            rw [hnil] at hp
            rw [show parseRecordStart ([] : Line) = none from by decide] at hp
            exact Option.noConfusion hp
          · have hmem2 : (e2, v.1, v.2) ∈ recordStartsFrom lines 0 := by
              have he2lt : e2 < lines.length := by omega
              have := recordStartsFrom_complete e2 v.1 v.2 0 he2lt (by rw [hp])
              simpa using this
            rw [hdec] at hmem2
            rcases List.mem_append.mp hmem2 with hm | hm
            · have := hlt1 _ hm
              simp at this
              omega
            · rcases List.mem_cons.mp hm with heq | hm2
              · have : e2 = s := congrArg Prod.fst heq
                omega
              · rw [hst2] at hm2
                simp at hm2
    | cons b2 rest =>
      rw [headEnd]
      have hb2 : b2 ∈ st2 := by rw [hst2]; simp
      have hb2gt : s < b2.1 := hlt2 b2 hb2
      have hb2mem : b2 ∈ recordStartsFrom lines 0 := by
        rw [hdec]
        exact List.mem_append.mpr (Or.inr (List.mem_cons.mpr (Or.inr hb2)))
      obtain ⟨d, hd0, hdlen, hdparse⟩ := recordStartsFrom_mem hb2mem
      have hb2len : b2.1 < lines.length := by omega
      have hb2ps : parseRecordStart (lines.getD b2.1 []) = some (b2.2.1, b2.2.2) := by
        rw [show b2.1 = d from by omega]
        exact hdparse
      have hge : e2 ≤ b2.1 := by
        by_contra hc
        have := h6 b2.1 hb2gt (by omega)
        rw [this] at hb2ps
        exact Option.noConfusion hb2ps
      rcases h7 with h7 | h7
      · omega
      · have he2lt : e2 < lines.length := by
          rcases Nat.lt_or_ge e2 lines.length with h | h
          · exact h
          · exfalso
            have he2 : e2 = lines.length := by omega
            unfold isRecordStart at h7
            rw [he2, List.getD_eq_getElem?_getD,
              List.getElem?_eq_none (le_refl _)] at h7
            exact absurd h7 (by decide)
        unfold isRecordStart at h7
        cases hp : parseRecordStart (lines.getD e2 []) with
        | none => rw [hp] at h7; simp at h7
        | some v =>
          have hmem2 : (e2, v.1, v.2) ∈ recordStartsFrom lines 0 := by
            have := recordStartsFrom_complete e2 v.1 v.2 0 he2lt (by rw [hp])
            simpa using this
          rw [hdec] at hmem2
          rcases List.mem_append.mp hmem2 with hm | hm
          · have := hlt1 _ hm
            simp at this
            omega
          · rcases List.mem_cons.mp hm with heq | hm2
            · have : e2 = s := congrArg Prod.fst heq
              omega
            · rw [hst2] at hm2
              rcases List.mem_cons.mp hm2 with heq2 | hm3
              · have : e2 = b2.1 := congrArg Prod.fst heq2
                omega
              · have hsorted2 := recordStartsFrom_sorted lines 0
                rw [hdec, hst2] at hsorted2
                obtain ⟨-, hafter, -⟩ := pairwise_decomp hsorted2
                have hb2lt : b2.1 < e2 := by
                  have := (List.pairwise_cons.mp
                    ((pairwise_decomp hsorted2).2.2)).1 _ hm3
                  exact this
                omega
  unfold buildBlocks
  rw [show recordStarts lines = recordStartsFrom lines 0 from rfl, hdec]
  obtain ⟨E1, hE1, hE1keys⟩ := blockEntriesGo_split lines.length st1 (s, ind, nm) st2
  rw [hE1, lookupBlock_append, lookupBlock_cons]
  have hn2 : lookupBlock (blockEntriesGo lines.length st2) key = none := by
    rw [lookupBlock_eq_none_iff]
    intro b hb
    obtain ⟨y, hy1, hy2⟩ := blockEntriesGo_mem_key hb
    rw [hy2]
    exact hst2key y hy1
  rw [hn2]
  simp only []
  rw [if_pos h2, hend]

end AutoClose

namespace AutoClose

/-- After any action of the sort phase, the block contains a `sort:` line
whose value is already 100 (found first by the next scan over any window
extending the current one). -/
theorem sortPhase_round2 (lines1 : List Line) (s e1 e2 : Nat)
    (hdr : Option (Nat × Line × Line))
    (hee : e1 ≤ e2) (hse : s ≤ e1) (hlen1 : e1 ≤ lines1.length)
    (hhdr : findSortFrom lines1 s e1 = none → ∀ h ind nl, hdr = some (h, ind, nl) →
      (∀ x ∈ ind, isSpace x = true) ∧ (∀ x ∈ nl, isSpace x = true) ∧
      s ≤ h ∧ h + 1 ≤ e1 ∧
      skipItemsFrom lines1 (h + 1) < e2 ∧ skipItemsFrom lines1 (h + 1) ≤ lines1.length)
    (hnone : findSortFrom lines1 s e1 = none → hdr = none → e1 < e2) :
    ∃ i2 sind2, findSortFrom (sortPhase lines1 s e1 hdr).1 s e2 =
      some (i2, sind2, 100) := by
  cases hfs : findSortFrom lines1 s e1 with
  | some v =>
    obtain ⟨i, sind, w⟩ := v
    have hspec := (findSortGo_eq_some lines1 s (e1 - s) i sind w).mp hfs
    have his : s ≤ i := hspec.1
    have hie : i < e1 := by have := hspec.2.1; omega
    have hilen : i < lines1.length := by omega
    rw [sortPhase_found hfs]
    by_cases hw : w = 100
    · rw [if_pos hw]
      refine ⟨i, sind, (findSortGo_eq_some lines1 s (e2 - s) i sind 100).mpr ?_⟩
      exact ⟨his, by omega, by rw [← hw]; exact hspec.2.2.1, hspec.2.2.2⟩
    · rw [if_neg hw]
      simp only []
      refine ⟨i, sind, (findSortGo_eq_some _ s (e2 - s) i sind 100).mpr ?_⟩
      refine ⟨his, by omega, ?_, ?_⟩
      · rw [getD_set_self lines1 _ hilen]
        exact sortLine_parseSort sind _ (parseSort_ind_spaces hspec.2.2.1)
          (line_ending_spaces _)
      · intro j hj1 hj2
        rw [getD_set_ne _ _ (by omega : i ≠ j)]
        exact hspec.2.2.2 j hj1 hj2
  | none =>
    have hnall := (findSortGo_eq_none lines1 s (e1 - s)).mp hfs
    cases hdr with
    | none =>
      have he12 := hnone hfs rfl
      rw [sortPhase_insert_nohdr hfs]
      refine ⟨e1, "  ".toList, (findSortGo_eq_some _ s (e2 - s) e1 _ 100).mpr ?_⟩
      refine ⟨hse, by omega, ?_, ?_⟩
      · rw [getD_insertIdx_self _ hlen1]
        exact sortLine_parseSort _ _ (by decide) (by decide)
      · intro j hj1 hj2
        rw [getD_insertIdx_of_lt _ hj2 (by omega : j < lines1.length)]
        exact hnall j hj1 (by omega)
    | some v =>
      obtain ⟨h, ind, nl⟩ := v
      obtain ⟨hind, hnl, hsh, hhe1, hpe2, hplen⟩ := hhdr hfs h ind nl rfl
      rw [sortPhase_insert_hdr hfs]
      have hp1 : h + 1 ≤ skipItemsFrom lines1 (h + 1) := skipItemsGo_ge _ (h + 1) _
      refine ⟨skipItemsFrom lines1 (h + 1), ind,
        (findSortGo_eq_some _ s (e2 - s) _ ind 100).mpr ?_⟩
      refine ⟨by omega, by omega, ?_, ?_⟩
      · rw [getD_insertIdx_self _ hplen]
        exact sortLine_parseSort ind nl hind hnl
      · intro j hj1 hj2
        rw [getD_insertIdx_of_lt _ hj2 (by omega : j < lines1.length)]
        by_cases hje : j < e1
        · exact hnall j hj1 (by omega)
        · have hj2f : j < skipItemsGo lines1 (h + 1) (lines1.length - (h + 1)) := by
            rw [← skipItemsFrom]
            exact hj2
          have hst := skipItemsGo_passes lines1 (lines1.length - (h + 1)) (h + 1) j
            (by omega) hj2f
          exact parseSort_of_stripItem hst

/-- A block whose scan finds `sort: 100` first is left unchanged by the
sort phase. -/
theorem sortPhase_of_found100 (lines2 : List Line) (s e2 : Nat)
    (hdr2 : Option (Nat × Line × Line)) (i2 : Nat) (sind2 : Line)
    (hf : findSortFrom lines2 s e2 = some (i2, sind2, 100)) :
    sortPhase lines2 s e2 hdr2 = (lines2, false) := by
  rw [sortPhase_found hf, if_pos rfl]

end AutoClose

namespace AutoClose

theorem getD_mem {L : List Line} {i : Nat} (h : i < L.length) : L.getD i [] ∈ L := by
  rw [List.getD_eq_getElem?_getD, List.getElem?_eq_getElem h]
  simpa using List.getElem_mem h

theorem findSortFrom_bounds {lines : List Line} {s e i : Nat} {sind : Line} {v : Nat}
    (hf : findSortFrom lines s e = some (i, sind, v)) :
    s ≤ i ∧ i < e ∧ parseSort (lines.getD i []) = some (sind, v) ∧
      ∀ j, s ≤ j → j < i → parseSort (lines.getD j []) = none := by
  have hspec := (findSortGo_eq_some lines s (e - s) i sind v).mp hf
  exact ⟨hspec.1, by have := hspec.2.1; omega, hspec.2.2.1, hspec.2.2.2⟩

theorem properLFb_sortline {l sind nl : Line} {v : Nat}
    (hl : properLFb l = true) (hp : parseSort l = some (sind, v))
    (hnl : nl = line_ending l) :
    properLFb (sind ++ "sort: 100".toList ++ nl) = true := by
  obtain ⟨core, hcore, hfree⟩ := properLFb_elim hl
  have hnl2 : nl = ['\n'] := by rw [hnl, line_ending_proper hl]
  rw [show sind ++ "sort: 100".toList ++ nl = (sind ++ "sort: 100".toList) ++ ['\n'] from
    by rw [hnl2]]
  refine properLFb_intro (noTerm_append ?_ (by decide))
  intro c hc
  exact hfree c (parseSort_mem_core hp hcore c hc)

/-- Round-2 stability for a block with no availability header. -/
theorem patchBlock_round2_none (L : List Line) (s e m : Nat) {ind0 nm : Line}
    (hse : s < e) (hel : e ≤ L.length)
    (hstart : parseRecordStart (L.getD s []) = some (ind0, nm))
    (hint : ∀ j, s < j → j < e → parseRecordStart (L.getD j []) = none)
    (hprop : ∀ l ∈ L, properLFb l = true)
    (hfa : findAvailFrom L s e = none) :
    ∃ M3, (patchBlock L s e m).1 = L.take s ++ M3 ++ L.drop e ∧
      (∀ l ∈ M3, properLFb l = true) ∧
      (∀ j, s < j → j < s + M3.length →
        parseRecordStart ((L.take s ++ M3 ++ L.drop e).getD j []) = none) ∧
      (L.take s ++ M3 ++ L.drop e).getD s [] = L.getD s [] ∧
      patchBlock (L.take s ++ M3 ++ L.drop e) s (s + M3.length) m =
        (L.take s ++ M3 ++ L.drop e, false) := by
  have hA : (L.take s).length = s := by rw [List.length_take]; omega
  have hmidlen : ((L.take e).drop s).length = e - s := mid_length L hel
  have hdecL : L = L.take s ++ (L.take e).drop s ++ L.drop e :=
    lines_decomp L (le_of_lt hse) hel
  have hnav := (findAvailGo_eq_none L s (e - s)).mp hfa
  have hpb : patchBlock L s e m =
      ((sortPhase L s e none).1, (sortPhase L s e none).2) := by
    rw [patchBlock_glue, availPhase_none hfa]
    rfl
  have hmidprop : ∀ l ∈ (L.take e).drop s, properLFb l = true := by
    intro l hl
    exact hprop l ((List.take_sublist e L).subset ((List.drop_sublist s _).subset hl))
  cases hfs : findSortFrom L s e with
  | some v =>
    obtain ⟨i, sind, w⟩ := v
    obtain ⟨his, hie, hips, hinone⟩ := findSortFrom_bounds hfs
    have hilen : i < L.length := by omega
    have hfind2 := sortPhase_round2 L s e e none (le_refl e) (le_of_lt hse) hel
      (fun hfn => by rw [hfs] at hfn; exact Option.noConfusion hfn)
      (fun hfn => by rw [hfs] at hfn; exact Option.noConfusion hfn)
    rw [sortPhase_found hfs] at hfind2 hpb
    by_cases hw : w = 100
    · rw [if_pos hw] at hfind2 hpb
      refine ⟨(L.take e).drop s, by rw [hpb, ← hdecL], hmidprop, ?_, ?_, ?_⟩
      · intro j h1 h2
        rw [hmidlen] at h2
        rw [← hdecL]
        exact hint j h1 (by omega)
      · rw [← hdecL]
      · rw [hmidlen, show s + (e - s) = e from by omega, ← hdecL]
        obtain ⟨i2, sind2, hf2⟩ := hfind2
        rw [patchBlock_glue, availPhase_none hfa,
          sortPhase_of_found100 L s e none i2 sind2 hf2]
        rfl
    · rw [if_neg hw] at hfind2 hpb
      simp only [] at hfind2 hpb
      set x := sind ++ "sort: 100".toList ++ line_ending (L.getD i []) with hxdef
      have hrowi := hprop _ (getD_mem hilen)
      have hxprop : properLFb x = true := properLFb_sortline hrowi hips rfl
      have hsx : parseSort x = some (sind, 100) :=
        sortLine_parseSort sind _ (parseSort_ind_spaces hips) (line_ending_spaces _)
      have hdec1 : L.set i x = L.take s ++ ((L.take e).drop s).set (i - s) x ++ L.drop e := by
        conv_lhs => rw [hdecL]
        rw [List.append_assoc,
          set_append_at _ _ i (i - s) x (by rw [List.length_take]; omega),
          set_append_left _ (by rw [hmidlen]; omega),
          List.append_assoc]
      set M3 := ((L.take e).drop s).set (i - s) x with hM3def
      have hM3len : M3.length = e - s := by rw [hM3def, List.length_set, hmidlen]
      have hrow2 : ∀ j, j ≠ i → (L.take s ++ M3 ++ L.drop e).getD j [] = L.getD j [] := by
        intro j hj
        rw [← hdec1, getD_set_ne _ _ (fun he => hj he.symm)]
      have hrowi2 : (L.take s ++ M3 ++ L.drop e).getD i [] = x := by
        rw [← hdec1, getD_set_self _ _ hilen]
      have hine : i ≠ s := fun he => by
        rw [he, parseSort_of_recordStart hstart] at hips
        exact Option.noConfusion hips
      refine ⟨M3, by rw [hpb, hdec1], ?_, ?_, ?_, ?_⟩
      · intro l hl
        rw [hM3def] at hl
        rcases List.mem_or_eq_of_mem_set hl with h2 | rfl
        · exact hmidprop l h2
        · exact hxprop
      · intro j h1 h2
        rw [hM3len] at h2
        by_cases hji : j = i
        · subst hji
          rw [hrowi2]
          exact parseRecordStart_of_sort hsx
        · rw [hrow2 j hji]
          exact hint j h1 (by omega)
      · exact hrow2 s (fun he => hine he.symm)
      · rw [hM3len, show s + (e - s) = e from by omega]
        have hnav2 : findAvailFrom (L.take s ++ M3 ++ L.drop e) s e = none := by
          refine (findAvailGo_eq_none _ s (e - s)).mpr ?_
          intro j h1 h2
          by_cases hji : j = i
          · subst hji
            rw [hrowi2]
            exact parseAvailHdr_of_sort hsx
          · rw [hrow2 j hji]
            exact hnav j h1 h2
        obtain ⟨i2, sind2, hf2⟩ := hfind2
        rw [hdec1] at hf2
        rw [patchBlock_glue, availPhase_none hnav2,
          sortPhase_of_found100 _ s e none i2 sind2 hf2]
        rfl
  | none =>
    have hnsort := (findSortGo_eq_none L s (e - s)).mp hfs
    have hfind2 := sortPhase_round2 L s e (e + 1) none (by omega) (le_of_lt hse) hel
      (fun _ h ind nl hx => Option.noConfusion hx)
      (fun _ _ => by omega)
    rw [sortPhase_insert_nohdr hfs] at hfind2 hpb
    set x := "  ".toList ++ "sort: 100".toList ++ ['\n'] with hxdef
    have hxprop : properLFb x = true := by decide
    have hsx : parseSort x = some ("  ".toList, 100) :=
      sortLine_parseSort _ _ (by decide) (by decide)
    have hdec1 : L.insertIdx e x =
        L.take s ++ ((L.take e).drop s ++ [x]) ++ L.drop e := by
      conv_lhs => rw [hdecL]
      rw [List.append_assoc,
        insertIdx_append_at _ _ e (e - s) x (by rw [List.length_take]; omega),
        insertIdx_append_left x (le_of_eq hmidlen.symm),
        show ((L.take e).drop s).insertIdx (e - s) x = (L.take e).drop s ++ [x] from by
          rw [← hmidlen]
          exact List.insertIdx_length_self _ x]
      simp [List.append_assoc]
    set M3 := (L.take e).drop s ++ [x] with hM3def
    have hM3len : M3.length = e - s + 1 := by
      rw [hM3def, List.length_append, hmidlen]
      rfl
    have hrowlt : ∀ j, j < e → (L.take s ++ M3 ++ L.drop e).getD j [] = L.getD j [] := by
      intro j hj
      rw [← hdec1, getD_insertIdx_of_lt x hj (by omega)]
    have hrowe : (L.take s ++ M3 ++ L.drop e).getD e [] = x := by
      rw [← hdec1, getD_insertIdx_self x hel]
    refine ⟨M3, by rw [hpb, hdec1], ?_, ?_, ?_, ?_⟩
    · intro l hl
      rw [hM3def] at hl
      rcases List.mem_append.mp hl with h2 | h2
      · exact hmidprop l h2
      · rw [List.mem_singleton.mp h2]
        exact hxprop
    · intro j h1 h2
      rw [hM3len] at h2
      by_cases hje : j = e
      · subst hje
        rw [hrowe]
        exact parseRecordStart_of_sort hsx
      · rw [hrowlt j (by omega)]
        exact hint j h1 (by omega)
    · exact hrowlt s hse
    · rw [hM3len, show s + (e - s + 1) = e + 1 from by omega]
      have hnav2 : findAvailFrom (L.take s ++ M3 ++ L.drop e) s (e + 1) = none := by
        refine (findAvailGo_eq_none _ s (e + 1 - s)).mpr ?_
        intro j h1 h2
        by_cases hje : j = e
        · subst hje
          rw [hrowe]
          exact parseAvailHdr_of_sort hsx
        · rw [hrowlt j (by omega)]
          exact hnav j h1 (by omega)
      obtain ⟨i2, sind2, hf2⟩ := hfind2
      rw [hdec1] at hf2
      rw [patchBlock_glue, availPhase_none hnav2,
        sortPhase_of_found100 _ s (e + 1) none i2 sind2 hf2]
      rfl

end AutoClose

namespace AutoClose

/-- Everything the second round needs to know about a canonical
`sort: 100` line. -/
theorem sortline_shape_facts {si row : Line} (hws : ∀ x ∈ si, isSpace x = true)
    (hrow : row = si ++ "sort: 100".toList ++ ['\n']) :
    parseSort row = some (si, 100) ∧ parseAvailHdr row = none ∧
    parseRecordStart row = none ∧ ∀ iind, parseItem iind row = none := by
  have hps : parseSort row = some (si, 100) := by
    rw [hrow]
    exact sortLine_parseSort si _ hws (by decide)
  refine ⟨hps, parseAvailHdr_of_sort hps, parseRecordStart_of_sort hps, ?_⟩
  intro iind
  refine parseItem_no_dash iind row ?_
  rw [hrow]
  intro hd
  rcases List.mem_append.mp hd with hd2 | hd2
  · rcases List.mem_append.mp hd2 with hd3 | hd3
    · exact absurd (hws '-' hd3) (by decide)
    · exact absurd hd3 (by decide)
  · exact absurd hd2 (by decide)

theorem skipItemsGo_stop (lines : List Line) :
    ∀ f i, skipItemsGo lines i f = i + f ∨
      stripItemTest (lines.getD (skipItemsGo lines i f) []) = false := by
  intro f
  induction f with
  | zero =>
    intro i
    left
    rw [skipItemsGo]
    omega
  | succ f ih =>
    intro i
    rw [skipItemsGo]
    by_cases ht : stripItemTest (lines.getD i []) = true
    · rw [ht, if_pos rfl]
      rcases ih (i + 1) with hq | hq
      · left
        omega
      · right
        exact hq
    · rw [Bool.not_eq_true] at ht
      rw [ht, if_neg (by simp)]
      right
      exact ht

/-- The complete effect of the sort phase on a decomposed block, for the
second round: the result still decomposes, all lines stay proper, a
`sort: 100` line is findable in the final window, and every row is either
the old row, a rewritten `sort: 100` row, or a shifted old row past a single
inserted `sort: 100` row. -/
theorem sortPhase_stage2 (A M2 S : List Line) (s e1 : Nat)
    (hdr : Option (Nat × Line × Line))
    (hA : A.length = s) (hse1 : s ≤ e1) (he1 : e1 ≤ s + M2.length)
    (hS : S = [] ∨ stripItemTest (S.getD 0 []) = false)
    (hprop1 : ∀ l ∈ A ++ M2 ++ S, properLFb l = true)
    (hhdr : ∀ h ind nl, hdr = some (h, ind, nl) →
      (∀ x ∈ ind, isSpace x = true) ∧ ('\n' ∉ ind ∧ '\r' ∉ ind) ∧ nl = ['\n'] ∧
      s ≤ h ∧ h + 1 ≤ e1)
    (hes : hdr = none → s < e1) :
    ∃ M3, (sortPhase (A ++ M2 ++ S) s e1 hdr).1 = A ++ M3 ++ S ∧
      (∀ l ∈ M3, properLFb l = true) ∧
      (∃ i2 sind2, findSortFrom (A ++ M3 ++ S) s (s + M3.length) =
        some (i2, sind2, 100)) ∧
      ((M3.length = M2.length ∧
        ∀ j, (A ++ M3 ++ S).getD j [] = (A ++ M2 ++ S).getD j [] ∨
          (s ≤ j ∧ j < e1 ∧
            parseSort ((A ++ M2 ++ S).getD j []) ≠ none ∧
            ∃ si, (∀ x ∈ si, isSpace x = true) ∧
              (A ++ M3 ++ S).getD j [] = si ++ "sort: 100".toList ++ ['\n'])) ∨
       (∃ p, M3.length = M2.length + 1 ∧ s < p ∧ p ≤ s + M2.length ∧
         (∀ h2 ind2 nl2, hdr = some (h2, ind2, nl2) → h2 + 1 ≤ p ∧
           (∀ j, h2 + 1 ≤ j → j < p →
             stripItemTest ((A ++ M2 ++ S).getD j []) = true) ∧
           (stripItemTest ((A ++ M2 ++ S).getD p []) = false ∨
             p = (A ++ M2 ++ S).length)) ∧
         (hdr = none → e1 ≤ p) ∧
         (∀ j, j < p → (A ++ M3 ++ S).getD j [] = (A ++ M2 ++ S).getD j []) ∧
         (∃ si, (∀ x ∈ si, isSpace x = true) ∧
           (A ++ M3 ++ S).getD p [] = si ++ "sort: 100".toList ++ ['\n']) ∧
         (∀ j, p < j → (A ++ M3 ++ S).getD j [] = (A ++ M2 ++ S).getD (j - 1) []))) := by
  have hlenfull : (A ++ M2 ++ S).length = s + M2.length + S.length := by
    simp [List.length_append, hA]
    omega
  have hlen1 : e1 ≤ (A ++ M2 ++ S).length := by omega
  cases hfs : findSortFrom (A ++ M2 ++ S) s e1 with
  | some v =>
    obtain ⟨i, sind, w⟩ := v
    obtain ⟨his, hie, hips, hinone⟩ := findSortFrom_bounds hfs
    have hilen : i < (A ++ M2 ++ S).length := by omega
    have hrowi := hprop1 _ (getD_mem hilen)
    have hfind2 := sortPhase_round2 (A ++ M2 ++ S) s e1 (s + M2.length) hdr he1 hse1 hlen1
      (fun hfn => by rw [hfs] at hfn; exact Option.noConfusion hfn)
      (fun hfn => by rw [hfs] at hfn; exact Option.noConfusion hfn)
    rw [sortPhase_found hfs] at hfind2 ⊢
    by_cases hw : w = 100
    · rw [if_pos hw] at hfind2 ⊢
      refine ⟨M2, rfl, ?_, ?_, Or.inl ⟨rfl, fun j => Or.inl rfl⟩⟩
      · intro l hl
        exact hprop1 l (List.mem_append.mpr (Or.inl (List.mem_append.mpr (Or.inr hl))))
      · exact hfind2
    · rw [if_neg hw] at hfind2 ⊢
      simp only [] at hfind2 ⊢
      have hnl : line_ending ((A ++ M2 ++ S).getD i []) = ['\n'] := line_ending_proper hrowi
      have hsws := parseSort_ind_spaces hips
      have hxprop : properLFb (sind ++ "sort: 100".toList ++
          line_ending ((A ++ M2 ++ S).getD i [])) = true :=
        properLFb_sortline hrowi hips rfl
      have hdecset : (A ++ M2 ++ S).set i (sind ++ "sort: 100".toList ++
          line_ending ((A ++ M2 ++ S).getD i [])) =
          A ++ M2.set (i - s) (sind ++ "sort: 100".toList ++
            line_ending ((A ++ M2 ++ S).getD i [])) ++ S := by
        rw [List.append_assoc A M2 S,
          set_append_at A (M2 ++ S) i (i - s) _ (by omega),
          set_append_left _ (by omega)]
        exact (List.append_assoc A _ S).symm
      refine ⟨M2.set (i - s) (sind ++ "sort: 100".toList ++
        line_ending ((A ++ M2 ++ S).getD i [])), hdecset, ?_, ?_, Or.inl ⟨?_, ?_⟩⟩
      · intro l hl
        rcases List.mem_or_eq_of_mem_set hl with h2 | rfl
        · exact hprop1 l (List.mem_append.mpr (Or.inl (List.mem_append.mpr (Or.inr h2))))
        · exact hxprop
      · rw [← hdecset, List.length_set]
        exact hfind2
      · rw [List.length_set]
      · intro j
        by_cases hji : j = i
        · subst hji
          refine Or.inr ⟨his, hie, by rw [hips]; exact fun hc => Option.noConfusion hc,
            sind, hsws, ?_⟩
          rw [← hdecset, getD_set_self _ _ hilen, hnl]
        · refine Or.inl ?_
          rw [← hdecset, getD_set_ne _ _ (fun he => hji he.symm)]
  | none =>
    have hnsort := (findSortGo_eq_none (A ++ M2 ++ S) s (e1 - s)).mp hfs
    have hfind2 := sortPhase_round2 (A ++ M2 ++ S) s e1 (s + M2.length + 1) hdr
      (by omega) hse1 hlen1
      (fun _ h ind nl hx => by
        obtain ⟨hind, -, hnleq, hsh, hhe1⟩ := hhdr h ind nl hx
        refine ⟨hind, by rw [hnleq]; decide, hsh, hhe1, ?_, ?_⟩
        · rcases hS with hS | hS
          · have hle := skipItemsFrom_le_len (A ++ M2 ++ S) (h + 1)
            have hS0 : S.length = 0 := by rw [hS]; rfl
            omega
          · have hq : stripItemTest ((A ++ M2 ++ S).getD (s + M2.length) []) = false := by
              rw [List.append_assoc,
                getD_append_at A (M2 ++ S) (s + M2.length) M2.length (by omega),
                getD_append_at M2 S M2.length 0 (by omega)]
              exact hS
            have := skipItemsGo_le_of_fail (A ++ M2 ++ S) hq
              ((A ++ M2 ++ S).length - (h + 1)) (h + 1) (by omega)
            rw [skipItemsFrom]
            omega
        · rcases hS with hS | hS
          · have hle := skipItemsFrom_le_len (A ++ M2 ++ S) (h + 1)
            omega
          · have hq : stripItemTest ((A ++ M2 ++ S).getD (s + M2.length) []) = false := by
              rw [List.append_assoc,
                getD_append_at A (M2 ++ S) (s + M2.length) M2.length (by omega),
                getD_append_at M2 S M2.length 0 (by omega)]
              exact hS
            have := skipItemsGo_le_of_fail (A ++ M2 ++ S) hq
              ((A ++ M2 ++ S).length - (h + 1)) (h + 1) (by omega)
            rw [skipItemsFrom]
            omega)
      (fun _ _ => by omega)
    cases hdr with
    | none =>
      have hse1s := hes rfl
      rw [sortPhase_insert_nohdr hfs] at hfind2 ⊢
      have hxprop : properLFb ("  ".toList ++ "sort: 100".toList ++ ['\n']) = true := by
        decide
      have hdecins : (A ++ M2 ++ S).insertIdx e1
          ("  ".toList ++ "sort: 100".toList ++ ['\n']) =
          A ++ M2.insertIdx (e1 - s) ("  ".toList ++ "sort: 100".toList ++ ['\n']) ++ S := by
        rw [List.append_assoc A M2 S,
          insertIdx_append_at A (M2 ++ S) e1 (e1 - s) _ (by omega),
          insertIdx_append_left _ (by omega)]
        exact (List.append_assoc A _ S).symm
      have hM3len : (M2.insertIdx (e1 - s)
          ("  ".toList ++ "sort: 100".toList ++ ['\n'])).length = M2.length + 1 :=
        List.length_insertIdx _ _ (by omega)
      refine ⟨M2.insertIdx (e1 - s) ("  ".toList ++ "sort: 100".toList ++ ['\n']),
        hdecins, ?_, ?_, Or.inr ⟨e1, hM3len, by omega, by omega,
          (fun h2 ind2 nl2 hx => Option.noConfusion hx), (fun _ => le_refl e1),
          ?_, ⟨"  ".toList, by decide, ?_⟩, ?_⟩⟩
      · intro l hl
        rcases (List.mem_insertIdx (show e1 - s ≤ M2.length by omega)).mp hl with rfl | h2
        · exact hxprop
        · exact hprop1 l (List.mem_append.mpr (Or.inl (List.mem_append.mpr (Or.inr h2))))
      · rw [← hdecins, hM3len, ← Nat.add_assoc]
        exact hfind2
      · intro j hj
        rw [← hdecins, getD_insertIdx_of_lt _ hj (by omega)]
      · rw [← hdecins, getD_insertIdx_self _ hlen1]
      · intro j hj
        rw [← hdecins, getD_insertIdx_of_gt _ hj hlen1]
    | some v =>
      obtain ⟨h, ind, nl⟩ := v
      obtain ⟨hind, hindnt, hnleq, hsh, hhe1⟩ := hhdr h ind nl rfl
      rw [sortPhase_insert_hdr hfs] at hfind2 ⊢
      have hp1 : h + 1 ≤ skipItemsFrom (A ++ M2 ++ S) (h + 1) :=
        skipItemsGo_ge _ (h + 1) _
      have hp2 : skipItemsFrom (A ++ M2 ++ S) (h + 1) ≤ s + M2.length := by
        rcases hS with hS | hS
        · have hle := skipItemsFrom_le_len (A ++ M2 ++ S) (h + 1)
          have hS0 : S.length = 0 := by rw [hS]; rfl
          omega
        · have hq : stripItemTest ((A ++ M2 ++ S).getD (s + M2.length) []) = false := by
            rw [List.append_assoc,
              getD_append_at A (M2 ++ S) (s + M2.length) M2.length (by omega),
              getD_append_at M2 S M2.length 0 (by omega)]
            exact hS
          have := skipItemsGo_le_of_fail (A ++ M2 ++ S) hq
            ((A ++ M2 ++ S).length - (h + 1)) (h + 1) (by omega)
          rw [skipItemsFrom]
          omega
      have hplen : skipItemsFrom (A ++ M2 ++ S) (h + 1) ≤ (A ++ M2 ++ S).length := by
        omega
      set p := skipItemsFrom (A ++ M2 ++ S) (h + 1) with hpdef
      have hxprop : properLFb (ind ++ "sort: 100".toList ++ nl) = true := by
        rw [hnleq,
          show ind ++ "sort: 100".toList ++ ['\n'] =
            (ind ++ "sort: 100".toList) ++ ['\n'] from by simp]
        refine properLFb_intro (noTerm_append ?_ (by decide))
        intro c hc
        constructor <;> rintro rfl
        · exact hindnt.1 hc
        · exact hindnt.2 hc
      have hdecins : (A ++ M2 ++ S).insertIdx p (ind ++ "sort: 100".toList ++ nl) =
          A ++ M2.insertIdx (p - s) (ind ++ "sort: 100".toList ++ nl) ++ S := by
        rw [List.append_assoc A M2 S,
          insertIdx_append_at A (M2 ++ S) p (p - s) _ (by omega),
          insertIdx_append_left _ (by omega)]
        exact (List.append_assoc A _ S).symm
      have hM3len : (M2.insertIdx (p - s)
          (ind ++ "sort: 100".toList ++ nl)).length = M2.length + 1 :=
        List.length_insertIdx _ _ (by omega)
      refine ⟨M2.insertIdx (p - s) (ind ++ "sort: 100".toList ++ nl),
        hdecins, ?_, ?_, Or.inr ⟨p, hM3len,
          by omega, hp2, ?_, (fun hx => Option.noConfusion hx), ?_, ⟨ind, hind, ?_⟩, ?_⟩⟩
      · intro l hl
        rcases (List.mem_insertIdx (show p - s ≤ M2.length by omega)).mp hl
          with rfl | h2
        · exact hxprop
        · exact hprop1 l (List.mem_append.mpr (Or.inl (List.mem_append.mpr (Or.inr h2))))
      · rw [← hdecins, hM3len, ← Nat.add_assoc]
        exact hfind2
      · intro h2 ind2 nl2 hx
        obtain ⟨heq1, -, -⟩ := Prod.mk.injEq .. ▸ Option.some.injEq .. ▸ hx
        refine ⟨?_, ?_, ?_⟩
        · rw [← heq1]; exact hp1
        · intro j hj1 hj2
          rw [← heq1] at hj1
          exact skipItemsGo_passes (A ++ M2 ++ S) _ (h + 1) j hj1 (by
            rw [hpdef, skipItemsFrom] at hj2
            exact hj2)
        · rcases skipItemsGo_stop (A ++ M2 ++ S)
            ((A ++ M2 ++ S).length - (h + 1)) (h + 1) with hq | hq
          · right
            rw [hpdef, skipItemsFrom, hq]
            omega
          · left
            rw [hpdef, skipItemsFrom]
            exact hq
      · intro j hj
        rw [← hdecins, getD_insertIdx_of_lt _ hj (by omega)]
      · rw [← hdecins, getD_insertIdx_self _ hplen, hnleq]
      · intro j hj
        rw [← hdecins, getD_insertIdx_of_gt _ hj hplen]

end AutoClose

namespace AutoClose

theorem drop_boundary (L : List Line) (e : Nat) (hel : e ≤ L.length)
    (hbnd : e = L.length ∨ isRecordStart (L.getD e []) = true) :
    L.drop e = [] ∨ stripItemTest ((L.drop e).getD 0 []) = false := by
  rcases hbnd with hbnd | hbnd
  · left
    rw [hbnd, List.drop_length]
  · right
    rw [getD_drop, Nat.add_zero]
    unfold isRecordStart at hbnd
    cases hp : parseRecordStart (L.getD e []) with
    | none => rw [hp] at hbnd; simp at hbnd
    | some v => exact stripItemTest_of_recordStart hp

theorem renderNums_no_hash (ns : List Nat) :
    ∀ x ∈ renderNums ns, (x != '#') = true := by
  intro x hx
  rcases renderNums_chars ns x hx with h | h | h | h | h
  · simp only [bne_iff_ne, ne_eq]
    rintro rfl
    exact absurd h (by decide)
  all_goals subst h
  all_goals decide

/-- Everything the second round needs about a canonically rendered
availability header line. -/
theorem canonical_avail_facts (ind com : Line) (ns : List Nat)
    (hind : ∀ x ∈ ind, isSpace x = true)
    (hindnt : ∀ c ∈ ind, c ≠ '\n' ∧ c ≠ '\r')
    (hcomnt : ∀ c ∈ com, c ≠ '\n' ∧ c ≠ '\r')
    (hcom : ComShape com) :
    parseAvailHdr (ind ++ "availability: ".toList ++ renderNums ns ++ com ++ ['\n']) =
      some (ind, renderNums ns, com) ∧
    properLFb (ind ++ "availability: ".toList ++ renderNums ns ++ com ++ ['\n']) = true ∧
    parseSort (ind ++ "availability: ".toList ++ renderNums ns ++ com ++ ['\n']) = none ∧
    parseRecordStart (ind ++ "availability: ".toList ++ renderNums ns ++ com ++ ['\n']) =
      none ∧
    line_ending (ind ++ "availability: ".toList ++ renderNums ns ++ com ++ ['\n']) =
      ['\n'] ∧
    ((renderNums ns).contains '[' && (renderNums ns).contains ']') = true := by
  obtain ⟨r1, hr1⟩ := renderNums_head ns
  obtain ⟨r2, hr2⟩ := renderNums_last ns
  have hparse : parseAvailHdr (ind ++ "availability: ".toList ++ renderNums ns ++ com ++
      ['\n']) = some (ind, renderNums ns, com) :=
    availLine_parseAvailHdr ind (renderNums ns) com hind
      ⟨'[', r1, hr1, by decide⟩ ⟨r2, ']', hr2, by decide⟩
      (renderNums_no_hash ns) hcom
  have hproper : properLFb (ind ++ "availability: ".toList ++ renderNums ns ++ com ++
      ['\n']) = true := by
    rw [show ind ++ "availability: ".toList ++ renderNums ns ++ com ++ ['\n'] =
      (ind ++ "availability: ".toList ++ renderNums ns ++ com) ++ ['\n'] from by simp]
    refine properLFb_intro ?_
    refine noTerm_append (noTerm_append (noTerm_append hindnt (by decide)) ?_) hcomnt
    exact noTerm_renderNums ns
  refine ⟨hparse, hproper, parseSort_of_availHdr hparse,
    parseRecordStart_of_availHdr hparse, line_ending_proper hproper, ?_⟩
  rw [Bool.and_eq_true]
  constructor
  · exact List.elem_eq_true_of_mem (by rw [hr1]; simp)
  · exact List.elem_eq_true_of_mem (by rw [hr2]; simp)

end AutoClose

namespace AutoClose

theorem parseAvailHdr_comShape {l ind rest com : Line}
    (hp : parseAvailHdr l = some (ind, rest, com)) : ComShape com := by
  obtain ⟨-, hsplit, -⟩ := parseAvailHdr_parts2 hp
  rw [show com = (splitAtComment
    ((dropFinalLF (((l.dropWhile isSpace)).drop 13)).dropWhile isSpace)).2
    from congrArg Prod.snd hsplit]
  exact splitAtComment_shape _

/-- Round-2 stability for a block whose availability header is inline. -/
theorem patchBlock_round2_inline (L : List Line) (s e m : Nat) {ind0 nm : Line}
    {h : Nat} {ind rest com : Line}
    (hse : s < e) (hel : e ≤ L.length)
    (hstart : parseRecordStart (L.getD s []) = some (ind0, nm))
    (hint : ∀ j, s < j → j < e → parseRecordStart (L.getD j []) = none)
    (hbnd : e = L.length ∨ isRecordStart (L.getD e []) = true)
    (hprop : ∀ l ∈ L, properLFb l = true)
    (hfa : findAvailFrom L s e = some (h, ind, rest, com))
    (hin : (rest.contains '[' && rest.contains ']') = true) :
    ∃ M3, (patchBlock L s e m).1 = L.take s ++ M3 ++ L.drop e ∧
      (∀ l ∈ M3, properLFb l = true) ∧
      (∀ j, s < j → j < s + M3.length →
        parseRecordStart ((L.take s ++ M3 ++ L.drop e).getD j []) = none) ∧
      (L.take s ++ M3 ++ L.drop e).getD s [] = L.getD s [] ∧
      patchBlock (L.take s ++ M3 ++ L.drop e) s (s + M3.length) m =
        (L.take s ++ M3 ++ L.drop e, false) := by
  have hA : (L.take s).length = s := by rw [List.length_take]; omega
  have hmidlen : ((L.take e).drop s).length = e - s := mid_length L hel
  have hdecL : L = L.take s ++ (L.take e).drop s ++ L.drop e :=
    lines_decomp L (le_of_lt hse) hel
  have hS := drop_boundary L e hel hbnd
  have hspec := (findAvailGo_eq_some L s (e - s) h ind rest com).mp hfa
  have hparse := hspec.2.2.1
  have hbefore := hspec.2.2.2
  have hhs : s ≤ h := hspec.1
  have hhe : h < e := by have := hspec.2.1; omega
  have hhlen : h < L.length := by omega
  have hrowhp := hprop _ (getD_mem hhlen)
  have hnl : line_ending (L.getD h []) = ['\n'] := line_ending_proper hrowhp
  have hindws := parseAvailHdr_ind_spaces hparse
  obtain ⟨core, hcoreeq, hcorefree⟩ := properLFb_elim hrowhp
  obtain ⟨hindmem, hrestmem, hcommem⟩ := parseAvailHdr_mem_core hparse hcoreeq
  have hindnt : ∀ c ∈ ind, c ≠ '\n' ∧ c ≠ '\r' := fun c hc => hcorefree c (hindmem c hc)
  have hcomnt : ∀ c ∈ com, c ≠ '\n' ∧ c ≠ '\r' := fun c hc => hcorefree c (hcommem c hc)
  have hcomshape : ComShape com := parseAvailHdr_comShape hparse
  obtain ⟨hcparse, hcproper, hcsort, hcrec, hcle, hcbr⟩ :=
    canonical_avail_facts ind com ((extractNums rest).filter (fun n => n != m))
      hindws hindnt hcomnt hcomshape
  set cano := ind ++ "availability: ".toList ++
    renderNums ((extractNums rest).filter (fun n => n != m)) ++ com ++
    line_ending (L.getD h []) with hcanodef
  have hcanoeq : cano = ind ++ "availability: ".toList ++
      renderNums ((extractNums rest).filter (fun n => n != m)) ++ com ++ ['\n'] := by
    rw [hcanodef, hnl]
  rw [← hcanoeq] at hcparse hcproper hcsort hcrec hcle
  have hrw2 : renderNums ((extractNums (renderNums ((extractNums rest).filter
      (fun n => n != m)))).filter (fun n => n != m)) =
      renderNums ((extractNums rest).filter (fun n => n != m)) := by
    rw [extractNums_renderNums, filter_idem]
  have hsne : h ≠ s := by
    intro heqq
    rw [heqq, parseAvailHdr_of_recordStart hstart] at hparse
    exact Option.noConfusion hparse
  by_cases heq : L.getD h [] = cano
  · -- header already canonical: availability phase is a no-op
    have havail : availPhase L s e m =
        (L, e, false, some (h, ind, line_ending (L.getD h []))) := by
      rw [availPhase_inline hfa hin, if_pos heq]
    have hprop1 : ∀ l ∈ L.take s ++ (L.take e).drop s ++ L.drop e,
        properLFb l = true := by
      rw [← hdecL]; exact hprop
    obtain ⟨M3, hsp, hM3prop, ⟨i2, sind2, hfind⟩, hmap⟩ :=
      sortPhase_stage2 (L.take s) ((L.take e).drop s) (L.drop e) s e
        (some (h, ind, line_ending (L.getD h []))) hA (le_of_lt hse)
        (by omega) hS hprop1
        (fun h2 ind2 nl2 hx => by
          simp only [Option.some.injEq, Prod.mk.injEq] at hx
          obtain ⟨he1, he2, he3⟩ := hx
          subst he1; subst he2; subst he3
          exact ⟨hindws, ⟨fun hc => (hindnt _ hc).1 rfl, fun hc => (hindnt _ hc).2 rfl⟩,
            hnl, hhs, by omega⟩)
        (fun hx => Option.noConfusion hx)
    rw [← hdecL] at hsp
    have hpb1 : (patchBlock L s e m).1 = L.take s ++ M3 ++ L.drop e := by
      rw [patchBlock_glue, havail]
      exact hsp
    have hrow2 : ∀ j, j ≤ h →
        (L.take s ++ M3 ++ L.drop e).getD j [] = L.getD j [] ∨
        (s ≤ j ∧ parseSort (L.getD j []) ≠ none ∧
          ∃ si, (∀ x ∈ si, isSpace x = true) ∧
          (L.take s ++ M3 ++ L.drop e).getD j [] = si ++ "sort: 100".toList ++ ['\n']) := by
      intro j hj
      rcases hmap with ⟨hlen3, hrow⟩ | ⟨p, hlen3, hps, hpe, hhdrp, -, hlow, -, -⟩
      · rcases hrow j with heqr | ⟨hj1, hj2, hjsort, si, hsiws, hrowj⟩
        · left; rw [heqr, ← hdecL]
        · right
          rw [← hdecL] at hjsort
          exact ⟨hj1, hjsort, si, hsiws, hrowj⟩
      · obtain ⟨hp1, -⟩ := hhdrp h ind (line_ending (L.getD h [])) rfl
        left
        rw [hlow j (by omega), ← hdecL]
    have hrowhkeep : (L.take s ++ M3 ++ L.drop e).getD h [] = L.getD h [] := by
      rcases hrow2 h (le_refl h) with heqr | ⟨-, hjsort, -⟩
      · exact heqr
      · exact absurd (parseSort_of_availHdr hparse) hjsort
    have hrowskeep : (L.take s ++ M3 ++ L.drop e).getD s [] = L.getD s [] := by
      rcases hrow2 s (by omega) with heqr | ⟨-, hjsort, -⟩
      · exact heqr
      · exact absurd (parseSort_of_recordStart hstart) hjsort
    have hlen2 : e ≤ s + M3.length := by
      rcases hmap with ⟨hlen3, -⟩ | ⟨p, hlen3, -⟩ <;> omega
    refine ⟨M3, hpb1, hM3prop, ?_, hrowskeep, ?_⟩
    · intro j h1 h2
      rcases hmap with ⟨hlen3, hrow⟩ | ⟨p, hlen3, hps, hpe, -, -, hlow, ⟨si, hsiws, hsirow⟩,
        hhigh⟩
      · rcases hrow j with heqr | ⟨-, -, -, si, hsiws, hrowj⟩
        · rw [heqr, ← hdecL]
          exact hint j h1 (by omega)
        · rw [hrowj]
          exact (sortline_shape_facts hsiws rfl).2.2.1
      · rcases Nat.lt_trichotomy j p with hj | hj | hj
        · rw [hlow j hj, ← hdecL]
          exact hint j h1 (by omega)
        · subst hj
          rw [hsirow]
          exact (sortline_shape_facts hsiws rfl).2.2.1
        · rw [hhigh j hj, ← hdecL]
          exact hint (j - 1) (by omega) (by omega)
    · have hfa2 : findAvailFrom (L.take s ++ M3 ++ L.drop e) s (s + M3.length) =
          some (h, ind, rest, com) := by
        refine (findAvailGo_eq_some _ s (s + M3.length - s) h ind rest com).mpr ?_
        refine ⟨hhs, by omega, ?_, ?_⟩
        · rw [hrowhkeep]
          exact hparse
        · intro j hj1 hj2
          rcases hrow2 j (by omega) with heqr | ⟨-, -, si, hsiws, hrowj⟩
          · rw [heqr]
            exact hbefore j hj1 (by omega)
          · rw [hrowj]
            exact (sortline_shape_facts hsiws rfl).2.1
      have heq2 : (L.take s ++ M3 ++ L.drop e).getD h [] =
          ind ++ "availability: ".toList ++
          renderNums ((extractNums rest).filter (fun n => n != m)) ++ com ++
          line_ending ((L.take s ++ M3 ++ L.drop e).getD h []) := by
        rw [hrowhkeep]
        exact heq
      have havail2 : availPhase (L.take s ++ M3 ++ L.drop e) s (s + M3.length) m =
          (L.take s ++ M3 ++ L.drop e, s + M3.length, false,
            some (h, ind, line_ending ((L.take s ++ M3 ++ L.drop e).getD h []))) := by
        rw [availPhase_inline hfa2 hin, if_pos heq2]
      rw [patchBlock_glue, havail2,
        sortPhase_of_found100 _ s (s + M3.length) _ i2 sind2 hfind]
      rfl
  · -- header rewritten to the canonical rendering
    have havail : availPhase L s e m =
        (L.set h cano, e, true, some (h, ind, line_ending (L.getD h []))) := by
      rw [availPhase_inline hfa hin, if_neg heq]
    have hdec1 : L.set h cano =
        L.take s ++ ((L.take e).drop s).set (h - s) cano ++ L.drop e := by
      conv_lhs => rw [hdecL]
      rw [List.append_assoc,
        set_append_at _ _ h (h - s) cano (by rw [List.length_take]; omega),
        set_append_left _ (by rw [hmidlen]; omega),
        List.append_assoc]
    set M2c := ((L.take e).drop s).set (h - s) cano with hM2cdef
    have hM2clen : M2c.length = e - s := by rw [hM2cdef, List.length_set, hmidlen]
    have hprop1 : ∀ l ∈ L.take s ++ M2c ++ L.drop e, properLFb l = true := by
      intro l hl
      rw [← hdec1] at hl
      rcases List.mem_or_eq_of_mem_set hl with h2 | rfl
      · exact hprop l h2
      · exact hcproper
    have hL1rowh : (L.take s ++ M2c ++ L.drop e).getD h [] = cano := by
      rw [← hdec1, getD_set_self L cano hhlen]
    have hL1rowne : ∀ j, j ≠ h →
        (L.take s ++ M2c ++ L.drop e).getD j [] = L.getD j [] := by
      intro j hj
      rw [← hdec1, getD_set_ne _ _ (fun he2 => hj he2.symm)]
    obtain ⟨M3, hsp, hM3prop, ⟨i2, sind2, hfind⟩, hmap⟩ :=
      sortPhase_stage2 (L.take s) M2c (L.drop e) s e
        (some (h, ind, line_ending (L.getD h []))) hA (le_of_lt hse)
        (by omega) hS hprop1
        (fun h2 ind2 nl2 hx => by
          simp only [Option.some.injEq, Prod.mk.injEq] at hx
          obtain ⟨he1, he2, he3⟩ := hx
          subst he1; subst he2; subst he3
          exact ⟨hindws, ⟨fun hc => (hindnt _ hc).1 rfl, fun hc => (hindnt _ hc).2 rfl⟩,
            hnl, hhs, by omega⟩)
        (fun hx => Option.noConfusion hx)
    have hpb1 : (patchBlock L s e m).1 = L.take s ++ M3 ++ L.drop e := by
      rw [patchBlock_glue, havail]
      rw [hdec1]
      exact hsp
    have hrow2 : ∀ j, j ≤ h →
        ((L.take s ++ M3 ++ L.drop e).getD j [] =
          (L.take s ++ M2c ++ L.drop e).getD j [] ∨
        (s ≤ j ∧ parseSort ((L.take s ++ M2c ++ L.drop e).getD j []) ≠ none ∧
          ∃ si, (∀ x ∈ si, isSpace x = true) ∧
          (L.take s ++ M3 ++ L.drop e).getD j [] = si ++ "sort: 100".toList ++ ['\n'])) := by
      intro j hj
      rcases hmap with ⟨hlen3, hrow⟩ | ⟨p, hlen3, hps, hpe, hhdrp, -, hlow, -, -⟩
      · rcases hrow j with heqr | ⟨hj1, hj2, hjsort, si, hsiws, hrowj⟩
        · exact Or.inl heqr
        · exact Or.inr ⟨hj1, hjsort, si, hsiws, hrowj⟩
      · obtain ⟨hp1, -⟩ := hhdrp h ind (line_ending (L.getD h [])) rfl
        exact Or.inl (hlow j (by omega))
    have hrowhkeep : (L.take s ++ M3 ++ L.drop e).getD h [] = cano := by
      rcases hrow2 h (le_refl h) with heqr | ⟨-, hjsort, -⟩
      · rw [heqr]
        exact hL1rowh
      · rw [hL1rowh] at hjsort
        exact absurd hcsort hjsort
    have hrowskeep : (L.take s ++ M3 ++ L.drop e).getD s [] = L.getD s [] := by
      rcases hrow2 s (by omega) with heqr | ⟨-, hjsort, -⟩
      · rw [heqr]
        exact hL1rowne s (fun he2 => hsne he2.symm)
      · rw [hL1rowne s (fun he2 => hsne he2.symm),
          parseSort_of_recordStart hstart] at hjsort
        exact absurd rfl hjsort
    have hlen2 : e ≤ s + M3.length := by
      rcases hmap with ⟨hlen3, -⟩ | ⟨p, hlen3, -⟩ <;> omega
    refine ⟨M3, hpb1, hM3prop, ?_, hrowskeep, ?_⟩
    · intro j h1 h2
      have hrecL1 : ∀ j2, s < j2 → j2 < s + M2c.length →
          parseRecordStart ((L.take s ++ M2c ++ L.drop e).getD j2 []) = none := by
        intro j2 hj1 hj2
        by_cases hjh : j2 = h
        · subst hjh
          rw [hL1rowh]
          exact hcrec
        · rw [hL1rowne j2 hjh]
          exact hint j2 hj1 (by omega)
      rcases hmap with ⟨hlen3, hrow⟩ | ⟨p, hlen3, hps, hpe, -, -, hlow, ⟨si, hsiws, hsirow⟩,
        hhigh⟩
      · rcases hrow j with heqr | ⟨-, -, -, si, hsiws, hrowj⟩
        · rw [heqr]
          exact hrecL1 j h1 (by omega)
        · rw [hrowj]
          exact (sortline_shape_facts hsiws rfl).2.2.1
      · rcases Nat.lt_trichotomy j p with hj | hj | hj
        · rw [hlow j hj]
          exact hrecL1 j h1 (by omega)
        · subst hj
          rw [hsirow]
          exact (sortline_shape_facts hsiws rfl).2.2.1
        · rw [hhigh j hj]
          exact hrecL1 (j - 1) (by omega) (by omega)
    · have hfa2 : findAvailFrom (L.take s ++ M3 ++ L.drop e) s (s + M3.length) =
          some (h, ind, renderNums ((extractNums rest).filter (fun n => n != m)), com) := by
        refine (findAvailGo_eq_some _ s (s + M3.length - s) h ind _ com).mpr ?_
        refine ⟨hhs, by omega, ?_, ?_⟩
        · rw [hrowhkeep]
          exact hcparse
        · intro j hj1 hj2
          rcases hrow2 j (by omega) with heqr | ⟨-, -, si, hsiws, hrowj⟩
          · rw [heqr, hL1rowne j (by omega)]
            exact hbefore j hj1 (by omega)
          · rw [hrowj]
            exact (sortline_shape_facts hsiws rfl).2.1
      have heq2 : (L.take s ++ M3 ++ L.drop e).getD h [] =
          ind ++ "availability: ".toList ++
          renderNums ((extractNums (renderNums ((extractNums rest).filter
            (fun n => n != m)))).filter (fun n => n != m)) ++ com ++
          line_ending ((L.take s ++ M3 ++ L.drop e).getD h []) := by
        rw [hrowhkeep, hrw2, hcle]
        exact hcanoeq
      have havail2 : availPhase (L.take s ++ M3 ++ L.drop e) s (s + M3.length) m =
          (L.take s ++ M3 ++ L.drop e, s + M3.length, false,
            some (h, ind, line_ending ((L.take s ++ M3 ++ L.drop e).getD h []))) := by
        rw [availPhase_inline hfa2 hcbr, if_pos heq2]
      rw [patchBlock_glue, havail2,
        sortPhase_of_found100 _ s (s + M3.length) _ i2 sind2 hfind]
      rfl

end AutoClose

namespace AutoClose

/-- Forward characterization of the item scan: the scanned values sit on
consecutive parseable item lines, the scan stops at the window end or a
non-item line, and the recorded line ending comes from the last item. -/
theorem scanItemsGo_inv (lines : List Line) (ind : Line) :
    ∀ f j, (scanItemsGo lines ind j f).2.1 ≤ f ∧
      (scanItemsGo lines ind j f).2.1 = (scanItemsGo lines ind j f).1.length ∧
      (∀ d, d < (scanItemsGo lines ind j f).2.1 →
        parseItem ind (lines.getD (j + d) []) =
          some ((scanItemsGo lines ind j f).1.getD d 0)) ∧
      ((scanItemsGo lines ind j f).2.1 = f ∨
        parseItem ind (lines.getD (j + (scanItemsGo lines ind j f).2.1) []) = none) ∧
      ((scanItemsGo lines ind j f).2.1 ≠ 0 →
        (scanItemsGo lines ind j f).2.2 =
          line_ending (lines.getD (j + (scanItemsGo lines ind j f).2.1 - 1) [])) ∧
      ((scanItemsGo lines ind j f).2.1 = 0 → (scanItemsGo lines ind j f).2.2 = ['\n']) := by
  intro f
  induction f with
  | zero =>
    intro j
    simp [scanItemsGo]
  | succ f ih =>
    intro j
    rw [scanItemsGo]
    cases hp : parseItem ind (lines.getD j []) with
    | none =>
      refine ⟨by simp, by simp, by simp, Or.inr (by simpa using hp), by simp, by simp⟩
    | some n =>
      obtain ⟨ih1, ih2, ih3, ih4, ih5, ih6⟩ := ih (j + 1)
      simp only []
      refine ⟨by omega, by simp [ih2], ?_, ?_, ?_, by omega⟩
      · intro d hd
        cases d with
        | zero => simpa using hp
        | succ d2 =>
          have := ih3 d2 (by omega)
          rw [show j + (d2 + 1) = j + 1 + d2 from by omega]
          simpa using this
      · rcases ih4 with h4 | h4
        · exact Or.inl (by omega)
        · refine Or.inr ?_
          rw [show j + ((scanItemsGo lines ind (j + 1) f).2.1 + 1) =
            j + 1 + (scanItemsGo lines ind (j + 1) f).2.1 from by omega]
          exact h4
      · intro hne
        by_cases h0 : (scanItemsGo lines ind (j + 1) f).2.1 = 0
        · rw [if_pos h0, h0]
          rfl
        · rw [if_neg h0, ih5 h0]
          have hix : j + 1 + (scanItemsGo lines ind (j + 1) f).2.1 - 1 =
              j + ((scanItemsGo lines ind (j + 1) f).2.1 + 1) - 1 := by omega
          rw [hix]

theorem parseItem_decomp {iind l : Line} {n : Nat} (hp : parseItem iind l = some n) :
    ∃ r, l = iind ++ '-' :: r := by
  unfold parseItem at hp
  split at hp
  next ht =>
    split at hp
    next r heq =>
      refine ⟨r, ?_⟩
      conv_lhs => rw [← List.take_append_drop iind.length l]
      rw [ht, heq]
    next => exact Option.noConfusion hp
  next => exact Option.noConfusion hp

theorem parseSort_of_parseItem {iind l : Line} {n : Nat}
    (hiind : ∀ x ∈ iind, isSpace x = true) (hp : parseItem iind l = some n) :
    parseSort l = none ∧ parseAvailHdr l = none := by
  obtain ⟨r, hr⟩ := parseItem_decomp hp
  have hdw : l.dropWhile isSpace = '-' :: r := by
    rw [hr]
    exact dropWhile_indent iind r hiind (by decide)
  exact ⟨parseSort_eq_none_of_head r hdw (by decide),
    parseAvailHdr_eq_none_of_head r hdw (by decide)⟩

theorem skipItemsGo_ge_of_pass (lines : List Line) {q : Nat} :
    ∀ f i, (∀ j, i ≤ j → j < q → stripItemTest (lines.getD j []) = true) →
      q ≤ i + f → i ≤ skipItemsGo lines i f ∧ q ≤ max (skipItemsGo lines i f) i := by
  intro f
  induction f with
  | zero =>
    intro i hpass hq
    rw [skipItemsGo]
    omega
  | succ f ih =>
    intro i hpass hq
    rw [skipItemsGo]
    by_cases hi : i < q
    · rw [hpass i (le_refl i) hi, if_pos rfl]
      obtain ⟨ih1, ih2⟩ := ih (i + 1) (fun j h1 h2 => hpass j (by omega) h2) (by omega)
      omega
    · by_cases ht : stripItemTest (lines.getD i []) = true
      · rw [ht, if_pos rfl]
        have := skipItemsGo_ge lines (i + 1) f
        omega
      · rw [Bool.not_eq_true] at ht
        rw [ht, if_neg (by simp)]
        omega

end AutoClose

namespace AutoClose

theorem filter_full_mem {p : Nat → Bool} :
    ∀ {l : List Nat}, (l.filter p).length = l.length → ∀ a ∈ l, p a = true := by
  intro l
  induction l with
  | nil =>
    intro _ a ha
    exact absurd ha (List.not_mem_nil a)
  | cons b t ih =>
    intro h a ha
    have hle := List.length_filter_le p t
    by_cases hb : p b = true
    · rw [List.filter_cons, if_pos hb] at h
      simp only [List.length_cons] at h
      rcases List.mem_cons.mp ha with rfl | h2
      · exact hb
      · exact ih (by omega) a h2
    · rw [List.filter_cons, if_neg hb] at h
      simp only [List.length_cons] at h
      omega

theorem filter_take_full {p : Nat → Bool} {l : List Nat}
    (hf : (l.filter p).length = l.length) (k : Nat) :
    ((l.take k).filter p).length = (l.take k).length := by
  rw [List.filter_eq_self.mpr
    (fun a ha => filter_full_mem hf a ((List.take_subset k l) ha))]

theorem getD_take_nat {l : List Nat} {t d : Nat} (hd : d < t) :
    (l.take t).getD d 0 = l.getD d 0 := by
  rw [List.getD_eq_getElem?_getD, List.getD_eq_getElem?_getD,
    List.getElem?_take, if_pos hd]

/-- Round-2 stability for a block whose availability header is block-style
and whose item list requires no availability change (no items, or the month
absent so the filter removes nothing). -/
theorem patchBlock_round2_block_keep (L : List Line) (s e m : Nat) {ind0 nm : Line}
    {h : Nat} {ind rest com : Line}
    (hse : s < e) (hel : e ≤ L.length)
    (hstart : parseRecordStart (L.getD s []) = some (ind0, nm))
    (hint : ∀ j, s < j → j < e → parseRecordStart (L.getD j []) = none)
    (hbnd : e = L.length ∨ isRecordStart (L.getD e []) = true)
    (hprop : ∀ l ∈ L, properLFb l = true)
    (hfa : findAvailFrom L s e = some (h, ind, rest, com))
    (hin : (rest.contains '[' && rest.contains ']') = false)
    (hkeep : (scanItems L (ind ++ "  ".toList) (h + 1) e).2.1 = 0 ∨
      (((scanItems L (ind ++ "  ".toList) (h + 1) e).1.filter
          (fun n => n != m)).length =
        (scanItems L (ind ++ "  ".toList) (h + 1) e).1.length)) :
    ∃ M3, (patchBlock L s e m).1 = L.take s ++ M3 ++ L.drop e ∧
      (∀ l ∈ M3, properLFb l = true) ∧
      (∀ j, s < j → j < s + M3.length →
        parseRecordStart ((L.take s ++ M3 ++ L.drop e).getD j []) = none) ∧
      (L.take s ++ M3 ++ L.drop e).getD s [] = L.getD s [] ∧
      patchBlock (L.take s ++ M3 ++ L.drop e) s (s + M3.length) m =
        (L.take s ++ M3 ++ L.drop e, false) := by
  have hA : (L.take s).length = s := by rw [List.length_take]; omega
  have hmidlen : ((L.take e).drop s).length = e - s := mid_length L hel
  have hdecL : L = L.take s ++ (L.take e).drop s ++ L.drop e :=
    lines_decomp L (le_of_lt hse) hel
  have hS := drop_boundary L e hel hbnd
  have hspec := (findAvailGo_eq_some L s (e - s) h ind rest com).mp hfa
  have hparse := hspec.2.2.1
  have hbefore := hspec.2.2.2
  have hhs : s ≤ h := hspec.1
  have hhe : h < e := by have := hspec.2.1; omega
  have hhlen : h < L.length := by omega
  have hrowhp := hprop _ (getD_mem hhlen)
  have hnl : line_ending (L.getD h []) = ['\n'] := line_ending_proper hrowhp
  have hindws := parseAvailHdr_ind_spaces hparse
  obtain ⟨core, hcoreeq, hcorefree⟩ := properLFb_elim hrowhp
  obtain ⟨hindmem, hrestmem, hcommem⟩ := parseAvailHdr_mem_core hparse hcoreeq
  have hindnt : ∀ c ∈ ind, c ≠ '\n' ∧ c ≠ '\r' := fun c hc => hcorefree c (hindmem c hc)
  set iind := ind ++ "  ".toList with hiinddef
  have hiindws : ∀ x ∈ iind, isSpace x = true := by
    intro x hx
    rcases List.mem_append.mp hx with h2 | h2
    · exact hindws x h2
    · have hxs : x = ' ' := by simpa using h2
      subst hxs
      decide
  have hinv := scanItemsGo_inv L iind (e - (h + 1)) (h + 1)
  rw [show scanItemsGo L iind (h + 1) (e - (h + 1)) = scanItems L iind (h + 1) e
    from rfl] at hinv
  set sc := scanItems L iind (h + 1) e with hscdef
  obtain ⟨hk_le, hk_len, hvals1, hstop1, -, -⟩ := hinv
  have hscan : scanItems L iind (h + 1) e = (sc.1, sc.2.1, sc.2.2) := rfl
  have havail : availPhase L s e m =
      (L, e, false, some (h, ind, line_ending (L.getD h []))) := by
    rw [availPhase_block hfa hin hscan]
    rcases hkeep with hk0 | hfeq
    · rw [if_pos hk0]
    · by_cases hk0 : sc.2.1 = 0
      · rw [if_pos hk0]
      · rw [if_neg hk0, if_pos hfeq]
  have hprop1 : ∀ l ∈ L.take s ++ (L.take e).drop s ++ L.drop e,
      properLFb l = true := by
    rw [← hdecL]; exact hprop
  obtain ⟨M3, hsp, hM3prop, ⟨i2, sind2, hfind⟩, hmap⟩ :=
    sortPhase_stage2 (L.take s) ((L.take e).drop s) (L.drop e) s e
      (some (h, ind, line_ending (L.getD h []))) hA (le_of_lt hse)
      (by omega) hS hprop1
      (fun h2 ind2 nl2 hx => by
        simp only [Option.some.injEq, Prod.mk.injEq] at hx
        obtain ⟨he1, he2, he3⟩ := hx
        subst he1; subst he2; subst he3
        exact ⟨hindws, ⟨fun hc => (hindnt _ hc).1 rfl, fun hc => (hindnt _ hc).2 rfl⟩,
          hnl, hhs, by omega⟩)
      (fun hx => Option.noConfusion hx)
  simp only [← hdecL] at hsp hmap
  have hpb1 : (patchBlock L s e m).1 = L.take s ++ M3 ++ L.drop e := by
    rw [patchBlock_glue, havail]
    exact hsp
  have hrow2 : ∀ j, j ≤ h →
      (L.take s ++ M3 ++ L.drop e).getD j [] = L.getD j [] ∨
      (s ≤ j ∧ parseSort (L.getD j []) ≠ none ∧
        ∃ si, (∀ x ∈ si, isSpace x = true) ∧
        (L.take s ++ M3 ++ L.drop e).getD j [] = si ++ "sort: 100".toList ++ ['\n']) := by
    intro j hj
    rcases hmap with ⟨hlen3, hrow⟩ | ⟨p, hlen3, hps, hpe, hhdrp, -, hlow, -, -⟩
    · rcases hrow j with heqr | ⟨hj1, hj2, hjsort, si, hsiws, hrowj⟩
      · exact Or.inl heqr
      · exact Or.inr ⟨hj1, hjsort, si, hsiws, hrowj⟩
    · obtain ⟨hp1, -⟩ := hhdrp h ind (line_ending (L.getD h [])) rfl
      exact Or.inl (hlow j (by omega))
  have hrowhkeep : (L.take s ++ M3 ++ L.drop e).getD h [] = L.getD h [] := by
    rcases hrow2 h (le_refl h) with heqr | ⟨-, hjsort, -⟩
    · exact heqr
    · exact absurd (parseSort_of_availHdr hparse) hjsort
  have hrowskeep : (L.take s ++ M3 ++ L.drop e).getD s [] = L.getD s [] := by
    rcases hrow2 s (by omega) with heqr | ⟨-, hjsort, -⟩
    · exact heqr
    · exact absurd (parseSort_of_recordStart hstart) hjsort
  have hlen2 : e ≤ s + M3.length := by
    rcases hmap with ⟨hlen3, -⟩ | ⟨p, hlen3, -⟩ <;> omega
  refine ⟨M3, hpb1, hM3prop, ?_, hrowskeep, ?_⟩
  · intro j h1 h2
    rcases hmap with ⟨hlen3, hrow⟩ | ⟨p, hlen3, hps, hpe, -, -, hlow, ⟨si, hsiws, hsirow⟩,
      hhigh⟩
    · rcases hrow j with heqr | ⟨-, -, -, si, hsiws, hrowj⟩
      · rw [heqr]
        exact hint j h1 (by omega)
      · rw [hrowj]
        exact (sortline_shape_facts hsiws rfl).2.2.1
    · rcases Nat.lt_trichotomy j p with hj | hj | hj
      · rw [hlow j hj]
        exact hint j h1 (by omega)
      · subst hj
        rw [hsirow]
        exact (sortline_shape_facts hsiws rfl).2.2.1
      · rw [hhigh j hj]
        exact hint (j - 1) (by omega) (by omega)
  · have hfa2 : findAvailFrom (L.take s ++ M3 ++ L.drop e) s (s + M3.length) =
        some (h, ind, rest, com) := by
      refine (findAvailGo_eq_some _ s (s + M3.length - s) h ind rest com).mpr ?_
      refine ⟨hhs, by omega, ?_, ?_⟩
      · rw [hrowhkeep]
        exact hparse
      · intro j hj1 hj2
        rcases hrow2 j (by omega) with heqr | ⟨-, -, si, hsiws, hrowj⟩
        · rw [heqr]
          exact hbefore j hj1 (by omega)
        · rw [hrowj]
          exact (sortline_shape_facts hsiws rfl).2.1
    rcases hmap with ⟨hlen3, hrow⟩ | ⟨p, hlen3, hps, hpe, hhdrp, -, hlow, ⟨si, hsiws, hsirow⟩,
      hhigh⟩
    · -- no sort-line insertion: the round-2 scan sees the same items
      have he2 : s + M3.length = e := by omega
      have hvals2 : ∀ d, d < sc.1.length →
          parseItem iind ((L.take s ++ M3 ++ L.drop e).getD (h + 1 + d) []) =
            some (sc.1.getD d 0) := by
        intro d hd
        have hdk : d < sc.2.1 := by omega
        rcases hrow (h + 1 + d) with heqr | ⟨-, -, hjsort, -⟩
        · rw [heqr]
          exact hvals1 d hdk
        · exact absurd (parseSort_of_parseItem hiindws (hvals1 d hdk)).1 hjsort
      have hstop2 : h + 1 + sc.1.length = s + M3.length ∨
          parseItem iind ((L.take s ++ M3 ++ L.drop e).getD (h + 1 + sc.1.length) []) =
            none := by
        by_cases hke : h + 1 + sc.2.1 = e
        · left
          omega
        · right
          have hstopP : parseItem iind (L.getD (h + 1 + sc.2.1) []) = none := by
            rcases hstop1 with hh | hh
            · exact absurd hh (by omega)
            · exact hh
          rw [show h + 1 + sc.1.length = h + 1 + sc.2.1 from by omega]
          rcases hrow (h + 1 + sc.2.1) with heqr | ⟨-, -, -, si, hsiws, hrowj⟩
          · rw [heqr]
            exact hstopP
          · rw [hrowj]
            exact (sortline_shape_facts hsiws rfl).2.2.2 iind
      have hscan2 := scanItems_spec (L.take s ++ M3 ++ L.drop e) iind (h + 1)
        (s + M3.length) sc.1 (by omega) hvals2 hstop2
      have havail2 : availPhase (L.take s ++ M3 ++ L.drop e) s (s + M3.length) m =
          (L.take s ++ M3 ++ L.drop e, s + M3.length, false,
            some (h, ind,
              line_ending ((L.take s ++ M3 ++ L.drop e).getD h []))) := by
        rw [availPhase_block hfa2 hin hscan2]
        rcases hkeep with hk0 | hfeq
        · rw [if_pos (by omega)]
        · by_cases hk0 : sc.1.length = 0
          · rw [if_pos hk0]
          · rw [if_neg hk0, if_pos hfeq]
      rw [patchBlock_glue, havail2,
        sortPhase_of_found100 _ s (s + M3.length) _ i2 sind2 hfind]
      rfl
    · -- a `sort: 100` line was inserted at `p`; the round-2 scan stops there
      obtain ⟨hp1, -⟩ := hhdrp h ind (line_ending (L.getD h [])) rfl
      have he2 : s + M3.length = e + 1 := by omega
      set k2 := min sc.2.1 (p - (h + 1)) with hk2def
      have hk2a : k2 ≤ sc.2.1 := Nat.min_le_left _ _
      have hk2b : k2 ≤ p - (h + 1) := Nat.min_le_right _ _
      have hvals2 : ∀ d, d < (sc.1.take k2).length →
          parseItem iind ((L.take s ++ M3 ++ L.drop e).getD (h + 1 + d) []) =
            some ((sc.1.take k2).getD d 0) := by
        intro d hd
        have hdlt : d < k2 := by
          rw [List.length_take] at hd
          omega
        rw [hlow (h + 1 + d) (by omega), getD_take_nat hdlt]
        exact hvals1 d (by omega)
      have htklen : (sc.1.take k2).length = k2 := by
        rw [List.length_take]
        omega
      have hstop2 : h + 1 + (sc.1.take k2).length = s + M3.length ∨
          parseItem iind
            ((L.take s ++ M3 ++ L.drop e).getD (h + 1 + (sc.1.take k2).length) []) =
            none := by
      -- the stop line is either the inserted sort row or the original stop
        right
        rw [htklen]
        by_cases hpk : p ≤ h + 1 + sc.2.1
        · have hpk2 : h + 1 + k2 = p := by omega
          rw [hpk2, hsirow]
          exact (sortline_shape_facts hsiws rfl).2.2.2 iind
        · have hk2e : k2 = sc.2.1 := by omega
          have hklt : h + 1 + sc.2.1 < p := by omega
          have hstopP : parseItem iind (L.getD (h + 1 + sc.2.1) []) = none := by
            rcases hstop1 with hh | hh
            · exact absurd hh (by omega)
            · exact hh
          rw [hk2e, hlow (h + 1 + sc.2.1) hklt]
          exact hstopP
      have hscan2 := scanItems_spec (L.take s ++ M3 ++ L.drop e) iind (h + 1)
        (s + M3.length) (sc.1.take k2) (by rw [htklen]; omega) hvals2 hstop2
      have havail2 : availPhase (L.take s ++ M3 ++ L.drop e) s (s + M3.length) m =
          (L.take s ++ M3 ++ L.drop e, s + M3.length, false,
            some (h, ind,
              line_ending ((L.take s ++ M3 ++ L.drop e).getD h []))) := by
        rw [availPhase_block hfa2 hin hscan2]
        rcases hkeep with hk0 | hfeq
        · rw [if_pos (by rw [htklen]; omega)]
        · by_cases hk0 : (sc.1.take k2).length = 0
          · rw [if_pos hk0]
          · rw [if_neg hk0, if_pos (filter_take_full hfeq k2)]
      rw [patchBlock_glue, havail2,
        sortPhase_of_found100 _ s (s + M3.length) _ i2 sind2 hfind]
      rfl

end AutoClose

namespace AutoClose

/-- Round-2 stability for a block-style availability list that the patcher
collapses to `availability: []` (removing the month leaves no items). -/
theorem patchBlock_round2_block_collapse (L : List Line) (s e m : Nat) {ind0 nm : Line}
    {h : Nat} {ind rest com : Line}
    (hse : s < e) (hel : e ≤ L.length)
    (hstart : parseRecordStart (L.getD s []) = some (ind0, nm))
    (hint : ∀ j, s < j → j < e → parseRecordStart (L.getD j []) = none)
    (hbnd : e = L.length ∨ isRecordStart (L.getD e []) = true)
    (hprop : ∀ l ∈ L, properLFb l = true)
    (hfa : findAvailFrom L s e = some (h, ind, rest, com))
    (hin : (rest.contains '[' && rest.contains ']') = false)
    (hk0 : (scanItems L (ind ++ "  ".toList) (h + 1) e).2.1 ≠ 0)
    (hemp : ((scanItems L (ind ++ "  ".toList) (h + 1) e).1.filter
        (fun n => n != m)).isEmpty = true) :
    ∃ M3, (patchBlock L s e m).1 = L.take s ++ M3 ++ L.drop e ∧
      (∀ l ∈ M3, properLFb l = true) ∧
      (∀ j, s < j → j < s + M3.length →
        parseRecordStart ((L.take s ++ M3 ++ L.drop e).getD j []) = none) ∧
      (L.take s ++ M3 ++ L.drop e).getD s [] = L.getD s [] ∧
      patchBlock (L.take s ++ M3 ++ L.drop e) s (s + M3.length) m =
        (L.take s ++ M3 ++ L.drop e, false) := by
  have hA : (L.take s).length = s := by rw [List.length_take]; omega
  have hmidlen : ((L.take e).drop s).length = e - s := mid_length L hel
  have hdecL : L = L.take s ++ (L.take e).drop s ++ L.drop e :=
    lines_decomp L (le_of_lt hse) hel
  have hS := drop_boundary L e hel hbnd
  have hspec := (findAvailGo_eq_some L s (e - s) h ind rest com).mp hfa
  have hparse := hspec.2.2.1
  have hbefore := hspec.2.2.2
  have hhs : s ≤ h := hspec.1
  have hhe : h < e := by have := hspec.2.1; omega
  have hhlen : h < L.length := by omega
  have hrowhp := hprop _ (getD_mem hhlen)
  have hnl : line_ending (L.getD h []) = ['\n'] := line_ending_proper hrowhp
  have hindws := parseAvailHdr_ind_spaces hparse
  obtain ⟨core, hcoreeq, hcorefree⟩ := properLFb_elim hrowhp
  obtain ⟨hindmem, hrestmem, hcommem⟩ := parseAvailHdr_mem_core hparse hcoreeq
  have hindnt : ∀ c ∈ ind, c ≠ '\n' ∧ c ≠ '\r' := fun c hc => hcorefree c (hindmem c hc)
  have hcomnt : ∀ c ∈ com, c ≠ '\n' ∧ c ≠ '\r' := fun c hc => hcorefree c (hcommem c hc)
  have hcomshape : ComShape com := parseAvailHdr_comShape hparse
  set iind := ind ++ "  ".toList with hiinddef
  have hinv := scanItemsGo_inv L iind (e - (h + 1)) (h + 1)
  rw [show scanItemsGo L iind (h + 1) (e - (h + 1)) = scanItems L iind (h + 1) e
    from rfl] at hinv
  set sc := scanItems L iind (h + 1) e with hscdef
  obtain ⟨hk_le, hk_len, hvals1, hstop1, -, -⟩ := hinv
  set k := sc.2.1 with hkdef
  have hscan : scanItems L iind (h + 1) e = (sc.1, k, sc.2.2) := rfl
  have hk1 : 1 ≤ k := by omega
  have hhek : h + 1 + k ≤ e := by omega
  have hfnil : sc.1.filter (fun n => n != m) = [] := List.isEmpty_iff.mp hemp
  have hflen : ¬ ((sc.1.filter (fun n => n != m)).length = sc.1.length) := by
    rw [hfnil]
    simp only [List.length_nil]
    omega
  set x := ind ++ "availability: []".toList ++ com ++ line_ending (L.getD h [])
    with hxdef
  have havail : availPhase L s e m =
      ((L.set h x).take (h + 1) ++ (L.set h x).drop (h + 1 + k), e - k, true,
        some (h, ind, line_ending (L.getD h []))) := by
    rw [availPhase_block hfa hin hscan, if_neg hk0, if_neg hflen, if_pos hemp]
  obtain ⟨hcparse, hcproper, hcsort, hcrec, hcle, hcbr⟩ :=
    canonical_avail_facts ind com ([] : List Nat) hindws hindnt hcomnt hcomshape
  have hxeq : x = ind ++ "availability: ".toList ++ renderNums ([] : List Nat) ++
      com ++ ['\n'] := by
    rw [hxdef, hnl, show ("availability: []".toList : Line) =
      "availability: ".toList ++ renderNums ([] : List Nat) from by decide]
    simp [List.append_assoc]
  rw [← hxeq] at hcparse hcproper hcsort hcrec hcle
  have hdec1 : L.set h x =
      L.take s ++ ((L.take e).drop s).set (h - s) x ++ L.drop e := by
    conv_lhs => rw [hdecL]
    rw [List.append_assoc,
      set_append_at _ _ h (h - s) x (by rw [List.length_take]; omega),
      set_append_left _ (by rw [hmidlen]; omega),
      List.append_assoc]
  set M1 := ((L.take e).drop s).set (h - s) x with hM1def
  have hM1len : M1.length = e - s := by rw [hM1def, List.length_set, hmidlen]
  have ht : (L.set h x).take (h + 1) = L.take s ++ M1.take (h + 1 - s) := by
    conv_lhs => rw [hdec1, List.append_assoc]
    rw [take_append_at _ _ (h + 1) (h + 1 - s) (by rw [List.length_take]; omega),
      List.take_append_of_le_length (by rw [hM1len]; omega)]
  have hd2 : (L.set h x).drop (h + 1 + k) =
      M1.drop (h + 1 + k - s) ++ L.drop e := by
    conv_lhs => rw [hdec1, List.append_assoc]
    rw [drop_append_at _ _ (h + 1 + k) (h + 1 + k - s)
        (by rw [List.length_take]; omega),
      List.drop_append_of_le_length (by rw [hM1len]; omega)]
  set M2 := M1.take (h + 1 - s) ++ M1.drop (h + 1 + k - s) with hM2def
  have hM2len : M2.length = e - s - k := by
    rw [hM2def]
    simp only [List.length_append, List.length_take, List.length_drop, hM1len]
    omega
  have hdecL1 : (L.set h x).take (h + 1) ++ (L.set h x).drop (h + 1 + k) =
      L.take s ++ M2 ++ L.drop e := by
    rw [ht, hd2, hM2def]
    simp [List.append_assoc]
  have hrowlo : ∀ j, j < h →
      (L.take s ++ M2 ++ L.drop e).getD j [] = L.getD j [] := by
    intro j hj
    by_cases hjs : j < s
    · rw [getD_append_left (show j < (L.take s ++ M2).length from by
          rw [List.length_append, List.length_take]; omega),
        getD_append_left (show j < (L.take s).length from by
          rw [List.length_take]; omega),
        getD_take hjs]
    · push_neg at hjs
      rw [getD_append_left (show j < (L.take s ++ M2).length from by
          rw [List.length_append, List.length_take, hM2len]; omega),
        getD_append_at (L.take s) M2 j (j - s) (by rw [List.length_take]; omega),
        hM2def,
        getD_append_left (show j - s < (M1.take (h + 1 - s)).length from by
          rw [List.length_take, hM1len]; omega),
        getD_take (show j - s < h + 1 - s from by omega),
        hM1def,
        getD_set_ne _ x (show h - s ≠ j - s from by omega),
        getD_drop,
        show s + (j - s) = j from by omega,
        getD_take (show j < e from by omega)]
  have hrowhx : (L.take s ++ M2 ++ L.drop e).getD h [] = x := by
    rw [getD_append_left (show h < (L.take s ++ M2).length from by
        rw [List.length_append, List.length_take, hM2len]; omega),
      getD_append_at (L.take s) M2 h (h - s) (by rw [List.length_take]; omega),
      hM2def,
      getD_append_left (show h - s < (M1.take (h + 1 - s)).length from by
        rw [List.length_take, hM1len]; omega),
      getD_take (show h - s < h + 1 - s from by omega),
      hM1def,
      getD_set_self _ x (show h - s < ((L.take e).drop s).length from by
        rw [hmidlen]; omega)]
  have hrowhi : ∀ d, h + 1 + d < s + M2.length →
      (L.take s ++ M2 ++ L.drop e).getD (h + 1 + d) [] = L.getD (h + 1 + k + d) [] := by
    intro d hd
    rw [hM2len] at hd
    rw [getD_append_left (show h + 1 + d < (L.take s ++ M2).length from by
        rw [List.length_append, List.length_take, hM2len]; omega),
      getD_append_at (L.take s) M2 (h + 1 + d) (h + 1 + d - s)
        (by rw [List.length_take]; omega),
      hM2def,
      getD_append_at (M1.take (h + 1 - s)) (M1.drop (h + 1 + k - s)) (h + 1 + d - s) d
        (by rw [List.length_take, hM1len]; omega),
      getD_drop,
      hM1def,
      getD_set_ne _ x (show h - s ≠ h + 1 + k - s + d from by omega),
      getD_drop,
      show s + (h + 1 + k - s + d) = h + 1 + k + d from by omega,
      getD_take (show h + 1 + k + d < e from by omega)]
  have hprop1 : ∀ l ∈ L.take s ++ M2 ++ L.drop e, properLFb l = true := by
    intro l hl
    rcases List.mem_append.mp hl with hl2 | hl2
    · rcases List.mem_append.mp hl2 with hl3 | hl3
      · exact hprop l ((List.take_sublist s L).subset hl3)
      · rw [hM2def] at hl3
        have hl4 : l ∈ M1 := by
          rcases List.mem_append.mp hl3 with h5 | h5
          · exact (List.take_sublist _ M1).subset h5
          · exact (List.drop_sublist _ M1).subset h5
        rw [hM1def] at hl4
        rcases List.mem_or_eq_of_mem_set hl4 with h5 | rfl
        · exact hprop l ((List.take_sublist e L).subset ((List.drop_sublist s _).subset h5))
        · exact hcproper
    · exact hprop l ((List.drop_sublist e L).subset hl2)
  have hsne : h ≠ s := by
    intro heqq
    rw [heqq, parseAvailHdr_of_recordStart hstart] at hparse
    exact Option.noConfusion hparse
  obtain ⟨M3, hsp, hM3prop, ⟨i2, sind2, hfind⟩, hmap⟩ :=
    sortPhase_stage2 (L.take s) M2 (L.drop e) s (e - k)
      (some (h, ind, line_ending (L.getD h []))) hA (by omega)
      (by rw [hM2len]; omega) hS hprop1
      (fun h2 ind2 nl2 hx => by
        simp only [Option.some.injEq, Prod.mk.injEq] at hx
        obtain ⟨he1, he2, he3⟩ := hx
        subst he1; subst he2; subst he3
        exact ⟨hindws, ⟨fun hc => (hindnt _ hc).1 rfl, fun hc => (hindnt _ hc).2 rfl⟩,
          hnl, hhs, by omega⟩)
      (fun hx => Option.noConfusion hx)
  have hpb1 : (patchBlock L s e m).1 = L.take s ++ M3 ++ L.drop e := by
    rw [patchBlock_glue, havail]
    rw [hdecL1]
    exact hsp
  have hrow2 : ∀ j, j ≤ h →
      ((L.take s ++ M3 ++ L.drop e).getD j [] =
        (L.take s ++ M2 ++ L.drop e).getD j [] ∨
      (s ≤ j ∧ parseSort ((L.take s ++ M2 ++ L.drop e).getD j []) ≠ none ∧
        ∃ si, (∀ x2 ∈ si, isSpace x2 = true) ∧
        (L.take s ++ M3 ++ L.drop e).getD j [] = si ++ "sort: 100".toList ++ ['\n'])) := by
    intro j hj
    rcases hmap with ⟨hlen3, hrow⟩ | ⟨p, hlen3, hps, hpe, hhdrp, -, hlow, -, -⟩
    · rcases hrow j with heqr | ⟨hj1, hj2, hjsort, si, hsiws, hrowj⟩
      · exact Or.inl heqr
      · exact Or.inr ⟨hj1, hjsort, si, hsiws, hrowj⟩
    · obtain ⟨hp1, -⟩ := hhdrp h ind (line_ending (L.getD h [])) rfl
      exact Or.inl (hlow j (by omega))
  have hrowhkeep : (L.take s ++ M3 ++ L.drop e).getD h [] = x := by
    rcases hrow2 h (le_refl h) with heqr | ⟨-, hjsort, -⟩
    · rw [heqr]
      exact hrowhx
    · rw [hrowhx] at hjsort
      exact absurd hcsort hjsort
  have hrowskeep : (L.take s ++ M3 ++ L.drop e).getD s [] = L.getD s [] := by
    rcases hrow2 s (by omega) with heqr | ⟨-, hjsort, -⟩
    · rw [heqr]
      exact hrowlo s (by omega)
    · rw [hrowlo s (by omega), parseSort_of_recordStart hstart] at hjsort
      exact absurd rfl hjsort
  have hrecLL1 : ∀ j2, s < j2 → j2 < s + M2.length →
      parseRecordStart ((L.take s ++ M2 ++ L.drop e).getD j2 []) = none := by
    intro j2 hj1 hj2
    rcases Nat.lt_trichotomy j2 h with hjh | hjh | hjh
    · rw [hrowlo j2 hjh]
      exact hint j2 hj1 (by omega)
    · subst hjh
      rw [hrowhx]
      exact hcrec
    · rw [show j2 = h + 1 + (j2 - h - 1) from by omega] at hj2 ⊢
      rw [hrowhi (j2 - h - 1) hj2]
      rw [hM2len] at hj2
      exact hint (h + 1 + k + (j2 - h - 1)) (by omega) (by omega)
  refine ⟨M3, hpb1, hM3prop, ?_, hrowskeep, ?_⟩
  · intro j h1 h2
    rcases hmap with ⟨hlen3, hrow⟩ | ⟨p, hlen3, hps, hpe, -, -, hlow, ⟨si, hsiws, hsirow⟩,
      hhigh⟩
    · rcases hrow j with heqr | ⟨-, -, -, si, hsiws, hrowj⟩
      · rw [heqr]
        exact hrecLL1 j h1 (by omega)
      · rw [hrowj]
        exact (sortline_shape_facts hsiws rfl).2.2.1
    · rcases Nat.lt_trichotomy j p with hj | hj | hj
      · rw [hlow j hj]
        exact hrecLL1 j h1 (by omega)
      · subst hj
        rw [hsirow]
        exact (sortline_shape_facts hsiws rfl).2.2.1
      · rw [hhigh j hj]
        exact hrecLL1 (j - 1) (by omega) (by omega)
  · have hfa2 : findAvailFrom (L.take s ++ M3 ++ L.drop e) s (s + M3.length) =
        some (h, ind, renderNums ([] : List Nat), com) := by
      refine (findAvailGo_eq_some _ s (s + M3.length - s) h ind _ com).mpr ?_
      have hlen2 : e - k ≤ s + M3.length := by
        rcases hmap with ⟨hlen3, -⟩ | ⟨p, hlen3, -⟩ <;> omega
      refine ⟨hhs, by omega, ?_, ?_⟩
      · rw [hrowhkeep]
        exact hcparse
      · intro j hj1 hj2
        rcases hrow2 j (by omega) with heqr | ⟨-, -, si, hsiws, hrowj⟩
        · rw [heqr, hrowlo j (by omega)]
          exact hbefore j hj1 (by omega)
        · rw [hrowj]
          exact (sortline_shape_facts hsiws rfl).2.1
    have hrw2 : renderNums ((extractNums (renderNums ([] : List Nat))).filter
        (fun n => n != m)) = renderNums ([] : List Nat) := by
      rw [extractNums_renderNums]
      rfl
    have heq2 : (L.take s ++ M3 ++ L.drop e).getD h [] =
        ind ++ "availability: ".toList ++
        renderNums ((extractNums (renderNums ([] : List Nat))).filter
          (fun n => n != m)) ++ com ++
        line_ending ((L.take s ++ M3 ++ L.drop e).getD h []) := by
      rw [hrowhkeep, hrw2, hcle]
      exact hxeq
    have havail2 : availPhase (L.take s ++ M3 ++ L.drop e) s (s + M3.length) m =
        (L.take s ++ M3 ++ L.drop e, s + M3.length, false,
          some (h, ind, line_ending ((L.take s ++ M3 ++ L.drop e).getD h []))) := by
      rw [availPhase_inline hfa2 hcbr, if_pos heq2]
    rw [patchBlock_glue, havail2,
      sortPhase_of_found100 _ s (s + M3.length) _ i2 sind2 hfind]
    rfl

end AutoClose

namespace AutoClose

/-- Round-2 stability for a block-style availability list from which the
month is removed with items remaining: the item lines are deleted and the
remaining values reinserted, and a second run removes nothing further. -/
theorem patchBlock_round2_block_reinsert (L : List Line) (s e m : Nat) {ind0 nm : Line}
    {h : Nat} {ind rest com : Line}
    (hse : s < e) (hel : e ≤ L.length)
    (hstart : parseRecordStart (L.getD s []) = some (ind0, nm))
    (hint : ∀ j, s < j → j < e → parseRecordStart (L.getD j []) = none)
    (hbnd : e = L.length ∨ isRecordStart (L.getD e []) = true)
    (hprop : ∀ l ∈ L, properLFb l = true)
    (hfa : findAvailFrom L s e = some (h, ind, rest, com))
    (hin : (rest.contains '[' && rest.contains ']') = false)
    (hk0 : (scanItems L (ind ++ "  ".toList) (h + 1) e).2.1 ≠ 0)
    (hchg : ¬ (((scanItems L (ind ++ "  ".toList) (h + 1) e).1.filter
        (fun n => n != m)).length =
      (scanItems L (ind ++ "  ".toList) (h + 1) e).1.length))
    (hnemp : ((scanItems L (ind ++ "  ".toList) (h + 1) e).1.filter
        (fun n => n != m)).isEmpty = false) :
    ∃ M3, (patchBlock L s e m).1 = L.take s ++ M3 ++ L.drop e ∧
      (∀ l ∈ M3, properLFb l = true) ∧
      (∀ j, s < j → j < s + M3.length →
        parseRecordStart ((L.take s ++ M3 ++ L.drop e).getD j []) = none) ∧
      (L.take s ++ M3 ++ L.drop e).getD s [] = L.getD s [] ∧
      patchBlock (L.take s ++ M3 ++ L.drop e) s (s + M3.length) m =
        (L.take s ++ M3 ++ L.drop e, false) := by
  have hA : (L.take s).length = s := by rw [List.length_take]; omega
  have hmidlen : ((L.take e).drop s).length = e - s := mid_length L hel
  have hdecL : L = L.take s ++ (L.take e).drop s ++ L.drop e :=
    lines_decomp L (le_of_lt hse) hel
  have hS := drop_boundary L e hel hbnd
  have hspec := (findAvailGo_eq_some L s (e - s) h ind rest com).mp hfa
  have hparse := hspec.2.2.1
  have hbefore := hspec.2.2.2
  have hhs : s ≤ h := hspec.1
  have hhe : h < e := by have := hspec.2.1; omega
  have hhlen : h < L.length := by omega
  have hrowhp := hprop _ (getD_mem hhlen)
  have hnl : line_ending (L.getD h []) = ['\n'] := line_ending_proper hrowhp
  have hindws := parseAvailHdr_ind_spaces hparse
  obtain ⟨core, hcoreeq, hcorefree⟩ := properLFb_elim hrowhp
  obtain ⟨hindmem, hrestmem, hcommem⟩ := parseAvailHdr_mem_core hparse hcoreeq
  have hindnt : ∀ c ∈ ind, c ≠ '\n' ∧ c ≠ '\r' := fun c hc => hcorefree c (hindmem c hc)
  set iind := ind ++ "  ".toList with hiinddef
  have hiindws : ∀ x ∈ iind, isSpace x = true := by
    intro x hx
    rcases List.mem_append.mp hx with h2 | h2
    · exact hindws x h2
    · have hxs : x = ' ' := by simpa using h2
      subst hxs
      decide
  have hiindnt : ∀ c ∈ iind, c ≠ '\n' ∧ c ≠ '\r' :=
    noTerm_append hindnt (by decide)
  have hinv := scanItemsGo_inv L iind (e - (h + 1)) (h + 1)
  rw [show scanItemsGo L iind (h + 1) (e - (h + 1)) = scanItems L iind (h + 1) e
    from rfl] at hinv
  set sc := scanItems L iind (h + 1) e with hscdef
  obtain ⟨hk_le, hk_len, hvals1, hstop1, hinlf, -⟩ := hinv
  set k := sc.2.1 with hkdef
  set inl := sc.2.2 with hinldef
  have hscan : scanItems L iind (h + 1) e = (sc.1, k, inl) := rfl
  have hk1 : 1 ≤ k := by omega
  have hhek : h + 1 + k ≤ e := by omega
  have hinl : inl = ['\n'] := by
    rw [hinlf hk0]
    exact line_ending_proper (hprop _
      (getD_mem (show h + 1 + k - 1 < L.length from by omega)))
  have hinlws : ∀ x ∈ inl, isSpace x = true := by
    rw [hinl]
    decide
  set nnums := sc.1.filter (fun n => n != m) with hnndef
  set items := nnums.map (fun n => iind ++ "- ".toList ++ natDigits n ++ inl)
    with hitemsdef
  have hitemslen : items.length = nnums.length := by
    rw [hitemsdef, List.length_map]
  have hnlen0 : nnums.length ≠ 0 := by
    intro h0
    rw [List.length_eq_zero] at h0
    rw [h0] at hnemp
    simp at hnemp
  have hnk : nnums.length ≤ k := by
    rw [hnndef, hk_len]
    exact List.length_filter_le _ _
  have havail : availPhase L s e m =
      (L.take (h + 1) ++ items ++ L.drop (h + 1 + k), e - k, true,
        some (h, ind, line_ending (L.getD h []))) := by
    rw [availPhase_block hfa hin hscan, if_neg hk0, if_neg hchg,
      if_neg (by simp [hnemp])]
  have hitem_get : ∀ d, d < nnums.length → items.getD d [] =
      iind ++ "- ".toList ++ natDigits (nnums.getD d 0) ++ inl := by
    intro d hd
    rw [hitemsdef, List.getD_eq_getElem?_getD, List.getElem?_map,
      List.getElem?_eq_getElem hd, List.getD_eq_getElem?_getD,
      List.getElem?_eq_getElem hd]
    rfl
  have hitemparse : ∀ nd, parseItem iind (iind ++ "- ".toList ++ natDigits nd ++ inl) =
      some nd := fun nd => itemLine_parseItem iind nd inl hinlws
  have hitemprop : ∀ nd, properLFb (iind ++ "- ".toList ++ natDigits nd ++ inl) =
      true := by
    intro nd
    rw [hinl, show iind ++ "- ".toList ++ natDigits nd ++ ['\n'] =
      (iind ++ "- ".toList ++ natDigits nd) ++ ['\n'] from by simp]
    exact properLFb_intro
      (noTerm_append (noTerm_append hiindnt (by decide)) (noTerm_natDigits nd))
  have hitemrec : ∀ d, d < nnums.length →
      parseRecordStart (items.getD d []) = none := by
    intro d hd
    cases hp : parseRecordStart (items.getD d []) with
    | none => rfl
    | some v =>
      have h1 := stripItemTest_of_recordStart hp
      rw [hitem_get d hd] at h1
      have h2 := itemLine_stripItemTest iind (nnums.getD d 0) inl hiindws hinlws
      rw [h1] at h2
      exact Bool.noConfusion h2
  have ht : L.take (h + 1) = L.take s ++ ((L.take e).drop s).take (h + 1 - s) := by
    conv_lhs => rw [hdecL, List.append_assoc]
    rw [take_append_at _ _ (h + 1) (h + 1 - s) (by rw [List.length_take]; omega),
      List.take_append_of_le_length (by rw [hmidlen]; omega)]
  have hd2 : L.drop (h + 1 + k) =
      ((L.take e).drop s).drop (h + 1 + k - s) ++ L.drop e := by
    conv_lhs => rw [hdecL, List.append_assoc]
    rw [drop_append_at _ _ (h + 1 + k) (h + 1 + k - s)
        (by rw [List.length_take]; omega),
      List.drop_append_of_le_length (by rw [hmidlen]; omega)]
  set M2 := ((L.take e).drop s).take (h + 1 - s) ++ items ++
    ((L.take e).drop s).drop (h + 1 + k - s) with hM2def
  have hM2len : M2.length = e - s - k + nnums.length := by
    rw [hM2def]
    simp only [List.length_append, List.length_take, List.length_drop, hmidlen,
      hitemslen]
    omega
  have hdecL1 : L.take (h + 1) ++ items ++ L.drop (h + 1 + k) =
      L.take s ++ M2 ++ L.drop e := by
    rw [ht, hd2, hM2def]
    simp [List.append_assoc]
  have hrowlo : ∀ j, j < h + 1 →
      (L.take s ++ M2 ++ L.drop e).getD j [] = L.getD j [] := by
    intro j hj
    by_cases hjs : j < s
    · rw [getD_append_left (show j < (L.take s ++ M2).length from by
          rw [List.length_append, List.length_take]; omega),
        getD_append_left (show j < (L.take s).length from by
          rw [List.length_take]; omega),
        getD_take hjs]
    · push_neg at hjs
      rw [getD_append_left (show j < (L.take s ++ M2).length from by
          rw [List.length_append, List.length_take, hM2len]; omega),
        getD_append_at (L.take s) M2 j (j - s) (by rw [List.length_take]; omega),
        hM2def,
        getD_append_left (show j - s <
            ((((L.take e).drop s).take (h + 1 - s)) ++ items).length from by
          rw [List.length_append, List.length_take, hmidlen]; omega),
        getD_append_left (show j - s <
            (((L.take e).drop s).take (h + 1 - s)).length from by
          rw [List.length_take, hmidlen]; omega),
        getD_take (show j - s < h + 1 - s from by omega),
        getD_drop,
        show s + (j - s) = j from by omega,
        getD_take (show j < e from by omega)]
  have hrowit : ∀ d, d < nnums.length →
      (L.take s ++ M2 ++ L.drop e).getD (h + 1 + d) [] = items.getD d [] := by
    intro d hd
    rw [getD_append_left (show h + 1 + d < (L.take s ++ M2).length from by
        rw [List.length_append, List.length_take, hM2len]; omega),
      getD_append_at (L.take s) M2 (h + 1 + d) (h + 1 + d - s)
        (by rw [List.length_take]; omega),
      hM2def,
      getD_append_left (show h + 1 + d - s <
          ((((L.take e).drop s).take (h + 1 - s)) ++ items).length from by
        rw [List.length_append, List.length_take, hmidlen, hitemslen]; omega),
      getD_append_at (((L.take e).drop s).take (h + 1 - s)) items (h + 1 + d - s) d
        (by rw [List.length_take, hmidlen]; omega)]
  have hrowhi : ∀ d, h + 1 + nnums.length + d < s + M2.length →
      (L.take s ++ M2 ++ L.drop e).getD (h + 1 + nnums.length + d) [] =
        L.getD (h + 1 + k + d) [] := by
    intro d hd
    rw [hM2len] at hd
    rw [getD_append_left (show h + 1 + nnums.length + d < (L.take s ++ M2).length
          from by rw [List.length_append, List.length_take, hM2len]; omega),
      getD_append_at (L.take s) M2 (h + 1 + nnums.length + d)
        (h + 1 + nnums.length + d - s) (by rw [List.length_take]; omega),
      hM2def,
      getD_append_at ((((L.take e).drop s).take (h + 1 - s)) ++ items)
        (((L.take e).drop s).drop (h + 1 + k - s)) (h + 1 + nnums.length + d - s) d
        (by rw [List.length_append, List.length_take, hmidlen, hitemslen]; omega),
      getD_drop,
      getD_drop,
      show s + (h + 1 + k - s + d) = h + 1 + k + d from by omega,
      getD_take (show h + 1 + k + d < e from by omega)]
  have hprop1 : ∀ l ∈ L.take s ++ M2 ++ L.drop e, properLFb l = true := by
    intro l hl
    rcases List.mem_append.mp hl with hl2 | hl2
    · rcases List.mem_append.mp hl2 with hl3 | hl3
      · exact hprop l ((List.take_sublist s L).subset hl3)
      · rw [hM2def] at hl3
        rcases List.mem_append.mp hl3 with hl4 | hl4
        · rcases List.mem_append.mp hl4 with hl5 | hl5
          · exact hprop l ((List.take_sublist e L).subset
              ((List.drop_sublist s _).subset ((List.take_sublist _ _).subset hl5)))
          · obtain ⟨nd, hnd, rfl⟩ := List.mem_map.mp hl5
            exact hitemprop nd
        · exact hprop l ((List.take_sublist e L).subset
            ((List.drop_sublist s _).subset ((List.drop_sublist _ _).subset hl4)))
    · exact hprop l ((List.drop_sublist e L).subset hl2)
  obtain ⟨M3, hsp, hM3prop, ⟨i2, sind2, hfind⟩, hmap⟩ :=
    sortPhase_stage2 (L.take s) M2 (L.drop e) s (e - k)
      (some (h, ind, line_ending (L.getD h []))) hA (by omega)
      (by rw [hM2len]; omega) hS hprop1
      (fun h2 ind2 nl2 hx => by
        simp only [Option.some.injEq, Prod.mk.injEq] at hx
        obtain ⟨he1, he2, he3⟩ := hx
        subst he1; subst he2; subst he3
        exact ⟨hindws, ⟨fun hc => (hindnt _ hc).1 rfl, fun hc => (hindnt _ hc).2 rfl⟩,
          hnl, hhs, by omega⟩)
      (fun hx => Option.noConfusion hx)
  have hpb1 : (patchBlock L s e m).1 = L.take s ++ M3 ++ L.drop e := by
    rw [patchBlock_glue, havail]
    rw [hdecL1]
    exact hsp
  have hrow2 : ∀ j, j ≤ h →
      ((L.take s ++ M3 ++ L.drop e).getD j [] =
        (L.take s ++ M2 ++ L.drop e).getD j [] ∨
      (s ≤ j ∧ parseSort ((L.take s ++ M2 ++ L.drop e).getD j []) ≠ none ∧
        ∃ si, (∀ x2 ∈ si, isSpace x2 = true) ∧
        (L.take s ++ M3 ++ L.drop e).getD j [] = si ++ "sort: 100".toList ++ ['\n'])) := by
    intro j hj
    rcases hmap with ⟨hlen3, hrow⟩ | ⟨p, hlen3, hps, hpe, hhdrp, -, hlow, -, -⟩
    · rcases hrow j with heqr | ⟨hj1, hj2, hjsort, si, hsiws, hrowj⟩
      · exact Or.inl heqr
      · exact Or.inr ⟨hj1, hjsort, si, hsiws, hrowj⟩
    · obtain ⟨hp1, -⟩ := hhdrp h ind (line_ending (L.getD h [])) rfl
      exact Or.inl (hlow j (by omega))
  have hrowhkeep : (L.take s ++ M3 ++ L.drop e).getD h [] = L.getD h [] := by
    rcases hrow2 h (le_refl h) with heqr | ⟨-, hjsort, -⟩
    · rw [heqr]
      exact hrowlo h (by omega)
    · rw [hrowlo h (by omega)] at hjsort
      exact absurd (parseSort_of_availHdr hparse) hjsort
  have hrowskeep : (L.take s ++ M3 ++ L.drop e).getD s [] = L.getD s [] := by
    rcases hrow2 s (by omega) with heqr | ⟨-, hjsort, -⟩
    · rw [heqr]
      exact hrowlo s (by omega)
    · rw [hrowlo s (by omega), parseSort_of_recordStart hstart] at hjsort
      exact absurd rfl hjsort
  have hrecLL1 : ∀ j2, s < j2 → j2 < s + M2.length →
      parseRecordStart ((L.take s ++ M2 ++ L.drop e).getD j2 []) = none := by
    intro j2 hj1 hj2
    by_cases hjlo : j2 < h + 1
    · rw [hrowlo j2 hjlo]
      exact hint j2 hj1 (by omega)
    · by_cases hjit : j2 < h + 1 + nnums.length
      · rw [show j2 = h + 1 + (j2 - h - 1) from by omega,
          hrowit (j2 - h - 1) (by omega)]
        exact hitemrec _ (by omega)
      · rw [show j2 = h + 1 + nnums.length + (j2 - h - 1 - nnums.length)
            from by omega] at hj2 ⊢
        rw [hrowhi _ hj2]
        rw [hM2len] at hj2
        exact hint _ (by omega) (by omega)
  refine ⟨M3, hpb1, hM3prop, ?_, hrowskeep, ?_⟩
  · intro j h1 h2
    rcases hmap with ⟨hlen3, hrow⟩ | ⟨p, hlen3, hps, hpe, -, -, hlow, ⟨si, hsiws, hsirow⟩,
      hhigh⟩
    · rcases hrow j with heqr | ⟨-, -, -, si, hsiws, hrowj⟩
      · rw [heqr]
        exact hrecLL1 j h1 (by omega)
      · rw [hrowj]
        exact (sortline_shape_facts hsiws rfl).2.2.1
    · rcases Nat.lt_trichotomy j p with hj | hj | hj
      · rw [hlow j hj]
        exact hrecLL1 j h1 (by omega)
      · subst hj
        rw [hsirow]
        exact (sortline_shape_facts hsiws rfl).2.2.1
      · rw [hhigh j hj]
        exact hrecLL1 (j - 1) (by omega) (by omega)
  · have hfa2 : findAvailFrom (L.take s ++ M3 ++ L.drop e) s (s + M3.length) =
        some (h, ind, rest, com) := by
      refine (findAvailGo_eq_some _ s (s + M3.length - s) h ind rest com).mpr ?_
      have hlen2 : e - k ≤ s + M3.length := by
        rcases hmap with ⟨hlen3, -⟩ | ⟨p, hlen3, -⟩ <;> omega
      refine ⟨hhs, by omega, ?_, ?_⟩
      · rw [hrowhkeep]
        exact hparse
      · intro j hj1 hj2
        rcases hrow2 j (by omega) with heqr | ⟨-, -, si, hsiws, hrowj⟩
        · rw [heqr, hrowlo j (by omega)]
          exact hbefore j hj1 (by omega)
        · rw [hrowj]
          exact (sortline_shape_facts hsiws rfl).2.1
    have hfilt2 : (nnums.filter (fun n => n != m)).length = nnums.length := by
      rw [hnndef, filter_idem]
    rcases hmap with ⟨hlen3, hrow⟩ | ⟨p, hlen3, hps, hpe, hhdrp, -, hlow,
      ⟨si, hsiws, hsirow⟩, hhigh⟩
    · -- no sort insertion: the round-2 scan sees exactly the reinserted items
      have hvals2 : ∀ d, d < nnums.length →
          parseItem iind ((L.take s ++ M3 ++ L.drop e).getD (h + 1 + d) []) =
            some (nnums.getD d 0) := by
        intro d hd
        rcases hrow (h + 1 + d) with heqr | ⟨-, -, hjsort, -⟩
        · rw [heqr, hrowit d hd, hitem_get d hd]
          exact hitemparse _
        · rw [hrowit d hd, hitem_get d hd] at hjsort
          exact absurd (parseSort_of_parseItem hiindws (hitemparse _)).1 hjsort
      have hstop2 : h + 1 + nnums.length = s + M3.length ∨
          parseItem iind
            ((L.take s ++ M3 ++ L.drop e).getD (h + 1 + nnums.length) []) = none := by
        by_cases hke : h + 1 + k = e
        · left
          omega
        · right
          have hbl : h + 1 + nnums.length + 0 < s + M2.length := by
            rw [hM2len]
            omega
          have hstopP : parseItem iind (L.getD (h + 1 + k) []) = none := by
            rcases hstop1 with hh | hh
            · exact absurd hh (by omega)
            · exact hh
          rcases hrow (h + 1 + nnums.length) with heqr | ⟨-, -, -, si, hsiws, hrowj⟩
          · rw [heqr, show h + 1 + nnums.length = h + 1 + nnums.length + 0 from rfl,
              hrowhi 0 hbl]
            exact hstopP
          · rw [hrowj]
            exact (sortline_shape_facts hsiws rfl).2.2.2 iind
      have hscan2 := scanItems_spec (L.take s ++ M3 ++ L.drop e) iind (h + 1)
        (s + M3.length) nnums (by omega) hvals2 hstop2
      have havail2 : availPhase (L.take s ++ M3 ++ L.drop e) s (s + M3.length) m =
          (L.take s ++ M3 ++ L.drop e, s + M3.length, false,
            some (h, ind,
              line_ending ((L.take s ++ M3 ++ L.drop e).getD h []))) := by
        rw [availPhase_block hfa2 hin hscan2, if_neg hnlen0, if_pos hfilt2]
      rw [patchBlock_glue, havail2,
        sortPhase_of_found100 _ s (s + M3.length) _ i2 sind2 hfind]
      rfl
    · -- a `sort: 100` line was inserted at `p`, past the reinserted items
      obtain ⟨hp1, hstrip, hstopp⟩ := hhdrp h ind (line_ending (L.getD h [])) rfl
      have hLL1len : (L.take s ++ M2 ++ L.drop e).length =
          s + M2.length + (L.length - e) := by
        simp only [List.length_append, List.length_take, List.length_drop]
        omega
      have hp_ge : h + 1 + nnums.length ≤ p := by
        by_contra hc
        push_neg at hc
        have hd : p - h - 1 < nnums.length := by omega
        have hrp : (L.take s ++ M2 ++ L.drop e).getD p [] = items.getD (p - h - 1) [] := by
          have hq2 := hrowit (p - h - 1) hd
          rw [show h + 1 + (p - h - 1) = p from by omega] at hq2
          exact hq2
        have hstripp : stripItemTest ((L.take s ++ M2 ++ L.drop e).getD p []) = true := by
          rw [hrp, hitem_get _ hd]
          exact itemLine_stripItemTest iind _ inl hiindws hinlws
        rcases hstopp with hq | hq
        · rw [hstripp] at hq
          exact Bool.noConfusion hq
        · rw [hLL1len] at hq
          rw [hM2len] at hq
          omega
      have hvals2 : ∀ d, d < nnums.length →
          parseItem iind ((L.take s ++ M3 ++ L.drop e).getD (h + 1 + d) []) =
            some (nnums.getD d 0) := by
        intro d hd
        rw [hlow (h + 1 + d) (by omega), hrowit d hd, hitem_get d hd]
        exact hitemparse _
      have hstop2 : h + 1 + nnums.length = s + M3.length ∨
          parseItem iind
            ((L.take s ++ M3 ++ L.drop e).getD (h + 1 + nnums.length) []) = none := by
        right
        by_cases hpe2 : p = h + 1 + nnums.length
        · rw [← hpe2, hsirow]
          exact (sortline_shape_facts hsiws rfl).2.2.2 iind
        · have hplt : h + 1 + nnums.length < p := by omega
          by_cases hke : h + 1 + k = e
          · exfalso
            rw [hM2len] at hpe
            omega
          · have hbl : h + 1 + nnums.length + 0 < s + M2.length := by
              rw [hM2len]
              omega
            have hstopP : parseItem iind (L.getD (h + 1 + k) []) = none := by
              rcases hstop1 with hh | hh
              · exact absurd hh (by omega)
              · exact hh
            rw [hlow (h + 1 + nnums.length) hplt,
              show h + 1 + nnums.length = h + 1 + nnums.length + 0 from rfl,
              hrowhi 0 hbl]
            exact hstopP
      have hscan2 := scanItems_spec (L.take s ++ M3 ++ L.drop e) iind (h + 1)
        (s + M3.length) nnums (by rw [hM2len] at hpe; omega) hvals2 hstop2
      have havail2 : availPhase (L.take s ++ M3 ++ L.drop e) s (s + M3.length) m =
          (L.take s ++ M3 ++ L.drop e, s + M3.length, false,
            some (h, ind,
              line_ending ((L.take s ++ M3 ++ L.drop e).getD h []))) := by
        rw [availPhase_block hfa2 hin hscan2, if_neg hnlen0, if_pos hfilt2]
      rw [patchBlock_glue, havail2,
        sortPhase_of_found100 _ s (s + M3.length) _ i2 sind2 hfind]
      rfl

end AutoClose

namespace AutoClose

/-- Round-2 stability of `patchBlock` on a well-formed block of a proper-LF
document: one run confines its edits to the block, preserves line properness
and the record row, introduces no new record starts, and a second run on the
result (with the refreshed window) changes nothing. -/
theorem patchBlock_round2 (L : List Line) (s e m : Nat) {ind0 nm : Line}
    (hse : s < e) (hel : e ≤ L.length)
    (hstart : parseRecordStart (L.getD s []) = some (ind0, nm))
    (hint : ∀ j, s < j → j < e → parseRecordStart (L.getD j []) = none)
    (hbnd : e = L.length ∨ isRecordStart (L.getD e []) = true)
    (hprop : ∀ l ∈ L, properLFb l = true) :
    ∃ M3, (patchBlock L s e m).1 = L.take s ++ M3 ++ L.drop e ∧
      (∀ l ∈ M3, properLFb l = true) ∧
      (∀ j, s < j → j < s + M3.length →
        parseRecordStart ((L.take s ++ M3 ++ L.drop e).getD j []) = none) ∧
      (L.take s ++ M3 ++ L.drop e).getD s [] = L.getD s [] ∧
      patchBlock (L.take s ++ M3 ++ L.drop e) s (s + M3.length) m =
        (L.take s ++ M3 ++ L.drop e, false) := by
  cases hfa : findAvailFrom L s e with
  | none => exact patchBlock_round2_none L s e m hse hel hstart hint hprop hfa
  | some v =>
    obtain ⟨h, ind, rest, com⟩ := v
    by_cases hin : (rest.contains '[' && rest.contains ']') = true
    · exact patchBlock_round2_inline L s e m hse hel hstart hint hbnd hprop hfa hin
    · rw [Bool.not_eq_true] at hin
      by_cases hk0 : (scanItems L (ind ++ "  ".toList) (h + 1) e).2.1 = 0
      · exact patchBlock_round2_block_keep L s e m hse hel hstart hint hbnd hprop hfa
          hin (Or.inl hk0)
      · by_cases hfeq : ((scanItems L (ind ++ "  ".toList) (h + 1) e).1.filter
            (fun n => n != m)).length =
          (scanItems L (ind ++ "  ".toList) (h + 1) e).1.length
        · exact patchBlock_round2_block_keep L s e m hse hel hstart hint hbnd hprop hfa
            hin (Or.inr hfeq)
        · by_cases hemp : ((scanItems L (ind ++ "  ".toList) (h + 1) e).1.filter
              (fun n => n != m)).isEmpty = true
          · exact patchBlock_round2_block_collapse L s e m hse hel hstart hint hbnd hprop
              hfa hin hk0 hemp
          · rw [Bool.not_eq_true] at hemp
            exact patchBlock_round2_block_reinsert L s e m hse hel hstart hint hbnd hprop
              hfa hin hk0 hfeq hemp

/-- C3 (amended): patching is idempotent for single-mentor worklists on
documents whose every line ends in `'\n'` — applying the patch a second time
to the output of a first patch, with the same worklist and month, reports
`changed = []` and returns the text unchanged. -/
theorem spec_c3_amended (text w : Line) (month : Nat)
    (hLF : ∀ l ∈ splitlines text, properLFb l = true) :
    (apply_text_patches (apply_text_patches text [w] month).1 [w] month).2.1 = [] ∧
    (apply_text_patches (apply_text_patches text [w] month).1 [w] month).1 =
      (apply_text_patches text [w] month).1 := by
  cases hlk : lookupBlock (buildBlocks (splitlines text)) (normalize w) with
  | none =>
    have h1 : apply_text_patches text [w] month = (text, [], [w]) := by
      unfold apply_text_patches
      simp only [List.foldl_cons, List.foldl_nil, hlk]
      rw [joinLines_splitlines]
      simp
    have hfst : (apply_text_patches text [w] month).1 = text := by rw [h1]
    rw [hfst, h1]
    exact ⟨rfl, rfl⟩
  | some v =>
    obtain ⟨s, e, bind, bnm⟩ := v
    obtain ⟨hstart, hkey, hslt, hle, hint, hbnd, hlast⟩ := lookupBlock_spec hlk
    set L := splitlines text with hLdef
    obtain ⟨M3, hpb, hM3prop, hrecM3, hrowS, hpb2⟩ :=
      patchBlock_round2 L s e month hslt hle hstart hint hbnd hLF
    set L2 := L.take s ++ M3 ++ L.drop e with hL2def
    have hL2len : L2.length = s + M3.length + (L.length - e) := by
      rw [hL2def]
      simp only [List.length_append, List.length_take, List.length_drop]
      omega
    have happ1 : apply_text_patches text [w] month =
        (joinLines L2, if (patchBlock L s e month).2 then [bnm] else [], []) := by
      rw [apply_single text w month s e bind bnm hlk]
      rw [hpb]
    have hprop2 : ∀ l ∈ L2, properLFb l = true := by
      intro l hl
      rcases List.mem_append.mp hl with hl2 | hl2
      · rcases List.mem_append.mp hl2 with hl3 | hl3
        · exact hLF l ((List.take_sublist s L).subset hl3)
        · exact hM3prop l hl3
      · exact hLF l ((List.drop_sublist e L).subset hl2)
    have hsplit2 : splitlines (joinLines L2) = L2 :=
      splitlines_joinLines_proper L2 hprop2
    have hstart2 : parseRecordStart (L2.getD s []) = some (bind, bnm) := by
      rw [hL2def, hrowS]
      exact hstart
    have hM3pos : 0 < M3.length := by
      by_contra hc
      push_neg at hc
      have h0 : M3.length = 0 := by omega
      have hps := hpb2
      rw [h0] at hps
      rw [patchBlock_glue] at hps
      have hfa0 : findAvailFrom L2 s (s + 0) = none := by
        unfold findAvailFrom
        rw [show s + 0 - s = 0 from by omega]
        rfl
      rw [availPhase_none hfa0] at hps
      have hfs0 : findSortFrom L2 s (s + 0) = none := by
        unfold findSortFrom
        rw [show s + 0 - s = 0 from by omega]
        rfl
      rw [sortPhase_insert_nohdr hfs0] at hps
      have h2 := congrArg Prod.snd hps
      simp at h2
    have hs2 : s < L2.length := by
      by_contra hc
      push_neg at hc
      rw [List.getD_eq_getElem?_getD, List.getElem?_eq_none hc] at hstart2
      have hn : parseRecordStart (Option.getD (none : Option Line) []) = none := by
        decide
      rw [hn] at hstart2
      exact Option.noConfusion hstart2
    have h3' : ∀ j v1 v2, j < L2.length →
        parseRecordStart (L2.getD j []) = some (v1, v2) →
        normalize v2 = normalize w → j ≤ s := by
      intro j v1 v2 hjlen hjparse hjkey
      by_cases hjs : j ≤ s
      · exact hjs
      · push_neg at hjs
        by_cases hjm : j < s + M3.length
        · rw [hL2def, hrecM3 j hjs hjm] at hjparse
          exact Option.noConfusion hjparse
        · push_neg at hjm
          have hrow : L2.getD j [] = L.getD (e + (j - s - M3.length)) [] := by
            rw [hL2def,
              getD_append_at (L.take s ++ M3) (L.drop e) j (j - s - M3.length)
                (by rw [List.length_append, List.length_take]; omega),
              getD_drop]
          rw [hrow] at hjparse
          have := hlast _ v1 v2 hjparse (by omega) hjkey
          omega
    have h7' : s + M3.length = L2.length ∨
        isRecordStart (L2.getD (s + M3.length) []) = true := by
      rcases hbnd with hb | hb
      · left
        rw [hL2len]
        omega
      · right
        rw [hL2def,
          getD_append_at (L.take s ++ M3) (L.drop e) (s + M3.length) 0
            (by rw [List.length_append, List.length_take]; omega),
          getD_drop, Nat.add_zero]
        exact hb
    have hlk2 : lookupBlock (buildBlocks L2) (normalize w) =
        some (s, s + M3.length, bind, bnm) :=
      lookupBlock_build_eq L2 (normalize w) s (s + M3.length) bind bnm hstart2 hs2
        hkey h3' (by rw [hL2def] at hrecM3 ⊢; exact hrecM3) (by omega) (by omega) h7'
    have happ2 : apply_text_patches (joinLines L2) [w] month =
        (joinLines L2, [], []) := by
      have ha := apply_single (joinLines L2) w month s (s + M3.length) bind bnm
        (by rw [hsplit2]; exact hlk2)
      rw [hsplit2] at ha
      rw [hL2def] at ha hpb2
      rw [hpb2] at ha
      rw [hL2def, ha]
      rfl
    have hfst : (apply_text_patches text [w] month).1 = joinLines L2 := by
      rw [happ1]
    rw [hfst, happ2]
    exact ⟨rfl, rfl⟩

/-- Witness for C3 (amended) at a concrete inline-availability document. -/
theorem spec_c3_witness :
    (∀ l ∈ splitlines ("- name: A\n  availability: [9, 10]\n".toList),
      properLFb l = true) ∧
    ((apply_text_patches (apply_text_patches
        ("- name: A\n  availability: [9, 10]\n".toList) ["A".toList] 9).1
        ["A".toList] 9).2.1 = [] ∧
     (apply_text_patches (apply_text_patches
        ("- name: A\n  availability: [9, 10]\n".toList) ["A".toList] 9).1
        ["A".toList] 9).1 =
      (apply_text_patches ("- name: A\n  availability: [9, 10]\n".toList)
        ["A".toList] 9).1) :=
  ⟨by decide, spec_c3_amended ("- name: A\n  availability: [9, 10]\n".toList)
    ("A".toList) 9 (by decide)⟩

end AutoClose
